import Mathlib

/-!
# vtsh: a script-driven command interpreter and its process launcher

A shallow embedding of `lab/vtsh/bin/main.c` (the interpreter) and
`lab/vtsh/bin/proc_clone.c` (the launcher backend).

Conventions of the embedding.

* A C string is the list of its characters before the terminating NUL
  (`CStr`); `strlen` is `List.length`. The buffer returned by
  `read_all_stdin` may hold NUL bytes, and every later use of it is through
  C-string functions, so `main` sees `c_str` of the bytes read.
* `malloc`, `realloc`, `calloc` and `strdup` succeed, and so does `fork`;
  the failure branches of those calls are not embedded.
* The operating system is a parameter (`OS`, `BackendOS`): it decides which
  files open, which pipes can be created and how processes terminate. Its
  answers may depend on everything that happened before (the trace).
* Loops are structural recursions on a fuel argument; the fuel each caller
  passes is shown to be enough (`lexer_loop_fuel`, `parse_loop_fuel`,
  `chain_loop_fuel`, `segments_fuel`, `main_loop_fuel`).
-/

namespace Vtsh

/-- The characters of a C string, terminator excluded. -/
abbrev CStr := List Char

/-- The C string stored in a byte buffer: the bytes before the first NUL. -/
def c_str (buf : List Char) : CStr :=
  buf.takeWhile (fun c => c != '\x00')

/-- Copy of `s[a, b)`, empty when `b <= a` (`dup_range`). -/
def dup_range (s : CStr) (a b : Nat) : CStr :=
  (s.drop a).take (b - a)

/-- Blank of the interpreter: space or tab (`is_space`). -/
def is_space (c : Char) : Bool :=
  c == ' ' || c == '\t'

/-- The C library `isspace` in the "C" locale. -/
def isspace (c : Char) : Bool :=
  c == ' ' || c == '\t' || c == '\n' || c == '\x0b' || c == '\x0c' || c == '\r'

/-- Whether the string holds only blanks, newlines and carriage returns
(`is_empty_or_ws`). -/
def is_empty_or_ws (s : CStr) : Bool :=
  s.all (fun c => is_space c || c == '\n' || c == '\r')

/-- Copy of `s` without leading and trailing blanks (`trim_copy`). -/
def trim_copy (s : CStr) : CStr :=
  let n := s.length
  let a := (s.takeWhile is_space).length
  let b := n - ((s.drop a).reverse.takeWhile is_space).length
  dup_range s a b

/-- First index at which `needle` occurs in `hay`, if any (C library `strstr`). -/
def strstr : CStr → CStr → Option Nat
  | [], needle => if needle = [] then some 0 else none
  | c :: cs, needle =>
    if needle.isPrefixOf (c :: cs) then some 0
    else (strstr cs needle).map (· + 1)

inductive TokenType where
  | T_EOF | T_WORD | T_LT | T_GT | T_LT_PATH | T_GT_PATH | T_ERR
  deriving DecidableEq, Repr

structure Token where
  type : TokenType
  text : Option CStr
  deriving DecidableEq, Repr

structure Lexer where
  s : CStr
  n : Nat
  i : Nat
  deriving DecidableEq, Repr

inductive State where
  | S_START | S_WORD | S_LT | S_GT | S_LT_PATH | S_GT_PATH | S_DONE | S_ERR
  deriving DecidableEq, Repr

def lexer_init (s : CStr) : Lexer :=
  { s := s, n := s.length, i := 0 }

def make_token (t : TokenType) (text : Option CStr) : Token :=
  { type := t, text := text }

/-- The code of `lexer_next` after its loop: the string ended in state `st`. -/
def lexer_flush (s : CStr) (st : State) (start i : Nat) : Token × Nat :=
  match st with
  | .S_WORD => (make_token .T_WORD (some (dup_range s start i)), i)
  | .S_LT => (make_token .T_LT none, i)
  | .S_GT => (make_token .T_GT none, i)
  | .S_LT_PATH => (make_token .T_LT_PATH (some (dup_range s (start + 1) i)), i)
  | .S_GT_PATH => (make_token .T_GT_PATH (some (dup_range s (start + 1) i)), i)
  | _ => (make_token .T_EOF none, i)

/-- The `while (lx->i < lx->n)` loop of `lexer_next`, one iteration per unit
of fuel; returns the token and the final cursor. -/
def lexer_loop (s : CStr) (n : Nat) : Nat → State → Nat → Nat → Token × Nat
  | 0, st, start, i => lexer_flush s st start i
  | fuel + 1, st, start, i =>
    if i < n then
      let c := s.getD i '\x00'
      match st with
      | .S_START =>
        if isspace c then lexer_loop s n fuel .S_START (start + 1) (i + 1)
        else if c = '<' then lexer_loop s n fuel .S_LT start (i + 1)
        else if c = '>' then lexer_loop s n fuel .S_GT start (i + 1)
        else lexer_loop s n fuel .S_WORD start (i + 1)
      | .S_WORD =>
        if isspace c then (make_token .T_WORD (some (dup_range s start i)), i)
        else lexer_loop s n fuel .S_WORD start (i + 1)
      | .S_LT =>
        if i < n ∧ ¬ isspace c then lexer_loop s n fuel .S_LT_PATH start i
        else (make_token .T_LT none, i)
      | .S_GT =>
        if c = '>' then (make_token .T_ERR (some ">>".toList), i)
        else if i < n ∧ ¬ isspace c then lexer_loop s n fuel .S_GT_PATH start i
        else (make_token .T_GT none, i)
      | .S_LT_PATH =>
        if isspace c then (make_token .T_LT_PATH (some (dup_range s (start + 1) i)), i)
        else lexer_loop s n fuel .S_LT_PATH start (i + 1)
      | .S_GT_PATH =>
        if isspace c then (make_token .T_GT_PATH (some (dup_range s (start + 1) i)), i)
        else lexer_loop s n fuel .S_GT_PATH start (i + 1)
      | _ => (make_token .T_ERR none, i)
    else lexer_flush s st start i

/-- One token from the cursor on (`lexer_next`); the lexer comes back with
its cursor advanced. -/
def lexer_next (lx : Lexer) : Token × Lexer :=
  let r := lexer_loop lx.s lx.n (lx.n - lx.i + 2) .S_START lx.i lx.i
  (r.1, { lx with i := r.2 })

structure Redirection where
  in_path : Option CStr
  out_path : Option CStr
  has_in : Bool
  has_out : Bool
  deriving DecidableEq, Repr

/-- A command under construction: `argv` holds the `argc` arguments pushed so
far (the capacity and the NULL terminator of the C array are not kept). -/
structure Command where
  argv : List CStr
  rd : Redirection
  deriving DecidableEq, Repr

def command_init : Command :=
  { argv := [], rd := { in_path := none, out_path := none, has_in := false, has_out := false } }

def command_push_arg (cmd : Command) (arg_owned : CStr) : Command :=
  { cmd with argv := cmd.argv ++ [arg_owned] }

/-- What `parse_command_ast` hands back: `ok cmd` for `true` with the command
built, `fail synt_err` for `false` with the value left in `*synt_err`. -/
inductive ParseResult where
  | ok (cmd : Command)
  | fail (synt_err : Bool)
  deriving DecidableEq, Repr

/-- The text of a token as a C string (empty for a NULL text). -/
def Token.chars (t : Token) : CStr :=
  t.text.getD []

/-- The `for (;;)` loop of `parse_command_ast`, one iteration per unit of fuel. -/
def parse_loop : Nat → Lexer → Command → ParseResult
  | 0, _, _ => .fail false
  | fuel + 1, lx, out_cmd =>
    let (t, lx1) := lexer_next lx
    match t.type with
    | .T_ERR => .fail true
    | .T_EOF => .ok out_cmd
    | .T_WORD => parse_loop fuel lx1 (command_push_arg out_cmd t.chars)
    | .T_LT_PATH =>
      if out_cmd.rd.has_in then .fail true
      else parse_loop fuel lx1
        { out_cmd with rd := { out_cmd.rd with has_in := true, in_path := t.text } }
    | .T_GT_PATH =>
      if out_cmd.rd.has_out then .fail true
      else parse_loop fuel lx1
        { out_cmd with rd := { out_cmd.rd with has_out := true, out_path := t.text } }
    | .T_LT | .T_GT =>
      let is_in := decide (t.type = .T_LT)
      let (p, lx2) := lexer_next lx1
      if p.type = .T_ERR ∨ p.type = .T_EOF then .fail true
      else if p.type ≠ .T_WORD then .fail true
      else if p.text.isSome ∧ (p.chars.head? = some '<' ∨ p.chars.head? = some '>') then .fail true
      else if is_in then
        if out_cmd.rd.has_in then .fail true
        else parse_loop fuel lx2
          { out_cmd with rd := { out_cmd.rd with has_in := true, in_path := p.text } }
      else
        if out_cmd.rd.has_out then .fail true
        else parse_loop fuel lx2
          { out_cmd with rd := { out_cmd.rd with has_out := true, out_path := p.text } }

/-- Tokenize and build the command of one segment (`parse_command_ast`). -/
def parse_command_ast (seg : CStr) : ParseResult :=
  parse_loop (seg.length + 1) (lexer_init seg) command_init

/-- The tokens `lexer_next` yields from `lx` on, up to and including the
first end-of-input or error token. -/
def tokens_from : Nat → Lexer → List Token
  | 0, _ => []
  | fuel + 1, lx =>
    let (t, lx1) := lexer_next lx
    if t.type = .T_EOF ∨ t.type = .T_ERR then [t] else t :: tokens_from fuel lx1

/-- The token stream of a segment. -/
def tokenize (seg : CStr) : List Token :=
  tokens_from (seg.length + 1) (lexer_init seg)

/-! ## The launcher backend (`proc_clone.c`) -/

/-- How a waited-for process ended, as the `W*` macros of `<sys/wait.h>` read
the status word: `exited s` when `WIFEXITED` (with `WEXITSTATUS = s`),
`signaled n` when `WIFSIGNALED` (with `WTERMSIG = n`), `other` when neither. -/
inductive WaitStatus where
  | exited (status : Nat)
  | signaled (sig : Nat)
  | other
  deriving DecidableEq, Repr

structure ChildContext where
  argv_for_exec : Option (List CStr)
  should_exec : Bool
  deriving DecidableEq, Repr

/-- What `execvp` does in the new process: it returns (failure), or the image
is replaced by a program that later ends with the given status. -/
inductive Execvp where
  | fails
  | replaced (st : WaitStatus)
  deriving DecidableEq, Repr

structure Timespec where
  tv_sec : Int
  tv_nsec : Int
  deriving DecidableEq, Repr

/-- Output and process events of the backend. -/
inductive BEvent where
  | stdout (data : CStr)
  | stderr (data : CStr)
  | perror (tag : CStr)
  | clone (context : ChildContext)
  deriving DecidableEq, Repr

/-- The environment of one backend run. -/
structure BackendOS where
  stack_ok : Bool
  clone_ok : Bool
  execvp : Execvp
  wait_ok : Bool
  t_start : Timespec
  t_end : Timespec
  pid : Nat
  child_pid : Nat
  deriving DecidableEq, Repr

/-- Decimal text of an integer (`%d`, `%ld`). -/
def fmt_int (x : Int) : CStr :=
  (toString x).toList

/-- Whether `PROC_CLONE_QUIET` is set to something other than `0`. -/
def quiet_of (quiet_env : Option CStr) : Bool :=
  match quiet_env with
  | some v => v != "0".toList
  | none => false

/-- Entry function of the new process (`child_main`): the status the new
process ends with and what it writes. A return value `r` of the entry
function is the exit status `r` of the process. -/
def child_main (context : ChildContext) (quiet_env : Option CStr) (pid ppid : Nat)
    (ex : Execvp) : WaitStatus × List BEvent :=
  if context.should_exec then
    match ex with
    | .replaced st => (st, [])
    | .fails => (.exited 127, [.perror "execvp".toList])
  else
    let quiet := quiet_of quiet_env
    if !quiet then
      (.exited 0, [.stdout ("[child] pid=".toList ++ fmt_int pid ++ " ppid=".toList
        ++ fmt_int ppid ++ "\n".toList)])
    else (.exited 0, [])

/-- The value a `long` holds after an operation whose exact result is `x`:
the result reduced modulo 2^64 into the range of `long`. Signed overflow is
undefined in C; the build for x86-64 wraps around in this way. -/
def wrap_long (x : Int) : Int :=
  (x + 9223372036854775808) % 18446744073709551616 - 9223372036854775808

/-- The milliseconds from `b` to `a` (`timespec_diff_ms`), every operation
done in `long`; `/` rounds toward zero. -/
def timespec_diff_ms (a b : Timespec) : Int :=
  let sec := wrap_long (a.tv_sec - b.tv_sec)
  let nsec := wrap_long (a.tv_nsec - b.tv_nsec)
  wrap_long (wrap_long (sec * 1000) + Int.tdiv nsec 1000000)

/-- The `for` loop of the backend's `main` over `argv[i..]`: the value of
`first_cmd_index` after it. -/
def scan_dashdash : List CStr → Nat → Nat
  | [], _ => 1
  | a :: rest, i => if a = "--".toList then i + 1 else scan_dashdash rest (i + 1)

structure BackendResult where
  exit_code : Nat
  out : List BEvent
  deriving DecidableEq, Repr

/-- The name printed in the timing line. -/
def time_name (context : ChildContext) : CStr :=
  match context.argv_for_exec with
  | some (a :: _) => a
  | some [] => []
  | none => "<none>".toList

/-- The backend's `main`. -/
def proc_clone_main (argv : List CStr) (quiet_env : Option CStr) (B : BackendOS) :
    BackendResult :=
  let argc := argv.length
  let quiet := quiet_of quiet_env
  let first_cmd_index := scan_dashdash (argv.drop 1) 1
  if first_cmd_index = 1 ∧ argc > 1 ∧ (argv.getD 1 []).head? = some '-' then
    ⟨2, [.stderr ("Usage: ".toList ++ argv.getD 0 [] ++ " [--] [command [args...]]\n".toList)]⟩
  else
    let have_command := decide (first_cmd_index < argc)
    let context : ChildContext :=
      { argv_for_exec := if have_command then some (argv.drop first_cmd_index) else none,
        should_exec := have_command }
    if !B.stack_ok then ⟨12, [.perror "malloc (stack)".toList]⟩
    else if !B.clone_ok then ⟨1, [.perror "clone".toList]⟩
    else
      let child := child_main context quiet_env B.child_pid B.pid B.execvp
      let ev := [BEvent.clone context] ++ child.2
      if !B.wait_ok then ⟨1, ev ++ [.perror "waitpid".toList]⟩
      else
        let elapsed_ms := timespec_diff_ms B.t_end B.t_start
        match child.1 with
        | .exited child_exit_status =>
          ⟨child_exit_status,
            ev ++ (if !quiet then [BEvent.stdout ("[parent] child ".toList ++ fmt_int B.child_pid
                ++ " exited with ".toList ++ fmt_int child_exit_status ++ " in ".toList
                ++ fmt_int elapsed_ms ++ " ms\n".toList)] else [])
              ++ [.stderr ("[time] ".toList ++ time_name context ++ " ".toList
                ++ fmt_int elapsed_ms ++ " ms rc=".toList ++ fmt_int child_exit_status
                ++ "\n".toList)]⟩
        | .signaled sig =>
          ⟨128 + sig,
            ev ++ (if !quiet then [BEvent.stdout ("[parent] child ".toList ++ fmt_int B.child_pid
                ++ " killed by signal ".toList ++ fmt_int sig ++ " in ".toList
                ++ fmt_int elapsed_ms ++ " ms\n".toList)] else [])
              ++ [.stderr ("[time] ".toList ++ time_name context ++ " ".toList
                ++ fmt_int elapsed_ms ++ " ms rc=".toList ++ fmt_int (128 + sig)
                ++ " (signal ".toList ++ fmt_int sig ++ ")\n".toList)]⟩
        | .other =>
          ⟨1,
            ev ++ (if !quiet then [BEvent.stdout ("[parent] child ".toList ++ fmt_int B.child_pid
                ++ " finished in ".toList ++ fmt_int elapsed_ms
                ++ " ms (unknown status)\n".toList)] else [])
              ++ [.stderr ("[time] Command \x27".toList ++ time_name context ++ "\x27 ".toList
                ++ fmt_int elapsed_ms ++ " ms rc=".toList ++ fmt_int 1 ++ "\n".toList)]⟩

/-! ## The launch front-end and the chain evaluator (`main.c`) -/

inductive SegResult where
  | SEG_CONTINUE | SEG_BREAK | SEG_EXIT
  deriving DecidableEq, Repr

/-- Where the supervisor's standard input comes from after the `dup2` calls. -/
inductive StdinSrc where
  | file (path : CStr)
  | feed_pipe
  | inherited
  deriving DecidableEq, Repr

/-- Where the supervisor's standard output goes after the `dup2` calls. -/
inductive StdoutDst where
  | file (path : CStr)
  | capture_pipe
  deriving DecidableEq, Repr

/-- What the interpreter does, in order. `call` records an invocation of
`run_command` with its arguments and `seg_done` the return of
`execute_segment` with the segment, its result and `last_rc`; the others are
system calls and writes of the interpreter process: `stdout` is a message of
the interpreter itself, `drain` the bytes of the capture pipe copied to its
standard output, `feed` the bytes of the payload written to the feed pipe.
The records `sigpipe` and `blocked` tell that the interpreter does not get
past the write of the payload: with `sigpipe` a `write` found the feed pipe
without a reader and the signal SIGPIPE, which the interpreter leaves at its
default action, ended the process; with `blocked` a `write` never returns.
The run of the interpreter is the trace up to such a record
(`process_trace`); what the functions below add after it does not happen. -/
inductive Event where
  | call (argv : List CStr) (rd : Redirection) (stdin_data : Option CStr)
  | open_in (path : CStr) (ok : Bool)
  | open_out (path : CStr) (ok : Bool)
  | pipe (ok : Bool)
  | fork (proc_path : CStr) (pc_argv : List CStr) (stdin_from : StdinSrc)
      (stdout_to : StdoutDst)
  | feed (data : CStr)
  | drain (data : CStr)
  | stdout (data : CStr)
  | stderr (data : CStr)
  | wait (st : WaitStatus)
  | seg_done (seg : CStr) (res : SegResult) (last_rc : Nat)
  | sigpipe
  | blocked
  deriving DecidableEq, Repr

abbrev Trace := List Event

/-- How the loop that writes the payload to the feed pipe ends (`main.c`
lines 602-608). `returned k`: the loop is left after `k` bytes, all of the
payload, or fewer when a `write` returned `w <= 0`. `sigpipe k`: after `k`
bytes a `write` finds the pipe without a reader (the supervisor or the
command has ended or closed its input) and SIGPIPE ends the interpreter.
`blocked k`: after `k` bytes a `write` never returns, the pipe being full
and the command not reading, as when the command itself waits for its output
to be read, which the interpreter does only after the payload is written. -/
inductive FeedEnd where
  | returned (k : Nat)
  | sigpipe (k : Nat)
  | blocked (k : Nat)
  deriving DecidableEq, Repr

/-- What becomes of the forked supervisor. -/
inductive Supervisor where
  | exec_failed
  | backend (B : BackendOS)
  | signaled (sig : Nat)
  | other
  deriving DecidableEq, Repr

/-- The operating system as the interpreter sees it; every answer may depend
on the trace so far. `feed` tells how the write of a payload ends; a run
asks it at most once, since the command that gets a payload ends the script.
What is not in the record is taken to go well: the supervisor ends, so that
the read loop on the capture pipe reaches the end of file and `waitpid`
returns, and the standard output and error stream of the interpreter take
what is written to them. -/
structure OS where
  argv0 : Option CStr
  pid : Nat
  readlink : Trace → Option CStr
  open_in : Trace → CStr → Bool
  open_out : Trace → CStr → Bool
  pipe : Trace → Bool
  supervisor : Trace → Supervisor
  captured : Trace → CStr
  feed : CStr → FeedEnd

def PATH_MAX : Nat := 4096

/-- Index of the last occurrence of `c` in `s` (C library `strrchr`). -/
def strrchr (s : CStr) (c : Char) : Option Nat :=
  match s.reverse.indexOf? c with
  | some k => some (s.length - 1 - k)
  | none => none

/-- The value of `g_proc_clone_path` after `init_proc_clone_path_from_argv0`
(empty when left unset). -/
def init_proc_clone_path_from_argv0 (argv0 : Option CStr) : CStr :=
  match argv0 with
  | none => []
  | some a =>
    if a = [] then []
    else match strrchr a '/' with
      | none => []
      | some slash =>
        let dir_len := slash + 1
        if dir_len + "proc_clone".length + 1 ≥ PATH_MAX then []
        else a.take dir_len ++ "proc_clone".toList

/-- The path of the backend (`build_proc_clone_path` with a buffer of
`PATH_MAX` bytes); `link` is what `readlink("/proc/self/exe")` gives. -/
def build_proc_clone_path (g_proc_clone_path : CStr) (link : Option CStr) : CStr :=
  if g_proc_clone_path ≠ [] then g_proc_clone_path
  else match link with
    | none => "proc_clone".toList
    | some l =>
      let out := l.take (PATH_MAX - 1)
      match strrchr out '/' with
      | none => "proc_clone".toList
      | some last_slash =>
        let dir_len := last_slash + 1
        if dir_len + "proc_clone".length + 1 > PATH_MAX then "proc_clone".toList
        else out.take dir_len ++ "proc_clone".toList

/-- The descriptors of one `run_command` call: which ones are open. -/
structure ExecFds where
  in_fd : Bool
  out_fd : Bool
  pout : Bool
  pin : Bool
  feed_stdin : Bool
  deriving DecidableEq, Repr

def print_syntax_error (tr : Trace) : Trace :=
  tr ++ [.stdout "Syntax error\n".toList]

def print_io_error (tr : Trace) : Trace :=
  tr ++ [.stdout "I/O error\n".toList]

def print_cmd_not_found (tr : Trace) : Trace :=
  tr ++ [.stdout "Command not found\n".toList]

/-- Open the files of the redirection (`open_redirection_fds`): success,
which descriptors are open, and the trace. -/
def open_redirection_fds (W : OS) (rd : Redirection) (tr : Trace) : Bool × ExecFds × Trace :=
  let fds : ExecFds := ⟨false, false, false, false, false⟩
  let step_in : Option (ExecFds × Trace) :=
    if rd.has_in then
      let ok := W.open_in tr (rd.in_path.getD [])
      let tr1 := tr ++ [.open_in (rd.in_path.getD []) ok]
      if ok then some ({ fds with in_fd := true }, tr1) else none
    else some (fds, tr)
  match step_in with
  | none =>
    (false, fds, print_io_error (tr ++ [.open_in (rd.in_path.getD []) false]))
  | some (fds1, tr1) =>
    if rd.has_out then
      let ok := W.open_out tr1 (rd.out_path.getD [])
      let tr2 := tr1 ++ [.open_out (rd.out_path.getD []) ok]
      if ok then (true, { fds1 with out_fd := true }, tr2)
      else (false, fds1, print_io_error tr2)
    else (true, fds1, tr1)

/-- Create the capture and feed pipes (`setup_pipes`). -/
def setup_pipes (W : OS) (rd : Redirection) (stdin_data : Option CStr) (fds : ExecFds)
    (tr : Trace) : Bool × ExecFds × Trace :=
  let stdin_len := (stdin_data.getD []).length
  let feed := stdin_data.isSome && decide (stdin_len > 0) && !rd.has_in
  let fds0 := { fds with pout := false, pin := false, feed_stdin := feed }
  let step_out : Option (ExecFds × Trace) :=
    if !rd.has_out then
      let ok := W.pipe tr
      if ok then some ({ fds0 with pout := true }, tr ++ [.pipe true]) else none
    else some (fds0, tr)
  match step_out with
  | none => (false, fds0, tr ++ [.pipe false])
  | some (fds1, tr1) =>
    if fds1.feed_stdin then
      let ok := W.pipe tr1
      if ok then (true, { fds1 with pin := true }, tr1 ++ [.pipe true])
      else (false, { fds1 with pout := false }, tr1 ++ [.pipe false])
    else (true, fds1, tr1)

/-- The wait status of the supervisor: `_exit(1)` when its `execvp` fails,
the exit code of the backend when it became the backend (run with
`PROC_CLONE_QUIET=1`). -/
def supervisor_status (pc_argv : List CStr) : Supervisor → WaitStatus
  | .exec_failed => .exited 1
  | .backend B => .exited ((proc_clone_main pc_argv (some "1".toList) B).exit_code % 256)
  | .signaled sig => .signaled sig
  | .other => .other

/-- The loop of `run_command` that writes the payload to the feed pipe
(`main.c` lines 602-608): the bytes written, and the record of the end of
the process when the loop is not left. A `write` is made only while bytes
are left to write, so the process is ended or blocked only with fewer bytes
written than the payload has. -/
def feed_payload (W : OS) (data : CStr) : Trace :=
  match W.feed data with
  | .returned k => [.feed (data.take k)]
  | .sigpipe k => if k < data.length then [.feed (data.take k), .sigpipe] else [.feed data]
  | .blocked k => if k < data.length then [.feed (data.take k), .blocked] else [.feed data]

/-- The part of `run_command` between `setup_pipes` and `waitpid`: the debug
line, the `fork` of the supervisor (with the invocation of the backend and
the descriptors it gets), the payload written to the feed pipe, and the
capture pipe drained to standard output. -/
def launch_supervisor (W : OS) (argv : List CStr) (rd : Redirection)
    (stdin_data : Option CStr) (fds : ExecFds) (tr2 : Trace) : Trace :=
  let pc_argv := "proc_clone".toList :: "--".toList :: argv
  let tr3 := tr2 ++ [.stderr ("[DEBUG] parent process, pid=".toList
    ++ fmt_int W.pid ++ "\n".toList)]
  let proc_path :=
    build_proc_clone_path (init_proc_clone_path_from_argv0 W.argv0) (W.readlink tr3)
  let stdin_from : StdinSrc :=
    if rd.has_in then .file (rd.in_path.getD [])
    else if fds.feed_stdin then .feed_pipe else .inherited
  let stdout_to : StdoutDst :=
    if rd.has_out then .file (rd.out_path.getD []) else .capture_pipe
  let tr4 := tr3 ++ [.fork proc_path pc_argv stdin_from stdout_to]
  let tr5 := if fds.feed_stdin then tr4 ++ feed_payload W (stdin_data.getD []) else tr4
  if fds.pout then tr5 ++ [.drain (W.captured tr5)] else tr5

/-- Run one command through the backend (`run_command`): the return code and
the trace. -/
def run_command (W : OS) (argv : List CStr) (rd : Redirection) (stdin_data : Option CStr)
    (tr : Trace) : Nat × Trace :=
  let tr0 := tr ++ [.call argv rd stdin_data]
  match argv with
  | [] => (0, tr0)
  | argv_0 :: _ =>
    if argv_0 = "./shell".toList then (0, tr0)
    else
      match open_redirection_fds W rd tr0 with
      | (false, _, tr1) => (1, tr1)
      | (true, fds1, tr1) =>
        match setup_pipes W rd stdin_data fds1 tr1 with
        | (false, _, tr2) => (1, tr2)
        | (true, fds, tr2) =>
          let pc_argv := "proc_clone".toList :: "--".toList :: argv
          let tr6 := launch_supervisor W argv rd stdin_data fds tr2
          let st := supervisor_status pc_argv (W.supervisor tr6)
          let tr7 := tr6 ++ [.wait st]
          match st with
          | .exited rc => if rc = 127 then (rc, print_cmd_not_found tr7) else (rc, tr7)
          | .signaled sig => (128 + sig, tr7)
          | .other => (1, tr7)

def is_plain_cat_cmd (argv : List CStr) (rd : Redirection) : Bool :=
  match argv with
  | [argv_0] => argv_0 == "cat".toList && !rd.has_in
  | _ => false

/-- Parse and run one trimmed segment (`execute_segment`): the result, the
new value of `*last_rc`, and the trace. -/
def execute_segment (W : OS) (seg_trim_cstr : CStr) (all : CStr) (pos total : Nat)
    (last_rc : Nat) (tr : Trace) : SegResult × Nat × Trace :=
  if is_empty_or_ws seg_trim_cstr then (.SEG_CONTINUE, last_rc, tr)
  else
    match parse_command_ast seg_trim_cstr with
    | .fail synt => (.SEG_BREAK, 1, if synt then print_syntax_error tr else tr)
    | .ok cmd =>
      if is_plain_cat_cmd cmd.argv cmd.rd then
        let rest_start := if pos < total ∧ all.getD pos '\x00' = '\n' then pos + 1 else pos
        let rest := all.drop rest_start
        let r := run_command W cmd.argv cmd.rd (some rest) tr
        (.SEG_EXIT, r.1, r.2)
      else
        let r := run_command W cmd.argv cmd.rd none tr
        (if r.1 ≠ 0 then .SEG_BREAK else .SEG_CONTINUE, r.1, r.2)

/-- The segment at the cursor, trimmed: the text up to the first `&&`, or to
the end of the line when there is none. -/
def first_segment (cursor : CStr) : CStr :=
  let and_pos := strstr cursor "&&".toList
  let seg_len := match and_pos with
    | some k => k
    | none => cursor.length
  let seg := dup_range cursor 0 seg_len
  trim_copy seg

/-- The `while (*cursor)` loop of `main` over one line: whether the script
ends here (`goto end`), `last_rc`, and the trace. -/
def chain_loop (W : OS) (all : CStr) (pos total : Nat) :
    Nat → CStr → Nat → Trace → Bool × Nat × Trace
  | 0, _, last_rc, tr => (false, last_rc, tr)
  | fuel + 1, cursor, last_rc, tr =>
    if cursor = [] then (false, last_rc, tr)
    else
      let and_pos := strstr cursor "&&".toList
      let seg_trim := first_segment cursor
      let r := execute_segment W seg_trim all pos total last_rc tr
      let tr1 := r.2.2 ++ [.seg_done seg_trim r.1 r.2.1]
      if r.1 = .SEG_EXIT then (true, r.2.1, tr1)
      else if r.1 = .SEG_BREAK then (false, r.2.1, tr1)
      else match and_pos with
        | none => (false, r.2.1, tr1)
        | some k => chain_loop W all pos total fuel (cursor.drop (k + 2)) r.2.1 tr1

/-- The end of the line that starts at `pos`: where
`while (pos < total && all[pos] != '\n') pos++` stops. -/
def line_end (all : CStr) (pos : Nat) : Nat :=
  pos + ((all.drop pos).takeWhile (fun c => c != '\n')).length

/-- One iteration of the outer loop of `main`, up to the chain of its line:
whether the script ends here, the end of the line, and the trace. -/
def exec_line (W : OS) (all : CStr) (total : Nat) (ls : Nat) (tr : Trace) :
    Bool × Nat × Trace :=
  let pos := line_end all ls
  let line := dup_range all ls pos
  if !is_empty_or_ws line then
    let r := chain_loop W all pos total line.length line 0 tr
    (r.1, pos, r.2.2)
  else (false, pos, tr)

/-- The `while (pos <= total)` loop of `main`. -/
def main_loop (W : OS) (all : CStr) (total : Nat) : Nat → Nat → Trace → Trace
  | 0, _, tr => tr
  | fuel + 1, pos, tr =>
    if pos ≤ total then
      let r := exec_line W all total pos tr
      if r.1 then r.2.2
      else if r.2.1 ≥ total then r.2.2
      else main_loop W all total fuel (r.2.1 + 1) r.2.2
    else tr

/-- The buffer `main` gets from `read_all_stdin`, as a C string; `none` when
a read fails. -/
def read_all_stdin (stdin : Option (List Char)) : Option CStr :=
  stdin.map c_str

/-- Whether the interpreter does not get past the record. -/
def Event.is_fatal : Event → Bool
  | .sigpipe => true
  | .blocked => true
  | _ => false

/-- The run of the interpreter in a trace: the trace up to the first record
at which the process is ended or blocked, that record included. -/
def process_trace : Trace → Trace
  | [] => []
  | e :: rest => if e.is_fatal then [e] else e :: process_trace rest

/-- How the interpreter process ends: with an exit status, by a signal, or
never. -/
inductive ProcessEnd where
  | exited (status : Nat)
  | signaled (sig : Nat)
  | never
  deriving DecidableEq, Repr

def SIGPIPE : Nat := 13

/-- How the process ends whose `main` would return `status` at the end of
the trace: by SIGPIPE or never when the trace holds the record of it, and
with the exit status `status` otherwise. -/
def process_end (status : Nat) : Trace → ProcessEnd
  | [] => .exited status
  | e :: rest =>
    match e with
    | .sigpipe => .signaled SIGPIPE
    | .blocked => .never
    | _ => process_end status rest

/-- The interpreter (`main`): how the process ends, and its trace. Every
`return` of `main` is `return 0`; the process gets there unless the write of
a payload ends or blocks it. -/
def shell_main (W : OS) (stdin : Option (List Char)) : ProcessEnd × Trace :=
  match read_all_stdin stdin with
  | none => (.exited 0, [])
  | some all =>
    (process_end 0 (main_loop W all all.length (all.length + 1) 0 []),
      main_loop W all all.length (all.length + 1) 0 [])

/-- The segments the chain loop visits when no segment breaks the chain:
the trimmed pieces of the line between the occurrences of `&&` that `strstr`
finds from the cursor on. -/
def segments : Nat → CStr → List CStr
  | 0, _ => []
  | fuel + 1, cursor =>
    if cursor = [] then []
    else match strstr cursor "&&".toList with
      | some k => first_segment cursor :: segments fuel (cursor.drop (k + 2))
      | none => [first_segment cursor]

/-- An operating system in which every file opens, every pipe is created,
every payload is written in full, and every command runs in the backend and
ends with the status `st`. -/
def OS.always (st : WaitStatus) : OS :=
  { argv0 := some "./shell".toList, pid := 1, readlink := fun _ => none,
    open_in := fun _ _ => true, open_out := fun _ _ => true, pipe := fun _ => true,
    supervisor := fun _ =>
      .backend ⟨true, true, .replaced st, true, ⟨0, 0⟩, ⟨0, 0⟩, 2, 3⟩,
    captured := fun _ => [], feed := fun data => .returned data.length }

/-- An operating system in which the loop that writes a payload is always
left: no write of a payload ends or blocks the interpreter. -/
def OS.feed_returns (W : OS) : Prop :=
  ∀ data, ∃ k, W.feed data = .returned k

/-- A trace without a record at which the interpreter is ended or blocked. -/
def alive (tr : Trace) : Bool :=
  tr.all (fun e => !e.is_fatal)

/-- The messages the interpreter itself wrote to its standard output. -/
def messages (evs : Trace) : List CStr :=
  evs.filterMap (fun e => match e with
    | .stdout data => some data
    | _ => none)

/-- The segments whose execution is recorded in the trace, in order, each
with its result and the value of `last_rc` after it. -/
def seg_markers (evs : Trace) : List (CStr × SegResult × Nat) :=
  evs.filterMap (fun e => match e with
    | .seg_done seg res rc => some (seg, res, rc)
    | _ => none)

/-- Whether the segment parses to `cat` with no argument and no input
redirection. -/
def parses_plain_cat (seg : CStr) : Bool :=
  match parse_command_ast seg with
  | .ok cmd => is_plain_cat_cmd cmd.argv cmd.rd
  | .fail _ => false

/-- The number of input redirections among the words of a segment: the words
that begin with `<`, the bare operator or the operator fused with its path. -/
def count_in (ws : List CStr) : Nat :=
  ws.countP (fun w => w.head? == some '<')

/-- The number of output redirections among the words of a segment: the words
that begin with `>`. -/
def count_out (ws : List CStr) : Nat :=
  ws.countP (fun w => w.head? == some '>')

/-- System calls and writes of the interpreter process: every event but the
records `call`, `wait` and `seg_done`. -/
def Event.is_sys : Event → Bool
  | .call _ _ _ => false
  | .wait _ => false
  | .seg_done _ _ _ => false
  | _ => true

def Event.is_wait : Event → Bool
  | .wait _ => true
  | _ => false

def Event.is_call : Event → Bool
  | .call _ _ _ => true
  | _ => false

def Event.is_seg_done : Event → Bool
  | .seg_done _ _ _ => true
  | _ => false

/-- The end of `run_command` after `waitpid`: the return code for a wait
status, and the message printed for it. -/
def wait_result (st : WaitStatus) : Nat × Trace :=
  match st with
  | .exited rc => (rc, if rc = 127 then [.stdout "Command not found\n".toList] else [])
  | .signaled sig => (128 + sig, [])
  | .other => (1, [])

/-- The payload `execute_segment` hands to `run_command` for a plain `cat`. -/
def rest_of (all : CStr) (pos total : Nat) : CStr :=
  all.drop (if pos < total ∧ all.getD pos '\x00' = '\n' then pos + 1 else pos)

/-- The shape of what the chain loop adds to the trace `tr` when it runs
the segments `segs` in order, each from `last_rc = 0`: the events of a
segment, then its `seg_done` record, then the next segment if this one
continues the chain; the flag tells whether the last segment run ended the
script. -/
inductive ChainRun (W : OS) (all : CStr) (pos total : Nat) :
    List CStr → Trace → Trace → Bool → Prop where
  | done (tr : Trace) : ChainRun W all pos total [] tr [] false
  | stop (seg : CStr) (rest : List CStr) (tr evs : Trace) (res : SegResult) (rc : Nat)
      (h : execute_segment W seg all pos total 0 tr = (res, rc, tr ++ evs))
      (hne : res ≠ .SEG_CONTINUE) :
      ChainRun W all pos total (seg :: rest) tr (evs ++ [.seg_done seg res rc])
        (decide (res = .SEG_EXIT))
  | next (seg : CStr) (rest : List CStr) (tr evs : Trace) (rc : Nat) (evs1 : Trace)
      (fin : Bool)
      (h : execute_segment W seg all pos total 0 tr = (.SEG_CONTINUE, rc, tr ++ evs))
      (hrest : ChainRun W all pos total rest (tr ++ evs ++ [.seg_done seg .SEG_CONTINUE rc])
        evs1 fin) :
      ChainRun W all pos total (seg :: rest) tr
        (evs ++ .seg_done seg .SEG_CONTINUE rc :: evs1) fin

/-! ## Reading a segment as a list of words -/

/-- The whitespace-delimited tokens of a segment: its maximal runs of
characters that are not `isspace`, in order. -/
def words (s : CStr) : List CStr :=
  (s.splitOnP isspace).filter (fun w => !w.isEmpty)

/-- The token `lexer_next` makes of one whitespace-delimited run. -/
def classify (w : CStr) : Token :=
  match w with
  | [] => make_token .T_EOF none
  | c :: p =>
    if c = '<' then
      if p = [] then make_token .T_LT none else make_token .T_LT_PATH (some p)
    else if c = '>' then
      if p = [] then make_token .T_GT none
      else if p.head? = some '>' then make_token .T_ERR (some ">>".toList)
      else make_token .T_GT_PATH (some p)
    else make_token .T_WORD (some (c :: p))

/-- The token stream of a list of runs: one token per run up to the first
error token, and the end-of-input token when there is none. -/
def tok_stream : List CStr → List Token
  | [] => [make_token .T_EOF none]
  | w :: ws =>
    if (classify w).type = .T_ERR then [classify w] else classify w :: tok_stream ws

/-- The loop of `parse_command_ast` run over a token stream instead of a lexer. -/
def parse_tokens : List Token → Command → ParseResult
  | [], _ => .fail false
  | t :: ts, out_cmd =>
    match t.type with
    | .T_ERR => .fail true
    | .T_EOF => .ok out_cmd
    | .T_WORD => parse_tokens ts (command_push_arg out_cmd t.chars)
    | .T_LT_PATH =>
      if out_cmd.rd.has_in then .fail true
      else parse_tokens ts
        { out_cmd with rd := { out_cmd.rd with has_in := true, in_path := t.text } }
    | .T_GT_PATH =>
      if out_cmd.rd.has_out then .fail true
      else parse_tokens ts
        { out_cmd with rd := { out_cmd.rd with has_out := true, out_path := t.text } }
    | .T_LT | .T_GT =>
      match ts with
      | [] => .fail false
      | p :: ts1 =>
        if p.type = .T_ERR ∨ p.type = .T_EOF then .fail true
        else if p.type ≠ .T_WORD then .fail true
        else if p.text.isSome ∧ (p.chars.head? = some '<' ∨ p.chars.head? = some '>') then
          .fail true
        else if t.type = .T_LT then
          if out_cmd.rd.has_in then .fail true
          else parse_tokens ts1
            { out_cmd with rd := { out_cmd.rd with has_in := true, in_path := p.text } }
        else
          if out_cmd.rd.has_out then .fail true
          else parse_tokens ts1
            { out_cmd with rd := { out_cmd.rd with has_out := true, out_path := p.text } }

/-! ## The parts of the backend's `main`, and what is read off its output -/

/-- The value of `first_cmd_index` after the `for` loop of the backend's
`main`: one past the first argument `--`, at whatever index it stands, and 1
when there is none. -/
def first_cmd_index (argv : List CStr) : Nat :=
  scan_dashdash (argv.drop 1) 1

/-- The test of the backend's `main` before `print_usage`. -/
def usage_error (argv : List CStr) : Bool :=
  decide (first_cmd_index argv = 1 ∧ argv.length > 1 ∧ (argv.getD 1 []).head? = some '-')

/-- The `context` the backend's `main` hands to the new process. -/
def make_context (argv : List CStr) : ChildContext :=
  let have_command := decide (first_cmd_index argv < argv.length)
  { argv_for_exec := if have_command then some (argv.drop (first_cmd_index argv)) else none,
    should_exec := have_command }

/-- What reached the error stream of the backend, in order: the lines
written with `dprintf` and `fprintf` (`stderr`), and the lines of `perror`,
each `tag: ` followed by the message of the system for `errno`. The new
process writes to the same stream. -/
def stderr_lines (out : List BEvent) : List BEvent :=
  out.filter (fun e => match e with
    | .stderr _ => true
    | .perror _ => true
    | _ => false)

/-- The processes the backend created, each with its context. -/
def clones (out : List BEvent) : List ChildContext :=
  out.filterMap (fun e => match e with
    | .clone context => some context
    | _ => none)

/-- The timing line in the form `[time] <name> <N> ms rc=<code>`, without
its newline. -/
def time_line (name : CStr) (elapsed_ms : Int) (code : Nat) : CStr :=
  "[time] ".toList ++ name ++ " ".toList ++ fmt_int elapsed_ms ++ " ms rc=".toList
    ++ fmt_int code

/-- The command of an argument list under the grammar
`[--] [command [args...]]`: the list with one optional leading `--` removed. -/
def grammar_command (args : List CStr) : List CStr :=
  match args with
  | a :: rest => if a = "--".toList then rest else a :: rest
  | [] => []

/-- The backend's `main` from the `clone` call on, once the stack is
allocated: the new process runs, the backend waits for it and reports. -/
def clone_and_wait (context : ChildContext) (quiet_env : Option CStr) (B : BackendOS) :
    BackendResult :=
  let quiet := quiet_of quiet_env
  let child := child_main context quiet_env B.child_pid B.pid B.execvp
  let ev := [BEvent.clone context] ++ child.2
  if !B.wait_ok then ⟨1, ev ++ [.perror "waitpid".toList]⟩
  else
    let elapsed_ms := timespec_diff_ms B.t_end B.t_start
    match child.1 with
    | .exited child_exit_status =>
      ⟨child_exit_status,
        ev ++ (if !quiet then [BEvent.stdout ("[parent] child ".toList ++ fmt_int B.child_pid
            ++ " exited with ".toList ++ fmt_int child_exit_status ++ " in ".toList
            ++ fmt_int elapsed_ms ++ " ms\n".toList)] else [])
          ++ [.stderr ("[time] ".toList ++ time_name context ++ " ".toList
            ++ fmt_int elapsed_ms ++ " ms rc=".toList ++ fmt_int child_exit_status
            ++ "\n".toList)]⟩
    | .signaled sig =>
      ⟨128 + sig,
        ev ++ (if !quiet then [BEvent.stdout ("[parent] child ".toList ++ fmt_int B.child_pid
            ++ " killed by signal ".toList ++ fmt_int sig ++ " in ".toList
            ++ fmt_int elapsed_ms ++ " ms\n".toList)] else [])
          ++ [.stderr ("[time] ".toList ++ time_name context ++ " ".toList
            ++ fmt_int elapsed_ms ++ " ms rc=".toList ++ fmt_int (128 + sig)
            ++ " (signal ".toList ++ fmt_int sig ++ ")\n".toList)]⟩
    | .other =>
      ⟨1,
        ev ++ (if !quiet then [BEvent.stdout ("[parent] child ".toList ++ fmt_int B.child_pid
            ++ " finished in ".toList ++ fmt_int elapsed_ms
            ++ " ms (unknown status)\n".toList)] else [])
          ++ [.stderr ("[time] Command \x27".toList ++ time_name context ++ "\x27 ".toList
            ++ fmt_int elapsed_ms ++ " ms rc=".toList ++ fmt_int 1 ++ "\n".toList)]⟩

/-! ## What is read off a trace -/

/-- The supervisors the interpreter forked, each with the invocation of the
backend it was to run. -/
def forked (evs : Trace) : List (List CStr) :=
  evs.filterMap (fun e => match e with
    | .fork _ pc_argv _ _ => some pc_argv
    | _ => none)

/-- The files the interpreter tried to open for writing. -/
def opened_out (evs : Trace) : List CStr :=
  evs.filterMap (fun e => match e with
    | .open_out path _ => some path
    | _ => none)

/-! ## Words and items of a command line -/

/-- The segment `seg` read as whitespace and words: `ws` lists, in order,
the maximal runs of characters of `seg` that are not whitespace. Whitespace
(possibly none) comes first; each word is a non-empty run without
whitespace, and what follows it is empty or begins with whitespace. -/
inductive IsWords : CStr → List CStr → Prop where
  | nil (sp : CStr) (hsp : ∀ c ∈ sp, isspace c = true) : IsWords sp []
  | cons (sp w rest : CStr) (ws : List CStr) (hsp : ∀ c ∈ sp, isspace c = true)
      (hne : w ≠ []) (hw : ∀ c ∈ w, isspace c = false)
      (hrest : ∀ c, rest.head? = some c → isspace c = true) (h : IsWords rest ws) :
      IsWords (sp ++ w ++ rest) (w :: ws)

/-- One element of a command line: a plain word, or a redirection of the
input or of the output with its path, written fused (`<path`) or spaced
(`< path`). -/
inductive Item where
  | word (w : CStr)
  | rin (fused : Bool) (p : CStr)
  | rout (fused : Bool) (p : CStr)
  deriving DecidableEq, Repr

/-- The word or the path of an item. -/
def Item.text : Item → CStr
  | .word w => w
  | .rin _ p => p
  | .rout _ p => p

/-- The words an item is written as. -/
def Item.render : Item → List CStr
  | .word w => [w]
  | .rin true p => ['<' :: p]
  | .rin false p => [['<'], p]
  | .rout true p => ['>' :: p]
  | .rout false p => [['>'], p]

/-- The words a list of items is written as, in order. -/
def render : List Item → List CStr
  | [] => []
  | it :: rest => it.render ++ render rest

/-- The plain words of a list of items, in order. -/
def plain_words : List Item → List CStr
  | [] => []
  | .word w :: rest => w :: plain_words rest
  | _ :: rest => plain_words rest

/-- The paths of the input redirections of a list of items. -/
def in_paths : List Item → List CStr
  | [] => []
  | .rin _ p :: rest => p :: in_paths rest
  | _ :: rest => in_paths rest

/-- The paths of the output redirections of a list of items. -/
def out_paths : List Item → List CStr
  | [] => []
  | .rout _ p :: rest => p :: out_paths rest
  | _ :: rest => out_paths rest

/-! ## The lines of the script, one after the other -/

/-- Where the lines of a text start, counted from `i`: after every newline. -/
def line_starts_aux : CStr → Nat → List Nat
  | [], _ => []
  | c :: cs, i => if c = '\n' then (i + 1) :: line_starts_aux cs (i + 1)
    else line_starts_aux cs (i + 1)

/-- Where the lines of the script start: at 0 and after every newline. -/
def line_starts (all : CStr) : List Nat :=
  0 :: line_starts_aux all 0

/-- The segments of the line that starts at `ls`: none for a line of
whitespace only, which `main` skips. -/
def line_segments (all : CStr) (ls : Nat) : List CStr :=
  let line := dup_range all ls (line_end all ls)
  if is_empty_or_ws line then [] else segments line.length line

/-- The lines that start at the given places, run one after the other, each
by `exec_line` from the trace the lines before it left; the script ends with
the first line whose chain ends it. -/
def run_lines (W : OS) (all : CStr) : List Nat → Trace → Trace
  | [], tr => tr
  | ls :: rest, tr =>
    let r := exec_line W all all.length ls tr
    if r.1 then r.2.2 else run_lines W all rest r.2.2

/-! ## Elapsed time, payloads and the token-splitting parser -/

/-- The time from `start` to `stop` in nanoseconds. -/
def elapsed_ns (stop start : Timespec) : Int :=
  (stop.tv_sec - start.tv_sec) * 1000000000 + (stop.tv_nsec - start.tv_nsec)

/-- The whole milliseconds of the time from `start` to `stop`: the floor of
the nanoseconds divided by 10^6. -/
def floor_ms (stop start : Timespec) : Int :=
  Int.fdiv (elapsed_ns stop start) 1000000

/-- The payloads of the calls of `run_command` recorded in a trace. -/
def payloads (evs : Trace) : List (Option CStr) :=
  evs.filterMap (fun e => match e with
    | .call _ _ stdin_data => some stdin_data
    | _ => none)

/-- Where `while (i < n && p(line[i])) i++` stops. -/
def scan_while (p : Char → Bool) (line : CStr) (n i : Nat) : Nat :=
  i + (((line.drop i).take (n - i)).takeWhile p).length

/-- The path of a redirection token in `parse_redirs_and_args` and the
cursor after it: the rest of the token when the operator is fused with it,
and the next token otherwise; `none` for the `goto fail` exits. -/
def redir_path (line : CStr) (n : Nat) (tok : CStr) (i : Nat) : Option (CStr × Nat) :=
  if tok.getD 1 '\x00' ≠ '\x00' then
    let path_owned := tok.drop 1
    if path_owned.getD 0 '\x00' = '<' ∨ path_owned.getD 0 '\x00' = '>' then none
    else some (path_owned, i)
  else
    let i1 := scan_while is_space line n i
    if i1 ≥ n then none
    else
      let s := i1
      let i2 := scan_while (fun c => !is_space c) line n i1
      let path_owned := dup_range line s i2
      if path_owned.getD 0 '\x00' = '\x00' then none
      else if path_owned.getD 0 '\x00' = '<' ∨ path_owned.getD 0 '\x00' = '>' then none
      else some (path_owned, i2)

/-- The `while (i < n)` loop of `parse_redirs_and_args`, one token (with the
path after a bare operator) per unit of fuel; `fail false` only when the
fuel runs out. -/
def parse_redirs_loop (line : CStr) (n : Nat) :
    Nat → Nat → List CStr → Redirection → ParseResult
  | 0, _, _, _ => .fail false
  | fuel + 1, i, argv, rd =>
    if i < n then
      let i1 := scan_while is_space line n i
      if i1 ≥ n then .ok ⟨argv, rd⟩
      else
        let start := i1
        let i2 := scan_while (fun c => !is_space c) line n i1
        let tok := dup_range line start i2
        if tok.getD 0 '\x00' = '<' ∨ tok.getD 0 '\x00' = '>' then
          if tok.getD 1 '\x00' = '>' then .fail true
          else
            let is_in := decide (tok.getD 0 '\x00' = '<')
            match redir_path line n tok i2 with
            | none => .fail true
            | some (path_owned, i3) =>
              if is_in then
                if rd.has_in then .fail true
                else parse_redirs_loop line n fuel i3 argv
                  { rd with has_in := true, in_path := some path_owned }
              else
                if rd.has_out then .fail true
                else parse_redirs_loop line n fuel i3 argv
                  { rd with has_out := true, out_path := some path_owned }
        else parse_redirs_loop line n fuel i2 (argv ++ [tok]) rd
    else .ok ⟨argv, rd⟩

/-- The token-splitting parser (`parse_redirs_and_args`): `ok` with the
argument vector and the redirection for `true`, `fail true` for `false` with
`*synt_err` set. -/
def parse_redirs_and_args (line : CStr) : ParseResult :=
  parse_redirs_loop line line.length (line.length + 1) 0 []
    { in_path := none, out_path := none, has_in := false, has_out := false }

/-! ## The pieces of a line and the chain over a list of segments -/

/-- Put a character in front of the first piece. -/
def cons_head (c : Char) : List CStr → List CStr
  | [] => [[c]]
  | p :: ps => (c :: p) :: ps

/-- The pieces of a line between the successive leftmost, non-overlapping
occurrences of `&&`, read from left to right. -/
def split_and : CStr → List CStr
  | [] => [[]]
  | [c] => [[c]]
  | c :: d :: rest =>
    if c = '&' ∧ d = '&' then [] :: split_and rest
    else cons_head c (split_and (d :: rest))

/-- A list of pieces without its last piece when that one is empty. -/
def drop_empty_last : List CStr → List CStr
  | [] => []
  | [p] => if p = [] then [] else [p]
  | p :: q :: ps => p :: drop_empty_last (q :: ps)

/-- The pieces that are run as commands: each piece trimmed, the blank ones
left out. -/
def commands_of_pieces (ps : List CStr) : List CStr :=
  (ps.map trim_copy).filter (fun s => !is_empty_or_ws s)

/-- The trace without its `seg_done` records. -/
def without_markers (tr : Trace) : Trace :=
  tr.filter (fun e => !e.is_seg_done)

/-- An operating system whose answers do not depend on the `seg_done`
records of the trace: these records are kept by the model and are no system
call. -/
def OS.ignores_markers (W : OS) : Prop :=
  ∀ t1 t2, without_markers t1 = without_markers t2 →
    W.readlink t1 = W.readlink t2 ∧ W.open_in t1 = W.open_in t2 ∧
    W.open_out t1 = W.open_out t2 ∧ W.pipe t1 = W.pipe t2 ∧
    W.supervisor t1 = W.supervisor t2 ∧ W.captured t1 = W.captured t2

/-- The chain loop over a list of segments: each is executed and recorded,
and the first that does not continue ends the chain. -/
def run_segments (W : OS) (all : CStr) (pos total : Nat) :
    List CStr → Nat → Trace → Bool × Nat × Trace
  | [], last_rc, tr => (false, last_rc, tr)
  | seg :: rest, last_rc, tr =>
    let r := execute_segment W seg all pos total last_rc tr
    let tr1 := r.2.2 ++ [.seg_done seg r.1 r.2.1]
    if r.1 = .SEG_EXIT then (true, r.2.1, tr1)
    else if r.1 = .SEG_BREAK then (false, r.2.1, tr1)
    else run_segments W all pos total rest r.2.1 tr1

/-! ## The lexer reads one whitespace-delimited run per call -/

theorem getD_append_cons (pre : CStr) (c : Char) (cs : CStr) (d : Char) :
    (pre ++ c :: cs).getD pre.length d = c := by
  rw [List.getD_append_right _ _ _ _ (le_refl _)]
  simp

theorem dup_range_append (a b c : CStr) :
    dup_range (a ++ b ++ c) a.length (a.length + b.length) = b := by
  simp [dup_range, List.append_assoc]

/-- In the states that accumulate a word or a path the loop runs to the next
whitespace character (or the end) and returns what the code after the loop
returns there. -/
theorem lexer_loop_scan (s : CStr) (n : Nat) (hn : n = s.length) (st : State)
    (hst : st = .S_WORD ∨ st = .S_LT_PATH ∨ st = .S_GT_PATH) (start : Nat) :
    ∀ (rest pre : CStr) (fuel i : Nat), s = pre ++ rest → i = pre.length →
      rest.length < fuel →
      lexer_loop s n fuel st start i
        = lexer_flush s st start (i + (rest.takeWhile (fun c => !isspace c)).length) := by
  intro rest
  induction rest with
  | nil =>
    intro pre fuel i hs hi hf
    cases fuel with
    | zero => simp at hf
    | succ f =>
      have hge : ¬ i < n := by subst hs; subst hi; subst hn; simp
      simp [lexer_loop, hge]
  | cons c cs ih =>
    intro pre fuel i hs hi hf
    cases fuel with
    | zero => simp at hf
    | succ f =>
      have hlt : i < n := by subst hs; subst hi; subst hn; simp
      have hget : s.getD i '\x00' = c := by subst hs; subst hi; exact getD_append_cons _ _ _ _
      have hrec := ih (pre ++ [c]) f (i + 1) (by simp [hs]) (by simp [hi]) (by simpa using hf)
      by_cases hc : isspace c = true
      · rcases hst with h | h | h <;> subst h <;>
          simp only [lexer_loop, hlt, hget, hc, if_true, lexer_flush, List.takeWhile_cons] <;>
          simp
      · have hc' : isspace c = false := by simpa using hc
        rcases hst with h | h | h <;> subst h <;>
          simp only [lexer_loop, hlt, hget, hc', if_true, List.takeWhile_cons] <;>
          simp [hrec, Nat.add_assoc, Nat.add_comm 1]

theorem dup_range_run (p : Char → Bool) (s pre rest : CStr) (i : Nat) (hs : s = pre ++ rest)
    (hi : i = pre.length) :
    dup_range s i (i + (rest.takeWhile p).length) = rest.takeWhile p := by
  have h := dup_range_append pre (rest.takeWhile p) (rest.dropWhile p)
  rw [List.append_assoc, List.takeWhile_append_dropWhile] at h
  rw [hs, hi]; exact h

theorem classify_lt_ne_err (p : CStr) : (classify ('<' :: p)).type ≠ .T_ERR := by
  by_cases hp : p = [] <;> simp [classify, make_token, hp]

theorem isspace_lt : isspace '<' = false := by decide

theorem isspace_gt : isspace '>' = false := by decide

/-- After a `<` the loop returns the bare operator before whitespace or the
end, and otherwise the path that runs to the next whitespace. -/
theorem lexer_loop_lt (s : CStr) (n : Nat) (hn : n = s.length) (rest pre : CStr)
    (fuel i start : Nat) (hs : s = pre ++ rest) (hi : i = pre.length) (hst : start + 1 = i)
    (hf : rest.length + 1 < fuel) :
    lexer_loop s n fuel .S_LT start i =
      (classify ('<' :: rest.takeWhile (fun c => !isspace c)),
        i + (rest.takeWhile (fun c => !isspace c)).length) := by
  cases fuel with
  | zero => simp at hf
  | succ f =>
    cases rest with
    | nil =>
      have hge : ¬ i < n := by subst hs; subst hi; subst hn; simp
      simp [lexer_loop, hge, lexer_flush, classify, make_token]
    | cons d ds =>
      have hlt : i < n := by subst hs; subst hi; subst hn; simp
      have hget : s.getD i '\x00' = d := by subst hs; subst hi; exact getD_append_cons _ _ _ _
      by_cases hd : isspace d = true
      · simp only [lexer_loop, hlt, hget, hd]
        simp [classify, make_token, hd]
      · have hd' : isspace d = false := by simpa using hd
        have hscan := lexer_loop_scan s n hn .S_LT_PATH (by simp) start (d :: ds)
          pre f i hs hi (by simpa using hf)
        have htail := dup_range_run (fun c => !isspace c) s pre (d :: ds) i hs hi
        simp only [lexer_loop, hlt, hget, hd']
        simp only [hscan, lexer_flush, hst, htail]
        simp [classify, make_token, hd']

/-- After a `>` the loop returns the error token before a second `>`, the
bare operator before whitespace or the end, and otherwise the path. -/
theorem lexer_loop_gt (s : CStr) (n : Nat) (hn : n = s.length) (rest pre : CStr)
    (fuel i start : Nat) (hs : s = pre ++ rest) (hi : i = pre.length) (hst : start + 1 = i)
    (hf : rest.length + 1 < fuel) :
    lexer_loop s n fuel .S_GT start i =
      (classify ('>' :: rest.takeWhile (fun c => !isspace c)),
        if (classify ('>' :: rest.takeWhile (fun c => !isspace c))).type = .T_ERR then i
        else i + (rest.takeWhile (fun c => !isspace c)).length) := by
  cases fuel with
  | zero => simp at hf
  | succ f =>
    cases rest with
    | nil =>
      have hge : ¬ i < n := by subst hs; subst hi; subst hn; simp
      simp [lexer_loop, hge, lexer_flush, classify, make_token]
    | cons d ds =>
      have hlt : i < n := by subst hs; subst hi; subst hn; simp
      have hget : s.getD i '\x00' = d := by subst hs; subst hi; exact getD_append_cons _ _ _ _
      by_cases hd : isspace d = true
      · have hne : d ≠ '>' := by rintro rfl; simp [isspace_gt] at hd
        simp only [lexer_loop, hlt, hget, hd, hne]
        simp [classify, make_token, hd]
      · have hd' : isspace d = false := by simpa using hd
        by_cases hgt : d = '>'
        · simp only [lexer_loop, hlt, hget, hgt]
          simp [classify, make_token, isspace_gt]
        · have hscan := lexer_loop_scan s n hn .S_GT_PATH (by simp) start (d :: ds)
            pre f i hs hi (by simpa using hf)
          have htail := dup_range_run (fun c => !isspace c) s pre (d :: ds) i hs hi
          simp only [lexer_loop, hlt, hget, hd', hgt]
          simp only [hscan, lexer_flush, hst, htail]
          simp [classify, make_token, hd', hgt]

/-- From the start state the loop skips whitespace and then reads exactly one
run: the token is `classify` of the run, and the cursor ends after the run
(after the first `>` for the error token). -/
theorem lexer_loop_start (s : CStr) (n : Nat) (hn : n = s.length) :
    ∀ (rest pre : CStr) (fuel i : Nat), s = pre ++ rest → i = pre.length →
      rest.length + 1 < fuel →
      lexer_loop s n fuel .S_START i i =
        match rest.dropWhile isspace with
        | [] => (make_token .T_EOF none, n)
        | c :: cs =>
          (classify ((c :: cs).takeWhile (fun c => !isspace c)),
            i + (rest.takeWhile isspace).length +
              (if (classify ((c :: cs).takeWhile (fun c => !isspace c))).type = .T_ERR then 1
               else ((c :: cs).takeWhile (fun c => !isspace c)).length)) := by
  intro rest
  induction rest with
  | nil =>
    intro pre fuel i hs hi hf
    cases fuel with
    | zero => simp at hf
    | succ f =>
      have hin : i = n := by subst hs; subst hi; subst hn; simp
      have hge : ¬ i < n := by omega
      simp [lexer_loop, hge, lexer_flush, hin]
  | cons c cs ih =>
    intro pre fuel i hs hi hf
    cases fuel with
    | zero => simp at hf
    | succ f =>
      have hlt : i < n := by subst hs; subst hi; subst hn; simp
      have hget : s.getD i '\x00' = c := by subst hs; subst hi; exact getD_append_cons _ _ _ _
      have hs1 : s = (pre ++ [c]) ++ cs := by simp [hs]
      have hi1 : i + 1 = (pre ++ [c]).length := by simp [hi]
      have hf1 : cs.length + 1 < f := by simpa using hf
      by_cases hc : isspace c = true
      · have hrec := ih (pre ++ [c]) f (i + 1) hs1 hi1 hf1
        simp only [lexer_loop, hlt, hget, hc, if_true]
        rw [hrec]
        simp [hc, Nat.add_assoc, Nat.add_comm 1]
      · have hc' : isspace c = false := by simpa using hc
        rw [List.dropWhile_cons_of_neg (by simpa using hc')]
        simp only [List.takeWhile_cons, hc', Bool.not_false, if_true, List.takeWhile_cons_of_neg
          (show ¬ isspace c = true by simpa using hc'), List.length_nil, Nat.add_zero]
        by_cases hlt_c : c = '<'
        · subst hlt_c
          have h := lexer_loop_lt s n hn cs (pre ++ ['<']) f (i + 1) i hs1 hi1 rfl hf1
          have hne := classify_lt_ne_err (cs.takeWhile (fun c => !isspace c))
          simp only [lexer_loop, hlt, hget, hc', ↓reduceIte, Bool.false_eq_true]
          rw [h]
          simp only [hne, ↓reduceIte, List.length_cons, Nat.add_assoc, Nat.add_comm 1]
        · by_cases hgt_c : c = '>'
          · subst hgt_c
            have h := lexer_loop_gt s n hn cs (pre ++ ['>']) f (i + 1) i hs1 hi1 rfl hf1
            simp only [lexer_loop, hlt, hget, hc', hlt_c, ↓reduceIte, Bool.false_eq_true]
            rw [h]
            split <;> simp [Nat.add_assoc, Nat.add_comm 1]
          · have hscan := lexer_loop_scan s n hn .S_WORD (by simp) i cs
              (pre ++ [c]) f (i + 1) hs1 hi1 (by omega)
            have hrun : dup_range s i (i + 1 + (cs.takeWhile (fun c => !isspace c)).length)
                = c :: cs.takeWhile (fun c => !isspace c) := by
              have := dup_range_run (fun c => !isspace c) s pre (c :: cs) i hs hi
              simpa [hc', Nat.add_assoc, Nat.add_comm 1] using this
            simp only [lexer_loop, hlt, hget, hc', hlt_c, hgt_c, ↓reduceIte, Bool.false_eq_true]
            simp only [hscan, lexer_flush, hrun]
            simp [classify, make_token, hlt_c, hgt_c, Nat.add_assoc, Nat.add_comm 1]

/-- One call of `lexer_next` with the cursor after `pre`. -/
theorem lexer_next_run (pre rest : CStr) :
    lexer_next ⟨pre ++ rest, (pre ++ rest).length, pre.length⟩ =
      match rest.dropWhile isspace with
      | [] => (make_token .T_EOF none,
          ⟨pre ++ rest, (pre ++ rest).length, (pre ++ rest).length⟩)
      | c :: cs =>
        (classify ((c :: cs).takeWhile (fun c => !isspace c)),
          ⟨pre ++ rest, (pre ++ rest).length,
            pre.length + (rest.takeWhile isspace).length +
              (if (classify ((c :: cs).takeWhile (fun c => !isspace c))).type = .T_ERR then 1
               else ((c :: cs).takeWhile (fun c => !isspace c)).length)⟩) := by
  have h := lexer_loop_start (pre ++ rest) (pre ++ rest).length rfl rest pre
    ((pre ++ rest).length - pre.length + 2) pre.length rfl rfl (by simp)
  simp only [lexer_next, h]
  split <;> rfl

theorem splitOnP_run (p : Char → Bool) (s : CStr) :
    s.splitOnP p = s.takeWhile (fun c => !p c) ::
      (match s.dropWhile (fun c => !p c) with
       | [] => []
       | _ :: t => t.splitOnP p) := by
  induction s with
  | nil => simp
  | cons d s ih =>
    rw [List.splitOnP_cons]
    by_cases hd : p d = true
    · simp [hd]
    · have hd' : p d = false := by simpa using hd
      rw [ih]
      simp [hd', List.modifyHead]

theorem words_nil : words [] = [] := by
  simp [words]

theorem words_cons_space (c : Char) (s : CStr) (hc : isspace c = true) :
    words (c :: s) = words s := by
  simp [words, List.splitOnP_cons, hc]

theorem words_dropWhile (s : CStr) : words (s.dropWhile isspace) = words s := by
  induction s with
  | nil => rfl
  | cons c s ih =>
    by_cases hc : isspace c = true
    · rw [List.dropWhile_cons_of_pos hc, ih, words_cons_space c s hc]
    · rw [List.dropWhile_cons_of_neg hc]

theorem words_cons_run (c : Char) (s : CStr) (hc : isspace c = false) :
    words (c :: s) = (c :: s.takeWhile (fun c => !isspace c)) ::
      words (s.dropWhile (fun c => !isspace c)) := by
  have h := splitOnP_run isspace (c :: s)
  have hd : ∀ t : CStr, (match t.dropWhile (fun c => !isspace c) with
      | [] => []
      | _ :: u => (u.splitOnP isspace).filter (fun w => !w.isEmpty))
      = words (t.dropWhile (fun c => !isspace c)) := by
    intro t
    cases hdw : t.dropWhile (fun c => !isspace c) with
    | nil => simp [words]
    | cons d u =>
      have hsp : isspace d = true := by
        have := List.head_dropWhile_not (fun c => !isspace c) t (by simp [hdw])
        simpa [hdw] using this
      simp only [words, List.splitOnP_cons, hsp, if_true, List.filter_cons]
      simp
  rw [words, h]
  simp only [List.takeWhile_cons, List.dropWhile_cons, hc, Bool.not_false, if_true]
  rw [List.filter_cons]
  simp only [List.isEmpty_cons, Bool.not_false, if_true]
  congr 1
  rw [← hd s]
  cases s.dropWhile (fun c => !isspace c) <;> simp

/-- One call of `lexer_next` against the list of words: at the end of the
words it returns the end-of-input token, and otherwise the token of the first
word, leaving the cursor before the remaining words. -/
theorem lexer_next_words (pre rest : CStr) :
    (words rest = [] ∧ (lexer_next ⟨pre ++ rest, (pre ++ rest).length, pre.length⟩).1
        = make_token .T_EOF none) ∨
    (∃ run rest1 pre1 lx1, words rest = run :: words rest1 ∧ run ≠ [] ∧
      pre ++ rest = pre1 ++ rest1 ∧ rest1.length < rest.length ∧
      lexer_next ⟨pre ++ rest, (pre ++ rest).length, pre.length⟩ = (classify run, lx1) ∧
      ((classify run).type ≠ .T_ERR →
        lx1 = ⟨pre1 ++ rest1, (pre1 ++ rest1).length, pre1.length⟩)) := by
  have h := lexer_next_run pre rest
  have hw := words_dropWhile rest
  have hsplit := List.takeWhile_append_dropWhile isspace rest
  cases hdw : rest.dropWhile isspace with
  | nil =>
    left
    rw [hdw] at h hw
    rw [h]
    exact ⟨by rw [← hw, words_nil], rfl⟩
  | cons c cs =>
    right
    rw [hdw] at h hw hsplit
    have hc : isspace c = false := by
      have := List.head_dropWhile_not isspace rest (by simp [hdw])
      simpa [hdw] using this
    have hrun : (c :: cs).takeWhile (fun c => !isspace c)
        = c :: cs.takeWhile (fun c => !isspace c) := by simp [hc]
    have hdrop : (c :: cs).dropWhile (fun c => !isspace c)
        = cs.dropWhile (fun c => !isspace c) := by simp [hc]
    have hcs := List.takeWhile_append_dropWhile (fun c => !isspace c) cs
    refine ⟨c :: cs.takeWhile (fun c => !isspace c), cs.dropWhile (fun c => !isspace c),
      pre ++ rest.takeWhile isspace ++ (c :: cs.takeWhile (fun c => !isspace c)),
      ⟨pre ++ rest, (pre ++ rest).length,
        pre.length + (rest.takeWhile isspace).length +
          (if (classify (c :: cs.takeWhile (fun c => !isspace c))).type = .T_ERR then 1
           else (c :: cs.takeWhile (fun c => !isspace c)).length)⟩, ?_, by simp,
      ?_, ?_, ?_, ?_⟩
    · rw [← hw]; exact words_cons_run c cs hc
    · rw [List.append_assoc, List.append_assoc, List.cons_append, hcs, hsplit]
    · have hl := congrArg List.length hsplit
      have hl2 := congrArg List.length hcs
      simp only [List.length_append, List.length_cons] at hl hl2
      omega
    · rw [h]; simp only [hrun]
    · intro hne
      have heq : pre ++ rest.takeWhile isspace ++ (c :: cs.takeWhile (fun c => !isspace c))
          ++ cs.dropWhile (fun c => !isspace c) = pre ++ rest := by
        rw [List.append_assoc, List.append_assoc, List.cons_append, hcs, hsplit]
      rw [heq]
      simp [hne, Nat.add_assoc]

theorem classify_ne_eof (run : CStr) (h : run ≠ []) : (classify run).type ≠ .T_EOF := by
  cases run with
  | nil => exact absurd rfl h
  | cons c p =>
    simp only [classify, make_token]
    split
    · split <;> simp
    · split
      · split
        · simp
        · split <;> simp
      · simp

/-- The tokens read from a cursor are the token stream of the words after it. -/
theorem tokens_from_words : ∀ (n : Nat) (rest : CStr), rest.length ≤ n →
    ∀ (pre : CStr) (fuel : Nat), rest.length < fuel →
      tokens_from fuel ⟨pre ++ rest, (pre ++ rest).length, pre.length⟩
        = tok_stream (words rest) := by
  intro n
  induction n with
  | zero =>
    intro rest hn pre fuel hf
    have hr : rest = [] := List.eq_nil_of_length_eq_zero (by omega)
    subst hr
    cases fuel with
    | zero => simp at hf
    | succ f =>
      rcases lexer_next_words pre [] with ⟨hw, h1⟩ | ⟨run, rest1, pre1, lx1, _, _, _, hlen, _, _⟩
      · cases hln : lexer_next ⟨pre ++ [], (pre ++ []).length, pre.length⟩ with
        | mk t lx1 =>
          rw [hln] at h1
          simp only at h1
          subst h1
          rw [tokens_from, hln]
          simp [hw, tok_stream, make_token]
      · simp at hlen
  | succ n ih =>
    intro rest hn pre fuel hf
    cases fuel with
    | zero => simp at hf
    | succ f =>
      rcases lexer_next_words pre rest with
        ⟨hw, h1⟩ | ⟨run, rest1, pre1, lx1, hw, hne, hpre, hlen, hln, hlx⟩
      · cases hln : lexer_next ⟨pre ++ rest, (pre ++ rest).length, pre.length⟩ with
        | mk t lx1 =>
          rw [hln] at h1
          simp only at h1
          subst h1
          rw [tokens_from, hln]
          simp [hw, tok_stream, make_token]
      · have heof := classify_ne_eof run hne
        by_cases herr : (classify run).type = .T_ERR
        · rw [tokens_from, hln]
          simp [hw, tok_stream, herr]
        · have hrec := ih rest1 (by omega) pre1 f (by omega)
          rw [hlx herr, hpre] at hln
          rw [tokens_from, hpre, hln]
          simp only [herr, heof, or_self, ↓reduceIte, hrec, hw, tok_stream]

/-- The token stream of a segment is the token stream of its words. -/
theorem tokenize_eq (seg : CStr) : tokenize seg = tok_stream (words seg) := by
  have h := tokens_from_words seg.length seg (le_refl _) [] (seg.length + 1) (by omega)
  simpa [tokenize, lexer_init] using h

theorem parse_tokens_word (t : Token) (ts : List Token) (cmd : Command) (h : t.type = .T_WORD) :
    parse_tokens (t :: ts) cmd = parse_tokens ts (command_push_arg cmd t.chars) := by
  cases t with
  | mk ty tx => simp only at h; subst h; rfl

theorem parse_tokens_err (t : Token) (ts : List Token) (cmd : Command) (h : t.type = .T_ERR) :
    parse_tokens (t :: ts) cmd = .fail true := by
  cases t with
  | mk ty tx => simp only at h; subst h; rfl

theorem parse_tokens_eof (t : Token) (ts : List Token) (cmd : Command) (h : t.type = .T_EOF) :
    parse_tokens (t :: ts) cmd = .ok cmd := by
  cases t with
  | mk ty tx => simp only at h; subst h; rfl

theorem parse_tokens_lt_path (t : Token) (ts : List Token) (cmd : Command)
    (h : t.type = .T_LT_PATH) :
    parse_tokens (t :: ts) cmd =
      if cmd.rd.has_in then .fail true
      else parse_tokens ts
        { cmd with rd := { cmd.rd with has_in := true, in_path := t.text } } := by
  cases t with
  | mk ty tx => simp only at h; subst h; rfl

theorem parse_tokens_gt_path (t : Token) (ts : List Token) (cmd : Command)
    (h : t.type = .T_GT_PATH) :
    parse_tokens (t :: ts) cmd =
      if cmd.rd.has_out then .fail true
      else parse_tokens ts
        { cmd with rd := { cmd.rd with has_out := true, out_path := t.text } } := by
  cases t with
  | mk ty tx => simp only at h; subst h; rfl

theorem parse_tokens_bare (t p : Token) (ts : List Token) (cmd : Command)
    (h : t.type = .T_LT ∨ t.type = .T_GT) :
    parse_tokens (t :: p :: ts) cmd =
      if p.type = .T_ERR ∨ p.type = .T_EOF then .fail true
      else if p.type ≠ .T_WORD then .fail true
      else if p.text.isSome ∧ (p.chars.head? = some '<' ∨ p.chars.head? = some '>') then
        .fail true
      else if t.type = .T_LT then
        if cmd.rd.has_in then .fail true
        else parse_tokens ts
          { cmd with rd := { cmd.rd with has_in := true, in_path := p.text } }
      else
        if cmd.rd.has_out then .fail true
        else parse_tokens ts
          { cmd with rd := { cmd.rd with has_out := true, out_path := p.text } } := by
  cases t with
  | mk ty tx =>
    simp only at h
    rcases h with h | h <;> subst h <;> rfl

theorem parse_loop_err (f : Nat) (lx lx1 : Lexer) (t : Token) (cmd : Command)
    (h : lexer_next lx = (t, lx1)) (hty : t.type = .T_ERR) :
    parse_loop (f + 1) lx cmd = .fail true := by
  rw [parse_loop, h]; simp only [hty]

theorem parse_loop_eof (f : Nat) (lx lx1 : Lexer) (t : Token) (cmd : Command)
    (h : lexer_next lx = (t, lx1)) (hty : t.type = .T_EOF) :
    parse_loop (f + 1) lx cmd = .ok cmd := by
  rw [parse_loop, h]; simp only [hty]

theorem parse_loop_word (f : Nat) (lx lx1 : Lexer) (t : Token) (cmd : Command)
    (h : lexer_next lx = (t, lx1)) (hty : t.type = .T_WORD) :
    parse_loop (f + 1) lx cmd = parse_loop f lx1 (command_push_arg cmd t.chars) := by
  rw [parse_loop, h]; simp only [hty]

theorem parse_loop_lt_path (f : Nat) (lx lx1 : Lexer) (t : Token) (cmd : Command)
    (h : lexer_next lx = (t, lx1)) (hty : t.type = .T_LT_PATH) :
    parse_loop (f + 1) lx cmd =
      if cmd.rd.has_in then .fail true
      else parse_loop f lx1
        { cmd with rd := { cmd.rd with has_in := true, in_path := t.text } } := by
  rw [parse_loop, h]; simp only [hty]

theorem parse_loop_gt_path (f : Nat) (lx lx1 : Lexer) (t : Token) (cmd : Command)
    (h : lexer_next lx = (t, lx1)) (hty : t.type = .T_GT_PATH) :
    parse_loop (f + 1) lx cmd =
      if cmd.rd.has_out then .fail true
      else parse_loop f lx1
        { cmd with rd := { cmd.rd with has_out := true, out_path := t.text } } := by
  rw [parse_loop, h]; simp only [hty]

theorem parse_loop_bare (f : Nat) (lx lx1 lx2 : Lexer) (t p : Token) (cmd : Command)
    (h : lexer_next lx = (t, lx1)) (hty : t.type = .T_LT ∨ t.type = .T_GT)
    (h2 : lexer_next lx1 = (p, lx2)) :
    parse_loop (f + 1) lx cmd =
      if p.type = .T_ERR ∨ p.type = .T_EOF then .fail true
      else if p.type ≠ .T_WORD then .fail true
      else if p.text.isSome ∧ (p.chars.head? = some '<' ∨ p.chars.head? = some '>') then
        .fail true
      else if t.type = .T_LT then
        if cmd.rd.has_in then .fail true
        else parse_loop f lx2
          { cmd with rd := { cmd.rd with has_in := true, in_path := p.text } }
      else
        if cmd.rd.has_out then .fail true
        else parse_loop f lx2
          { cmd with rd := { cmd.rd with has_out := true, out_path := p.text } } := by
  rw [parse_loop, h]
  rcases hty with hty | hty <;> simp only [hty, h2] <;> simp

/-- The step of `parse_loop_words` for a bare operator: the next token is
read as its path. -/
theorem parse_loop_words_bare (n : Nat)
    (ih : ∀ (rest : CStr), rest.length < n →
      ∀ (pre : CStr) (fuel : Nat) (cmd : Command), rest.length < fuel →
        parse_loop fuel ⟨pre ++ rest, (pre ++ rest).length, pre.length⟩ cmd
          = parse_tokens (tok_stream (words rest)) cmd)
    (rest : CStr) (hn : rest.length < n + 1) (pre : CStr) (cmd : Command) (f : Nat)
    (hf : rest.length < f + 1) (run rest1 pre1 : CStr) (hlen : rest1.length < rest.length)
    (hln : lexer_next ⟨pre ++ rest, (pre ++ rest).length, pre.length⟩
      = (classify run, ⟨pre1 ++ rest1, (pre1 ++ rest1).length, pre1.length⟩))
    (hty : (classify run).type = .T_LT ∨ (classify run).type = .T_GT) :
    parse_loop (f + 1) ⟨pre ++ rest, (pre ++ rest).length, pre.length⟩ cmd
      = parse_tokens (classify run :: tok_stream (words rest1)) cmd := by
  rcases lexer_next_words pre1 rest1 with
    ⟨hw, h1⟩ | ⟨run2, rest2, pre2, lx2, hw, hne2, hpre2, hlen2, hln2, hlx2⟩
  · cases hln2 : lexer_next ⟨pre1 ++ rest1, (pre1 ++ rest1).length, pre1.length⟩ with
    | mk p lx2 =>
      rw [hln2] at h1
      simp only at h1
      subst h1
      rw [parse_loop_bare f _ _ _ _ _ cmd hln hty hln2, hw, tok_stream,
        parse_tokens_bare _ _ _ _ hty]
      simp [make_token]
  · rw [hw, tok_stream]
    by_cases herr : (classify run2).type = .T_ERR
    · rw [if_pos herr, parse_tokens_bare _ _ _ _ hty,
        parse_loop_bare f _ _ _ _ _ cmd hln hty hln2]
      simp [herr]
    · rw [if_neg herr, parse_tokens_bare _ _ _ _ hty]
      rw [hlx2 herr] at hln2
      rw [parse_loop_bare f _ _ _ _ _ cmd hln hty hln2]
      have hrec := fun c => ih rest2 (by omega) pre2 f c (by omega)
      simp only [hrec]

/-- The parser run from a cursor is `parse_tokens` over the token stream of
the words after it. -/
theorem parse_loop_words : ∀ (n : Nat) (rest : CStr), rest.length < n →
    ∀ (pre : CStr) (fuel : Nat) (cmd : Command), rest.length < fuel →
      parse_loop fuel ⟨pre ++ rest, (pre ++ rest).length, pre.length⟩ cmd
        = parse_tokens (tok_stream (words rest)) cmd := by
  intro n
  induction n with
  | zero => intro rest hn; omega
  | succ n ih =>
    intro rest hn pre fuel cmd hf
    cases fuel with
    | zero => simp at hf
    | succ f =>
      rcases lexer_next_words pre rest with
        ⟨hw, h1⟩ | ⟨run, rest1, pre1, lx1, hw, hne, hpre, hlen, hln, hlx⟩
      · cases hln : lexer_next ⟨pre ++ rest, (pre ++ rest).length, pre.length⟩ with
        | mk t lx1 =>
          rw [hln] at h1
          simp only at h1
          subst h1
          rw [parse_loop_eof f _ _ _ cmd hln rfl, hw, tok_stream, parse_tokens_eof _ _ _ rfl]
      · have heof := classify_ne_eof run hne
        rw [hw, tok_stream]
        by_cases herr : (classify run).type = .T_ERR
        · rw [if_pos herr, parse_tokens_err _ _ _ herr, parse_loop_err f _ _ _ cmd hln herr]
        · rw [if_neg herr]
          rw [hlx herr] at hln
          have hrec := fun c => ih rest1 (by omega) pre1 f c (by omega)
          cases hty : (classify run).type with
          | T_EOF => exact absurd hty heof
          | T_ERR => exact absurd hty herr
          | T_WORD =>
            rw [parse_tokens_word _ _ _ hty, parse_loop_word f _ _ _ cmd hln hty, hrec]
          | T_LT_PATH =>
            rw [parse_tokens_lt_path _ _ _ hty, parse_loop_lt_path f _ _ _ cmd hln hty]
            simp only [hrec]
          | T_GT_PATH =>
            rw [parse_tokens_gt_path _ _ _ hty, parse_loop_gt_path f _ _ _ cmd hln hty]
            simp only [hrec]
          | T_LT =>
            exact parse_loop_words_bare n ih rest hn pre cmd f hf run rest1 pre1 hlen hln
              (Or.inl hty)
          | T_GT =>
            exact parse_loop_words_bare n ih rest hn pre cmd f hf run rest1 pre1 hlen hln
              (Or.inr hty)

/-- Parsing a segment is `parse_tokens` over the token stream of its words. -/
theorem parse_command_ast_eq (seg : CStr) :
    parse_command_ast seg = parse_tokens (tok_stream (words seg)) command_init := by
  have h := parse_loop_words (seg.length + 1) seg (by omega) [] (seg.length + 1)
    command_init (by omega)
  simpa [parse_command_ast, lexer_init] using h

/-- The fuel `lexer_next` passes to its loop is enough: more fuel gives the
same token and cursor. -/
theorem lexer_loop_fuel (s : CStr) (i f1 f2 : Nat) (hi : i ≤ s.length)
    (h1 : s.length - i + 1 < f1) (h2 : s.length - i + 1 < f2) :
    lexer_loop s s.length f1 .S_START i i = lexer_loop s s.length f2 .S_START i i := by
  have hs : s = s.take i ++ s.drop i := (List.take_append_drop i s).symm
  have hl : i = (s.take i).length := by simp [hi]
  have hd : (s.drop i).length = s.length - i := by simp
  rw [lexer_loop_start s s.length rfl (s.drop i) (s.take i) f1 i hs hl (by omega),
    lexer_loop_start s s.length rfl (s.drop i) (s.take i) f2 i hs hl (by omega)]

/-- The fuel `parse_command_ast` passes to its loop is enough: more fuel gives
the same result. -/
theorem parse_loop_fuel (seg : CStr) (fuel : Nat) (h : seg.length < fuel) :
    parse_loop fuel (lexer_init seg) command_init = parse_command_ast seg := by
  have h1 := parse_loop_words (seg.length + 1) seg (by omega) [] fuel command_init h
  rw [parse_command_ast_eq]
  simpa [lexer_init] using h1

/-! ## Syntax errors -/

theorem words_ne_nil (seg w : CStr) (h : w ∈ words seg) : w ≠ [] := by
  simp only [words, List.mem_filter] at h
  intro hw
  simp [hw] at h

theorem isspace_of_empty_or_ws (c : Char)
    (h : (is_space c || c == '\n' || c == '\r') = true) : isspace c = true := by
  simp only [is_space, Bool.or_eq_true, beq_iff_eq] at h
  rcases h with ((h | h) | h) | h <;> subst h <;> decide

theorem words_of_all_space (s : CStr) (h : ∀ c ∈ s, isspace c = true) : words s = [] := by
  induction s with
  | nil => exact words_nil
  | cons c s ih =>
    rw [words_cons_space c s (h c (by simp))]
    exact ih (fun d hd => h d (by simp [hd]))

/-- A segment the chain loop skips has no words. -/
theorem words_of_empty_or_ws (seg : CStr) (h : is_empty_or_ws seg = true) : words seg = [] := by
  apply words_of_all_space
  intro c hc
  simp only [is_empty_or_ws, List.all_eq_true] at h
  exact isspace_of_empty_or_ws c (h c hc)

theorem classify_err (w : CStr) (h : (classify w).type = .T_ERR) :
    classify w = make_token .T_ERR (some ">>".toList) := by
  cases w with
  | nil => simp [classify, make_token] at h
  | cons c p =>
    simp only [classify] at h ⊢
    by_cases h1 : c = '<'
    · by_cases hp : p = [] <;> simp [h1, hp, make_token] at h
    · by_cases h2 : c = '>'
      · by_cases hp : p = []
        · simp [h1, h2, hp, make_token] at h
        · by_cases h3 : p.head? = some '>'
          · simp [h2, hp, h3]
          · simp [h2, hp, h3, make_token] at h
      · simp [h1, h2, make_token] at h

theorem classify_append_op (w : CStr) (h : w.take 2 = ">>".toList) :
    (classify w).type = .T_ERR := by
  match w, h with
  | c :: d :: p, h =>
    simp only [List.take_succ_cons, List.take_zero, String.toList] at h
    have h1 : c = '>' := by
      have := congrArg List.head? h; simpa using this
    have h2 : d = '>' := by
      have := congrArg (fun l => l.tail.head?) h; simpa using this
    subst h1; subst h2
    simp [classify, make_token]

/-- The token stream ends with the end-of-input or the error token, and only
there. -/
theorem tok_stream_inner (ws : List CStr) (hne : ∀ w ∈ ws, w ≠ []) :
    ∀ (pre : List Token) (t : Token) (post : List Token),
      tok_stream ws = pre ++ t :: post → post ≠ [] →
      t.type ≠ .T_EOF ∧ t.type ≠ .T_ERR := by
  induction ws with
  | nil =>
    intro pre t post h hp
    have hl := congrArg List.length h
    cases post with
    | nil => exact absurd rfl hp
    | cons a b => simp [tok_stream] at hl; omega
  | cons w ws ih =>
    intro pre t post h hp
    have hw : (classify w).type ≠ .T_EOF := classify_ne_eof w (hne w (by simp))
    rw [tok_stream] at h
    by_cases herr : (classify w).type = .T_ERR
    · rw [if_pos herr] at h
      have hl := congrArg List.length h
      cases post with
      | nil => exact absurd rfl hp
      | cons a b => simp at hl; omega
    · rw [if_neg herr] at h
      cases pre with
      | nil =>
        simp only [List.nil_append, List.cons.injEq] at h
        rw [← h.1]; exact ⟨hw, herr⟩
      | cons a pre1 =>
        simp only [List.cons_append, List.cons.injEq] at h
        exact ih (fun v hv => hne v (by simp [hv])) pre1 t post h.2 hp

/-- A token stream that reaches an error token makes the parser fail with a
syntax error. -/
theorem parse_tokens_err_end : ∀ (n : Nat) (body : List Token), body.length < n →
    (∀ t ∈ body, t.type ≠ .T_EOF) → ∀ (e : Token), e.type = .T_ERR → ∀ (cmd : Command),
      parse_tokens (body ++ [e]) cmd = .fail true := by
  intro n
  induction n with
  | zero => intro body h; omega
  | succ n ih =>
    intro body hn hb e he cmd
    cases body with
    | nil => exact parse_tokens_err e [] cmd he
    | cons t b =>
      have hb1 : ∀ u ∈ b, u.type ≠ .T_EOF := fun u hu => hb u (by simp [hu])
      have hrec := fun c => ih b (by simp at hn; omega) hb1 e he c
      rw [List.cons_append]
      cases hty : t.type with
      | T_EOF => exact absurd hty (hb t (by simp))
      | T_ERR => exact parse_tokens_err _ _ _ hty
      | T_WORD => rw [parse_tokens_word _ _ _ hty]; exact hrec _
      | T_LT_PATH =>
        rw [parse_tokens_lt_path _ _ _ hty]; split
        · rfl
        · exact hrec _
      | T_GT_PATH =>
        rw [parse_tokens_gt_path _ _ _ hty]; split
        · rfl
        · exact hrec _
      | T_LT =>
        cases b with
        | nil =>
          rw [List.nil_append, parse_tokens_bare _ _ _ _ (Or.inl hty)]
          simp [he]
        | cons p b1 =>
          have hrec2 := fun c => ih b1 (by simp at hn; omega)
            (fun u hu => hb u (by simp [hu])) e he c
          rw [List.cons_append, parse_tokens_bare _ _ _ _ (Or.inl hty)]
          simp only [hrec2]
          repeat' split
          all_goals rfl
      | T_GT =>
        cases b with
        | nil =>
          rw [List.nil_append, parse_tokens_bare _ _ _ _ (Or.inr hty)]
          simp [he]
        | cons p b1 =>
          have hrec2 := fun c => ih b1 (by simp at hn; omega)
            (fun u hu => hb u (by simp [hu])) e he c
          rw [List.cons_append, parse_tokens_bare _ _ _ _ (Or.inr hty)]
          simp only [hrec2]
          repeat' split
          all_goals rfl

/-- When a word is read as the error token, the token stream ends with the
error token. -/
theorem tok_stream_err (ws : List CStr) (hne : ∀ w ∈ ws, w ≠ [])
    (h : ∃ w ∈ ws, (classify w).type = .T_ERR) :
    ∃ body, tok_stream ws = body ++ [make_token .T_ERR (some ">>".toList)] ∧
      ∀ t ∈ body, t.type ≠ .T_EOF := by
  induction ws with
  | nil => simp at h
  | cons w ws ih =>
    rw [tok_stream]
    by_cases herr : (classify w).type = .T_ERR
    · rw [if_pos herr]
      exact ⟨[], by simp [classify_err w herr], by simp⟩
    · rw [if_neg herr]
      obtain ⟨v, hv, hverr⟩ := h
      have hv1 : v ∈ ws := by
        rcases List.mem_cons.mp hv with h1 | h1
        · subst h1; exact absurd hverr herr
        · exact h1
      obtain ⟨body, hb, hbody⟩ := ih (fun u hu => hne u (by simp [hu])) ⟨v, hv1, hverr⟩
      refine ⟨classify w :: body, by simp [hb], ?_⟩
      intro t ht
      rcases List.mem_cons.mp ht with h1 | h1
      · subst h1; exact classify_ne_eof w (hne w (by simp))
      · exact hbody t h1

/-- A bare operator that is not followed by a word token makes the parser
fail with a syntax error, whatever comes before and after. -/
theorem parse_tokens_dangling : ∀ (n : Nat) (pre : List Token), pre.length < n →
    (∀ t ∈ pre, t.type ≠ .T_EOF ∧ t.type ≠ .T_ERR) →
    ∀ (t1 t2 : Token) (post : List Token) (cmd : Command),
      (t1.type = .T_LT ∨ t1.type = .T_GT) → t2.type ≠ .T_WORD →
      parse_tokens (pre ++ t1 :: t2 :: post) cmd = .fail true := by
  intro n
  induction n with
  | zero => intro pre h; omega
  | succ n ih =>
    intro pre hn hpre t1 t2 post cmd h1 h2
    cases pre with
    | nil =>
      rw [List.nil_append, parse_tokens_bare _ _ _ _ h1]
      simp [h2]
    | cons t b =>
      have hb : ∀ u ∈ b, u.type ≠ .T_EOF ∧ u.type ≠ .T_ERR := fun u hu => hpre u (by simp [hu])
      have hrec := fun c => ih b (by simp at hn; omega) hb t1 t2 post c h1 h2
      rw [List.cons_append]
      cases hty : t.type with
      | T_EOF => exact absurd hty (hpre t (by simp)).1
      | T_ERR => exact absurd hty (hpre t (by simp)).2
      | T_WORD => rw [parse_tokens_word _ _ _ hty]; exact hrec _
      | T_LT_PATH =>
        rw [parse_tokens_lt_path _ _ _ hty]; split
        · rfl
        · exact hrec _
      | T_GT_PATH =>
        rw [parse_tokens_gt_path _ _ _ hty]; split
        · rfl
        · exact hrec _
      | T_LT =>
        cases b with
        | nil =>
          rw [List.nil_append, parse_tokens_bare _ _ _ _ (Or.inl hty)]
          rcases h1 with h1 | h1 <;> simp [h1]
        | cons p b1 =>
          have hrec2 := fun c => ih b1 (by simp at hn; omega)
            (fun u hu => hpre u (by simp [hu])) t1 t2 post c h1 h2
          rw [List.cons_append, parse_tokens_bare _ _ _ _ (Or.inl hty)]
          simp only [hrec2]
          repeat' split
          all_goals rfl
      | T_GT =>
        cases b with
        | nil =>
          rw [List.nil_append, parse_tokens_bare _ _ _ _ (Or.inr hty)]
          rcases h1 with h1 | h1 <;> simp [h1]
        | cons p b1 =>
          have hrec2 := fun c => ih b1 (by simp at hn; omega)
            (fun u hu => hpre u (by simp [hu])) t1 t2 post c h1 h2
          rw [List.cons_append, parse_tokens_bare _ _ _ _ (Or.inr hty)]
          simp only [hrec2]
          repeat' split
          all_goals rfl

/-- A segment that is not skipped and does not parse prints the syntax error
once, sets the return code to 1 and breaks the chain; nothing else happens. -/
theorem execute_segment_syntax_error (W : OS) (seg all : CStr) (pos total last_rc : Nat)
    (tr : Trace) (hws : is_empty_or_ws seg = false) (hp : parse_command_ast seg = .fail true) :
    execute_segment W seg all pos total last_rc tr
      = (.SEG_BREAK, 1, tr ++ [.stdout "Syntax error\n".toList]) := by
  simp [execute_segment, hws, hp, print_syntax_error]

theorem not_empty_or_ws_of_words (seg : CStr) (h : words seg ≠ []) :
    is_empty_or_ws seg = false := by
  cases hws : is_empty_or_ws seg with
  | false => rfl
  | true => exact absurd (words_of_empty_or_ws seg hws) h

/-- C6. A segment in which a bare `<` or `>` token is followed by a token that
is not a word (the end of input, another bare operator, a fused operator and
path, or the error token) does not parse: `parse_command_ast` reports a
syntax error, and `execute_segment` prints `Syntax error\n` once, sets the
return code to 1, breaks the chain and runs no command. -/
theorem dangling_operator_syntax_error (W : OS) (seg all : CStr) (pos total last_rc : Nat)
    (tr : Trace) (pre : List Token) (t1 t2 : Token) (post : List Token)
    (htok : tokenize seg = pre ++ t1 :: t2 :: post)
    (hop : t1.type = .T_LT ∨ t1.type = .T_GT) (hnw : t2.type ≠ .T_WORD) :
    parse_command_ast seg = .fail true ∧
    execute_segment W seg all pos total last_rc tr
      = (.SEG_BREAK, 1, tr ++ [.stdout "Syntax error\n".toList]) := by
  rw [tokenize_eq] at htok
  have hne : ∀ w ∈ words seg, w ≠ [] := fun w hw => words_ne_nil seg w hw
  have hpre : ∀ t ∈ pre, t.type ≠ .T_EOF ∧ t.type ≠ .T_ERR := by
    intro t ht
    obtain ⟨a, b, hab⟩ := List.append_of_mem ht
    have h := tok_stream_inner (words seg) hne a t (b ++ t1 :: t2 :: post)
      (by rw [htok, hab]; simp) (by simp)
    exact h
  have hparse : parse_command_ast seg = .fail true := by
    rw [parse_command_ast_eq, htok]
    exact parse_tokens_dangling (pre.length + 1) pre (by omega) hpre t1 t2 post _ hop hnw
  have hw : words seg ≠ [] := by
    intro hnil
    rw [hnil] at htok
    have hl := congrArg List.length htok
    simp [tok_stream] at hl
    omega
  exact ⟨hparse, execute_segment_syntax_error W seg all pos total last_rc tr
    (not_empty_or_ws_of_words seg hw) hparse⟩

/-- C6, at the segment `<`: its tokens are the bare operator and the end of
input. -/
theorem dangling_operator_syntax_error_witness :
    tokenize "<".toList = [] ++ make_token .T_LT none :: make_token .T_EOF none :: [] ∧
    parse_command_ast "<".toList = .fail true ∧
    execute_segment (OS.always (.exited 0)) "<".toList "<".toList 1 1 0 []
      = (.SEG_BREAK, 1, [] ++ [.stdout "Syntax error\n".toList]) :=
  ⟨by decide,
   dangling_operator_syntax_error (OS.always (.exited 0)) "<".toList "<".toList 1 1 0 []
    [] (make_token .T_LT none) (make_token .T_EOF none) [] (by decide) (by decide) (by decide)⟩

/-- C7. A segment with a whitespace-delimited token that begins with `>>` is
rejected: the token stream ends with the error token, `parse_command_ast`
reports a syntax error, and `execute_segment` prints `Syntax error\n` once,
sets the return code to 1, breaks the chain and runs no command. -/
theorem append_operator_syntax_error (W : OS) (seg all : CStr) (pos total last_rc : Nat)
    (tr : Trace) (w : CStr) (hw : w ∈ words seg) (h2 : w.take 2 = ">>".toList) :
    (tokenize seg).getLast? = some (make_token .T_ERR (some ">>".toList)) ∧
    parse_command_ast seg = .fail true ∧
    execute_segment W seg all pos total last_rc tr
      = (.SEG_BREAK, 1, tr ++ [.stdout "Syntax error\n".toList]) := by
  have hne : ∀ v ∈ words seg, v ≠ [] := fun v hv => words_ne_nil seg v hv
  obtain ⟨body, hb, hbody⟩ := tok_stream_err (words seg) hne ⟨w, hw, classify_append_op w h2⟩
  have hparse : parse_command_ast seg = .fail true := by
    rw [parse_command_ast_eq, hb]
    exact parse_tokens_err_end (body.length + 1) body (by omega) hbody _ rfl _
  refine ⟨by rw [tokenize_eq, hb]; simp, hparse, ?_⟩
  exact execute_segment_syntax_error W seg all pos total last_rc tr
    (not_empty_or_ws_of_words seg (List.ne_nil_of_mem hw)) hparse

/-- C7, at the segment `echo >>x`. -/
theorem append_operator_syntax_error_witness :
    ">>x".toList ∈ words "echo >>x".toList ∧
    (tokenize "echo >>x".toList).getLast? = some (make_token .T_ERR (some ">>".toList)) ∧
    parse_command_ast "echo >>x".toList = .fail true ∧
    execute_segment (OS.always (.exited 0)) "echo >>x".toList "echo >>x".toList 8 8 0 []
      = (.SEG_BREAK, 1, [] ++ [.stdout "Syntax error\n".toList]) :=
  ⟨by decide,
   append_operator_syntax_error (OS.always (.exited 0)) "echo >>x".toList "echo >>x".toList
    8 8 0 [] ">>x".toList (by decide) (by decide)⟩

theorem tok_stream_cons_ok (w : CStr) (ws : List CStr) (h : (classify w).type ≠ .T_ERR) :
    tok_stream (w :: ws) = classify w :: tok_stream ws := by
  rw [tok_stream, if_neg h]

theorem tok_stream_cons_err (w : CStr) (ws : List CStr) (h : (classify w).type = .T_ERR) :
    tok_stream (w :: ws) = [classify w] := by
  rw [tok_stream, if_pos h]

theorem tok_stream_cons_head (w : CStr) (ws : List CStr) :
    ∃ ts, tok_stream (w :: ws) = classify w :: ts ∧
      ((classify w).type ≠ .T_ERR → ts = tok_stream ws) := by
  by_cases h : (classify w).type = .T_ERR
  · exact ⟨[], tok_stream_cons_err w ws h, fun h1 => absurd h h1⟩
  · exact ⟨tok_stream ws, tok_stream_cons_ok w ws h, fun _ => rfl⟩

theorem classify_word_head (w : CStr) (h : (classify w).type = .T_WORD) :
    (w.head? == some '<') = false ∧ (w.head? == some '>') = false := by
  cases w with
  | nil => simp
  | cons c p =>
    by_cases h1 : c = '<'
    · subst h1
      by_cases hp : p = [] <;> simp [classify, make_token, hp] at h
    · by_cases h2 : c = '>'
      · subst h2
        by_cases hp : p = []
        · simp [classify, make_token, hp] at h
        · by_cases h3 : p.head? = some '>' <;> simp [classify, make_token, hp, h3] at h
      · simp [h1, h2]

theorem classify_in_head (w : CStr)
    (h : (classify w).type = .T_LT ∨ (classify w).type = .T_LT_PATH) :
    (w.head? == some '<') = true ∧ (w.head? == some '>') = false := by
  cases w with
  | nil => simp [classify, make_token] at h
  | cons c p =>
    by_cases h1 : c = '<'
    · subst h1; simp
    · by_cases h2 : c = '>'
      · subst h2
        by_cases hp : p = []
        · simp [classify, make_token, hp] at h
        · by_cases h3 : p.head? = some '>' <;> simp [classify, make_token, hp, h3] at h
      · simp [classify, make_token, h1, h2] at h

theorem classify_out_head (w : CStr)
    (h : (classify w).type = .T_GT ∨ (classify w).type = .T_GT_PATH) :
    (w.head? == some '<') = false ∧ (w.head? == some '>') = true := by
  cases w with
  | nil => simp [classify, make_token] at h
  | cons c p =>
    by_cases h1 : c = '<'
    · subst h1
      by_cases hp : p = [] <;> simp [classify, make_token, hp] at h
    · by_cases h2 : c = '>'
      · subst h2; simp
      · simp [classify, make_token, h1, h2] at h

theorem count_in_cons (w : CStr) (ws : List CStr) :
    count_in (w :: ws) = count_in ws + (if (w.head? == some '<') = true then 1 else 0) := by
  simp [count_in, List.countP_cons]

theorem count_out_cons (w : CStr) (ws : List CStr) :
    count_out (w :: ws) = count_out ws + (if (w.head? == some '>') = true then 1 else 0) := by
  simp [count_out, List.countP_cons]

/-- The parser against the number of redirections: it fails with a syntax
error, or it succeeds and the words hold at most one input and at most one
output redirection, none when the command already has one. -/
theorem parse_tokens_count : ∀ (n : Nat) (ws : List CStr), ws.length < n →
    (∀ w ∈ ws, w ≠ []) → ∀ (cmd : Command),
      parse_tokens (tok_stream ws) cmd = .fail true ∨
      (∃ cmd1, parse_tokens (tok_stream ws) cmd = .ok cmd1 ∧
        count_in ws + (if cmd.rd.has_in = true then 1 else 0) ≤ 1 ∧
        count_out ws + (if cmd.rd.has_out = true then 1 else 0) ≤ 1) := by
  intro n
  induction n with
  | zero => intro ws h; omega
  | succ n ih =>
    intro ws hn hne cmd
    cases ws with
    | nil =>
      right
      refine ⟨cmd, by rw [tok_stream, parse_tokens_eof _ _ _ rfl], ?_, ?_⟩ <;>
        simp only [count_in, count_out, List.countP_nil] <;> split <;> omega
    | cons w ws1 =>
      have hne1 : ∀ v ∈ ws1, v ≠ [] := fun v hv => hne v (by simp [hv])
      have hrec := fun c => ih ws1 (by simp at hn; omega) hne1 c
      by_cases herr : (classify w).type = .T_ERR
      · left
        rw [tok_stream_cons_err w ws1 herr, parse_tokens_err _ _ _ herr]
      · rw [tok_stream_cons_ok w ws1 herr, count_in_cons, count_out_cons]
        cases hty : (classify w).type with
        | T_EOF => exact absurd hty (classify_ne_eof w (hne w (by simp)))
        | T_ERR => exact absurd hty herr
        | T_WORD =>
          rw [parse_tokens_word _ _ _ hty]
          obtain ⟨hi, ho⟩ := classify_word_head w hty
          rcases hrec (command_push_arg cmd (classify w).chars) with h | ⟨c1, h, h1, h2⟩
          · exact Or.inl h
          · right
            refine ⟨c1, h, ?_, ?_⟩
            · simpa [hi, command_push_arg] using h1
            · simpa [ho, command_push_arg] using h2
        | T_LT_PATH =>
          rw [parse_tokens_lt_path _ _ _ hty]
          obtain ⟨hi, ho⟩ := classify_in_head w (Or.inr hty)
          by_cases hin : cmd.rd.has_in = true
          · left; rw [if_pos hin]
          · rw [if_neg hin]
            rcases hrec ({ cmd with rd := { cmd.rd with has_in := true, in_path := (classify w).text } }) with h | ⟨c1, h, h1, h2⟩
            · exact Or.inl h
            · right
              refine ⟨c1, h, ?_, ?_⟩
              · simpa [hi, hin] using h1
              · simpa [ho] using h2
        | T_GT_PATH =>
          rw [parse_tokens_gt_path _ _ _ hty]
          obtain ⟨hi, ho⟩ := classify_out_head w (Or.inr hty)
          by_cases hout : cmd.rd.has_out = true
          · left; rw [if_pos hout]
          · rw [if_neg hout]
            rcases hrec ({ cmd with rd := { cmd.rd with has_out := true, out_path := (classify w).text } }) with h | ⟨c1, h, h1, h2⟩
            · exact Or.inl h
            · right
              refine ⟨c1, h, ?_, ?_⟩
              · simpa [hi] using h1
              · simpa [ho, hout] using h2
        | T_LT =>
          obtain ⟨hi, ho⟩ := classify_in_head w (Or.inl hty)
          cases ws1 with
          | nil =>
            left
            rw [tok_stream, parse_tokens_bare _ _ _ _ (Or.inl hty)]
            simp [make_token]
          | cons w2 ws2 =>
            obtain ⟨ts, hts, hts2⟩ := tok_stream_cons_head w2 ws2
            rw [hts, parse_tokens_bare _ _ _ _ (Or.inl hty)]
            by_cases c1 : (classify w2).type = .T_ERR ∨ (classify w2).type = .T_EOF
            · left; rw [if_pos c1]
            · rw [if_neg c1]
              by_cases c2 : (classify w2).type ≠ .T_WORD
              · left; rw [if_pos c2]
              · rw [if_neg c2]
                have hw2 : (classify w2).type = .T_WORD := by simpa using c2
                obtain ⟨hi2, ho2⟩ := classify_word_head w2 hw2
                split
                · exact Or.inl rfl
                · try rw [if_pos hty]
                  by_cases hin : cmd.rd.has_in = true
                  · left; rw [if_pos hin]
                  · rw [if_neg hin, hts2 (fun h => c1 (Or.inl h))]
                    rcases ih ws2 (by simp at hn; omega)
                        (fun v hv => hne v (by simp [hv]))
                        ({ cmd with rd := { cmd.rd with has_in := true, in_path := (classify w2).text } }) with h | ⟨d, h, h1, h2⟩
                    · exact Or.inl h
                    · right
                      refine ⟨d, h, ?_, ?_⟩
                      · rw [count_in_cons]; simpa [hi, hi2, hin] using h1
                      · rw [count_out_cons]; simpa [ho, ho2] using h2
        | T_GT =>
          obtain ⟨hi, ho⟩ := classify_out_head w (Or.inl hty)
          cases ws1 with
          | nil =>
            left
            rw [tok_stream, parse_tokens_bare _ _ _ _ (Or.inr hty)]
            simp [make_token]
          | cons w2 ws2 =>
            obtain ⟨ts, hts, hts2⟩ := tok_stream_cons_head w2 ws2
            rw [hts, parse_tokens_bare _ _ _ _ (Or.inr hty)]
            by_cases c1 : (classify w2).type = .T_ERR ∨ (classify w2).type = .T_EOF
            · left; rw [if_pos c1]
            · rw [if_neg c1]
              by_cases c2 : (classify w2).type ≠ .T_WORD
              · left; rw [if_pos c2]
              · rw [if_neg c2]
                have hw2 : (classify w2).type = .T_WORD := by simpa using c2
                obtain ⟨hi2, ho2⟩ := classify_word_head w2 hw2
                split
                · exact Or.inl rfl
                · try rw [if_neg (by rw [hty]; simp)]
                  by_cases hout : cmd.rd.has_out = true
                  · left; rw [if_pos hout]
                  · rw [if_neg hout, hts2 (fun h => c1 (Or.inl h))]
                    rcases ih ws2 (by simp at hn; omega)
                        (fun v hv => hne v (by simp [hv]))
                        ({ cmd with rd := { cmd.rd with has_out := true, out_path := (classify w2).text } }) with h | ⟨d, h, h1, h2⟩
                    · exact Or.inl h
                    · right
                      refine ⟨d, h, ?_, ?_⟩
                      · rw [count_in_cons]; simpa [hi, hi2] using h1
                      · rw [count_out_cons]; simpa [ho, ho2, hout] using h2

/-- C8. A segment that holds two input redirections, or two output
redirections, in any mix of the fused form (`<path`) and the spaced form
(`< path`) and at any positions among its words, does not parse:
`parse_command_ast` reports a syntax error. Hence the words of a segment
that parses hold at most one input and at most one output redirection, and
the command built has at most one input and one output path. -/
theorem at_most_one_redirection (seg : CStr) :
    ((2 ≤ count_in (words seg) ∨ 2 ≤ count_out (words seg)) →
      parse_command_ast seg = .fail true) ∧
    (∀ cmd, parse_command_ast seg = .ok cmd →
      count_in (words seg) ≤ 1 ∧ count_out (words seg) ≤ 1) := by
  have hne : ∀ w ∈ words seg, w ≠ [] := fun w hw => words_ne_nil seg w hw
  have h := parse_tokens_count ((words seg).length + 1) (words seg) (by omega) hne command_init
  rw [← parse_command_ast_eq] at h
  constructor
  · intro h2
    rcases h with h | ⟨c1, _, h3, h4⟩
    · exact h
    · omega
  · intro cmd hc
    rcases h with h | ⟨c1, _, h3, h4⟩
    · rw [hc] at h; simp at h
    · omega

/-- C8, at the segment `cat <a < b`: one fused and one spaced input
redirection. -/
theorem at_most_one_redirection_witness :
    2 ≤ count_in (words "cat <a < b".toList) ∧
    parse_command_ast "cat <a < b".toList = .fail true :=
  ⟨by decide, (at_most_one_redirection "cat <a < b".toList).1 (Or.inl (by decide))⟩

/-! ## The launch front-end -/

theorem open_redirection_fds_trace (W : OS) (rd : Redirection) (tr : Trace) :
    ∃ evs, (open_redirection_fds W rd tr).2.2 = tr ++ evs ∧ (∀ e ∈ evs, e.is_sys = true) ∧
      ((open_redirection_fds W rd tr).1 = true → messages evs = []) := by
  refine ⟨((open_redirection_fds W rd tr).2.2).drop tr.length, ?_, ?_, ?_⟩ <;>
    unfold open_redirection_fds <;>
    by_cases hin : rd.has_in = true <;> by_cases hout : rd.has_out = true <;>
    by_cases h1 : W.open_in tr (rd.in_path.getD []) = true <;>
    by_cases h2 : W.open_out tr (rd.out_path.getD []) = true <;>
    by_cases h3 : W.open_out (tr ++ [Event.open_in (rd.in_path.getD []) true])
      (rd.out_path.getD []) = true <;>
    simp [hin, hout, h1, h2, h3, print_io_error, Event.is_sys, List.append_assoc, messages]

theorem setup_pipes_trace (W : OS) (rd : Redirection) (stdin_data : Option CStr)
    (fds : ExecFds) (tr : Trace) :
    ∃ evs, (setup_pipes W rd stdin_data fds tr).2.2 = tr ++ evs ∧
      (∀ e ∈ evs, e.is_sys = true) ∧ messages evs = [] := by
  refine ⟨((setup_pipes W rd stdin_data fds tr).2.2).drop tr.length, ?_, ?_, ?_⟩ <;>
    unfold setup_pipes <;>
    by_cases hout : rd.has_out = true <;>
    by_cases h1 : W.pipe tr = true <;>
    by_cases h2 : W.pipe (tr ++ [Event.pipe true]) = true <;>
    by_cases hf : (stdin_data.isSome && decide ((stdin_data.getD []).length > 0) &&
      !rd.has_in) = true <;>
    simp [hout, h1, h2, hf, Event.is_sys, List.append_assoc, messages]

/-- What the loop that writes the payload adds to the trace: the bytes
written, alone or followed by the record of the end of the process. -/
theorem feed_payload_cases (W : OS) (data : CStr) :
    ∃ w, feed_payload W data = [.feed w] ∨ feed_payload W data = [.feed w, .sigpipe] ∨
      feed_payload W data = [.feed w, .blocked] := by
  unfold feed_payload
  cases W.feed data with
  | returned k => exact ⟨data.take k, Or.inl rfl⟩
  | sigpipe k =>
    by_cases hk : k < data.length
    · exact ⟨data.take k, Or.inr (Or.inl (by simp [hk]))⟩
    · exact ⟨data, Or.inl (by simp [hk])⟩
  | blocked k =>
    by_cases hk : k < data.length
    · exact ⟨data.take k, Or.inr (Or.inr (by simp [hk]))⟩
    · exact ⟨data, Or.inl (by simp [hk])⟩

theorem launch_supervisor_trace (W : OS) (argv : List CStr) (rd : Redirection)
    (stdin_data : Option CStr) (fds : ExecFds) (tr : Trace) :
    ∃ evs, launch_supervisor W argv rd stdin_data fds tr = tr ++ evs ∧
      (∀ e ∈ evs, e.is_sys = true) ∧ messages evs = [] := by
  obtain ⟨w, hw | hw | hw⟩ := feed_payload_cases W (stdin_data.getD []) <;>
    refine ⟨(launch_supervisor W argv rd stdin_data fds tr).drop tr.length, ?_, ?_, ?_⟩ <;>
    unfold launch_supervisor <;>
    by_cases h1 : fds.pout = true <;> by_cases h2 : fds.feed_stdin = true <;>
    simp [h1, h2, hw, Event.is_sys, List.append_assoc, messages]

/-- The two ways `run_command` ends. Either it returns 0 or 1 before any
wait, having done only system calls and writes after its `call` record; or
it waits for the supervisor once, and the return code and the message follow
from the wait status as `wait_result` says. -/
theorem run_command_spec (W : OS) (argv : List CStr) (rd : Redirection)
    (stdin_data : Option CStr) (tr : Trace) :
    ∃ evs0, (∀ e ∈ evs0, e.is_sys = true) ∧
      ((∃ rc, run_command W argv rd stdin_data tr
            = (rc, tr ++ .call argv rd stdin_data :: evs0) ∧
          ((rc = 0 ∧ (argv = [] ∨ argv.head? = some "./shell".toList)) ∨
           (rc = 1 ∧ ((open_redirection_fds W rd (tr ++ [.call argv rd stdin_data])).1 = false ∨
              ∃ fds1 t, (setup_pipes W rd stdin_data fds1 t).1 = false)))) ∨
       (messages evs0 = [] ∧ argv ≠ [] ∧ run_command W argv rd stdin_data tr =
          ((wait_result (supervisor_status ("proc_clone".toList :: "--".toList :: argv)
              (W.supervisor (tr ++ .call argv rd stdin_data :: evs0)))).1,
            tr ++ .call argv rd stdin_data :: (evs0 ++
              .wait (supervisor_status ("proc_clone".toList :: "--".toList :: argv)
                (W.supervisor (tr ++ .call argv rd stdin_data :: evs0))) ::
              (wait_result (supervisor_status ("proc_clone".toList :: "--".toList :: argv)
                (W.supervisor (tr ++ .call argv rd stdin_data :: evs0)))).2)))) := by
  cases argv with
  | nil => exact ⟨[], by simp, Or.inl ⟨0, by simp [run_command], Or.inl ⟨rfl, Or.inl rfl⟩⟩⟩
  | cons a0 rest =>
    by_cases hs : a0 = "./shell".toList
    · exact ⟨[], by simp, Or.inl ⟨0, by simp [run_command, hs],
        Or.inl ⟨rfl, Or.inr (by simp [hs])⟩⟩⟩
    · obtain ⟨e1, he1, hs1, hm1⟩ := open_redirection_fds_trace W rd
        (tr ++ [.call (a0 :: rest) rd stdin_data])
      rcases ho : open_redirection_fds W rd (tr ++ [.call (a0 :: rest) rd stdin_data])
        with ⟨ok1, fds1, tr1⟩
      rw [ho] at he1 hm1
      simp only at he1 hm1
      subst he1
      cases ok1 with
      | false =>
        refine ⟨e1, hs1, Or.inl ⟨1, ?_, Or.inr ⟨rfl, Or.inl (by rw [ho])⟩⟩⟩
        simp only [run_command, hs, ↓reduceIte, ho]
        simp
      | true =>
        obtain ⟨e2, he2, hs2, hm2⟩ := setup_pipes_trace W rd stdin_data fds1
          (tr ++ [.call (a0 :: rest) rd stdin_data] ++ e1)
        rcases hp : setup_pipes W rd stdin_data fds1
          (tr ++ [.call (a0 :: rest) rd stdin_data] ++ e1) with ⟨ok2, fds, tr2⟩
        rw [hp] at he2
        simp only at he2
        subst he2
        cases ok2 with
        | false =>
          refine ⟨e1 ++ e2, ?_, Or.inl ⟨1, ?_, Or.inr ⟨rfl, Or.inr ⟨fds1, _, by rw [hp]⟩⟩⟩⟩
          · intro e he
            rcases List.mem_append.mp he with h | h
            · exact hs1 e h
            · exact hs2 e h
          · simp only [run_command, hs, ↓reduceIte, ho, hp]
            simp
        | true =>
          obtain ⟨e3, he3, hs3, hm3⟩ := launch_supervisor_trace W (a0 :: rest) rd stdin_data fds
            (tr ++ [.call (a0 :: rest) rd stdin_data] ++ e1 ++ e2)
          have htr : tr ++ .call (a0 :: rest) rd stdin_data :: (e1 ++ e2 ++ e3)
              = tr ++ [.call (a0 :: rest) rd stdin_data] ++ e1 ++ e2 ++ e3 := by simp
          refine ⟨e1 ++ e2 ++ e3, ?_, Or.inr ⟨?_, by simp, ?_⟩⟩
          · intro e he
            rcases List.mem_append.mp he with h | h
            · rcases List.mem_append.mp h with h | h
              · exact hs1 e h
              · exact hs2 e h
            · exact hs3 e h
          · have hm1' := hm1 rfl
            simp only [messages, List.filterMap_append] at hm1' hm2 hm3 ⊢
            rw [hm1', hm2, hm3]; rfl
          · simp only [run_command, hs, ↓reduceIte, ho, hp]
            have hcat : ∀ X : Trace, tr ++ .call (a0 :: rest) rd stdin_data ::
                (e1 ++ e2 ++ e3 ++ X)
                = tr ++ [.call (a0 :: rest) rd stdin_data] ++ e1 ++ e2 ++ e3 ++ X := by
              intro X; simp
            rw [hcat, htr, ← he3]
            generalize launch_supervisor W (a0 :: rest) rd stdin_data fds
              (tr ++ [.call (a0 :: rest) rd stdin_data] ++ e1 ++ e2) = L
            cases supervisor_status ("proc_clone".toList :: "--".toList :: a0 :: rest)
                (W.supervisor L) with
            | exited rc =>
              by_cases h127 : rc = 127 <;>
                simp [wait_result, h127, print_cmd_not_found]
            | signaled sig => simp [wait_result]
            | other => simp [wait_result]

/-- Where an element with property `P` can stand in a list that has none
before a given place: at that place, or after it. -/
theorem split_first {α : Type} (P : α → Bool) (a b c d : List α) (x y : α)
    (h : a ++ x :: b = c ++ y :: d) (ha : ∀ e ∈ a, P e = false) (hy : P y = true) :
    (a = c ∧ x = y ∧ b = d) ∨ ∃ c1, c = a ++ x :: c1 ∧ b = c1 ++ y :: d := by
  rcases List.append_eq_append_iff.mp h with ⟨a1, h1, h2⟩ | ⟨c1, h1, h2⟩
  · cases a1 with
    | nil =>
      simp only [List.nil_append, List.cons.injEq] at h2
      left
      exact ⟨by simpa using h1.symm, h2.1, h2.2⟩
    | cons z a2 =>
      simp only [List.cons_append, List.cons.injEq] at h2
      right
      exact ⟨a2, by rw [h1, h2.1], h2.2⟩
  · cases c1 with
    | nil =>
      simp only [List.nil_append, List.cons.injEq] at h2
      left
      exact ⟨by simpa using h1, h2.1.symm, h2.2.symm⟩
    | cons z c2 =>
      simp only [List.cons_append, List.cons.injEq] at h2
      have hz : y ∈ a := by rw [h1, h2.1]; simp
      rw [ha y hz] at hy
      exact absurd hy (by simp)

/-- The place of the only element with property `P`. -/
theorem split_unique {α : Type} (P : α → Bool) (a b c d : List α) (x y : α)
    (h : a ++ x :: b = c ++ y :: d) (ha : ∀ e ∈ a, P e = false)
    (hb : ∀ e ∈ b, P e = false) (hy : P y = true) :
    a = c ∧ x = y ∧ b = d := by
  rcases split_first P a b c d x y h ha hy with h1 | ⟨c1, _, h2⟩
  · exact h1
  · have hz : y ∈ b := by rw [h2]; simp
    rw [hb y hz] at hy
    exact absurd hy (by simp)

theorem not_wait_of_sys (e : Event) (h : e.is_sys = true) : e.is_wait = false := by
  cases e <;> simp [Event.is_sys, Event.is_wait] at h ⊢

theorem not_call_of_sys (e : Event) (h : e.is_sys = true) : e.is_call = false := by
  cases e <;> simp [Event.is_sys, Event.is_call] at h ⊢

theorem not_seg_done_of_sys (e : Event) (h : e.is_sys = true) : e.is_seg_done = false := by
  cases e <;> simp [Event.is_sys, Event.is_seg_done] at h ⊢

theorem wait_result_sys (st : WaitStatus) : ∀ e ∈ (wait_result st).2, e.is_sys = true := by
  cases st with
  | exited rc => by_cases h : rc = 127 <;> simp [wait_result, h, Event.is_sys]
  | signaled sig => simp [wait_result]
  | other => simp [wait_result]

/-- C10. The wait status of the supervisor decides how `run_command` ends.
Whenever a call of `run_command` waits for the supervisor and gets the status
`st`: after a normal exit with status 127 it prints `Command not found\n`
and returns 127; after a normal exit with any other status `s` it prints
nothing more and returns `s`; after termination by signal `n` it returns
`128 + n`. -/
theorem termination_mapping (W : OS) (argv : List CStr) (rd : Redirection)
    (stdin_data : Option CStr) (tr : Trace) (rc : Nat) (evs pre post : Trace)
    (st : WaitStatus)
    (hrun : run_command W argv rd stdin_data tr = (rc, tr ++ evs))
    (hwait : evs = pre ++ .wait st :: post) :
    st = supervisor_status ("proc_clone".toList :: "--".toList :: argv)
      (W.supervisor (tr ++ pre)) ∧
    match st with
    | .exited s =>
      rc = s ∧ post = (if s = 127 then [.stdout "Command not found\n".toList] else [])
    | .signaled n => rc = 128 + n ∧ post = []
    | .other => rc = 1 ∧ post = [] := by
  obtain ⟨evs0, hsys, h⟩ := run_command_spec W argv rd stdin_data tr
  rcases h with ⟨rc1, h1, _⟩ | ⟨_, _, h1⟩
  · rw [hrun] at h1
    have h2 : evs = .call argv rd stdin_data :: evs0 := by
      have := congrArg Prod.snd h1
      exact List.append_cancel_left this
    have hmem : Event.wait st ∈ evs := by rw [hwait]; simp
    rw [h2] at hmem
    rcases List.mem_cons.mp hmem with h3 | h3
    · cases h3
    · have := hsys _ h3
      simp [Event.is_sys] at this
  · rw [hrun] at h1
    have h2 : evs = .call argv rd stdin_data :: evs0 ++
        .wait (supervisor_status ("proc_clone".toList :: "--".toList :: argv)
          (W.supervisor (tr ++ .call argv rd stdin_data :: evs0))) ::
        (wait_result (supervisor_status ("proc_clone".toList :: "--".toList :: argv)
          (W.supervisor (tr ++ .call argv rd stdin_data :: evs0)))).2 := by
      have := congrArg Prod.snd h1
      simpa using List.append_cancel_left this
    have hrc := congrArg Prod.fst h1
    simp only at hrc
    rw [hwait] at h2
    have hu := split_unique Event.is_wait _ _ _ _ _ _ h2.symm
      (by
        intro e he
        rcases List.mem_cons.mp he with h3 | h3
        · subst h3; rfl
        · exact not_wait_of_sys e (hsys e h3))
      (fun e he => not_wait_of_sys e (wait_result_sys _ e he)) rfl
    obtain ⟨hpre, hst, hpost⟩ := hu
    have hst' : st = supervisor_status ("proc_clone".toList :: "--".toList :: argv)
        (W.supervisor (tr ++ pre)) := by
      rw [← hpre]; simpa using hst.symm
    have hst2 : supervisor_status ("proc_clone".toList :: "--".toList :: argv)
        (W.supervisor (tr ++ .call argv rd stdin_data :: evs0)) = st := by
      simpa using hst
    refine ⟨hst', ?_⟩
    rw [hst2] at hpost hrc
    cases st with
    | exited s => simp only [wait_result] at hpost hrc; exact ⟨hrc, hpost.symm⟩
    | signaled n => simp only [wait_result] at hpost hrc; exact ⟨hrc, hpost.symm⟩
    | other => simp only [wait_result] at hpost hrc; exact ⟨hrc, hpost.symm⟩

/-- C10, at a supervisor that exits with status 127. -/
theorem termination_mapping_witness :
    run_command (OS.always (.exited 127)) ["nosuch".toList] ⟨none, none, false, false⟩ none []
      = (127, [] ++ ([.call ["nosuch".toList] ⟨none, none, false, false⟩ none, .pipe true,
          .stderr "[DEBUG] parent process, pid=1\n".toList,
          .fork "./proc_clone".toList ["proc_clone".toList, "--".toList, "nosuch".toList]
            .inherited .capture_pipe,
          .drain []] ++ .wait (.exited 127) :: [.stdout "Command not found\n".toList])) ∧
    (127 = 127 ∧ [Event.stdout "Command not found\n".toList]
      = (if 127 = 127 then [Event.stdout "Command not found\n".toList] else [])) :=
  ⟨by decide,
   (termination_mapping (OS.always (.exited 127)) ["nosuch".toList] ⟨none, none, false, false⟩
      none [] 127 _
      [.call ["nosuch".toList] ⟨none, none, false, false⟩ none, .pipe true,
        .stderr "[DEBUG] parent process, pid=1\n".toList,
        .fork "./proc_clone".toList ["proc_clone".toList, "--".toList, "nosuch".toList]
          .inherited .capture_pipe,
        .drain []]
      [.stdout "Command not found\n".toList] (.exited 127) (by decide) rfl).2⟩

/-- After its `call` record `run_command` adds no other `call` record and no
`seg_done` record. -/
theorem run_command_trace (W : OS) (argv : List CStr) (rd : Redirection)
    (stdin_data : Option CStr) (tr : Trace) :
    ∃ evs, (run_command W argv rd stdin_data tr).2 = tr ++ .call argv rd stdin_data :: evs ∧
      ∀ e ∈ evs, e.is_call = false ∧ e.is_seg_done = false := by
  obtain ⟨evs0, hsys, h⟩ := run_command_spec W argv rd stdin_data tr
  rcases h with ⟨rc1, h1, _⟩ | ⟨_, _, h1⟩
  · exact ⟨evs0, by rw [h1], fun e he =>
      ⟨not_call_of_sys e (hsys e he), not_seg_done_of_sys e (hsys e he)⟩⟩
  · refine ⟨_, by rw [h1], ?_⟩
    intro e he
    rcases List.mem_append.mp he with h2 | h2
    · exact ⟨not_call_of_sys e (hsys e h2), not_seg_done_of_sys e (hsys e h2)⟩
    · rcases List.mem_cons.mp h2 with h3 | h3
      · subst h3; exact ⟨rfl, rfl⟩
      · have := wait_result_sys _ e h3
        exact ⟨not_call_of_sys e this, not_seg_done_of_sys e this⟩

/-- A segment the chain loop would skip parses to the empty command. -/
theorem parse_of_empty_or_ws (seg : CStr) (h : is_empty_or_ws seg = true) :
    parse_command_ast seg = .ok command_init := by
  rw [parse_command_ast_eq, words_of_empty_or_ws seg h, tok_stream,
    parse_tokens_eof _ _ _ rfl]

theorem not_empty_or_ws_of_argv (seg : CStr) (cmd : Command)
    (hp : parse_command_ast seg = .ok cmd) (hargv : cmd.argv ≠ []) :
    is_empty_or_ws seg = false := by
  cases hws : is_empty_or_ws seg with
  | false => rfl
  | true =>
    rw [parse_of_empty_or_ws seg hws] at hp
    cases hp
    exact absurd rfl hargv

theorem argv_of_plain_cat (argv : List CStr) (rd : Redirection)
    (h : is_plain_cat_cmd argv rd = true) : argv = ["cat".toList] ∧ rd.has_in = false := by
  match argv, h with
  | [a], h =>
    simp only [is_plain_cat_cmd, Bool.and_eq_true, beq_iff_eq, Bool.not_eq_true'] at h
    exact ⟨by rw [h.1], h.2⟩

/-- What `execute_segment` adds to the trace: no `seg_done` record, and a
`call` record for a plain `cat` only with the rest of the script as payload. -/
theorem execute_segment_trace (W : OS) (seg all : CStr) (pos total last_rc : Nat)
    (tr : Trace) :
    ∃ evs, (execute_segment W seg all pos total last_rc tr).2.2 = tr ++ evs ∧
      (∀ e ∈ evs, e.is_seg_done = false) ∧
      (∀ argv rd d, Event.call argv rd d ∈ evs → is_plain_cat_cmd argv rd = true →
        d = some (rest_of all pos total)) := by
  unfold execute_segment
  by_cases hws : is_empty_or_ws seg = true
  · simp only [hws, if_true]
    exact ⟨[], by simp, by simp, by simp⟩
  · simp only [hws, Bool.false_eq_true, if_false]
    cases hp : parse_command_ast seg with
    | fail synt =>
      cases synt with
      | false => exact ⟨[], by simp, by simp, by simp⟩
      | true =>
        exact ⟨[.stdout "Syntax error\n".toList], by simp [print_syntax_error],
          by simp [Event.is_seg_done], by simp⟩
    | ok cmd =>
      by_cases hcat : is_plain_cat_cmd cmd.argv cmd.rd = true
      · simp only [hcat, if_true]
        obtain ⟨evs, h1, h2⟩ := run_command_trace W cmd.argv cmd.rd
          (some (rest_of all pos total)) tr
        refine ⟨_, h1, ?_, ?_⟩
        · intro e he
          rcases List.mem_cons.mp he with h3 | h3
          · subst h3; rfl
          · exact (h2 e h3).2
        · intro argv rd d he _
          rcases List.mem_cons.mp he with h3 | h3
          · cases h3; rfl
          · have := (h2 _ h3).1
            simp [Event.is_call] at this
      · simp only [hcat, Bool.false_eq_true, if_false]
        obtain ⟨evs, h1, h2⟩ := run_command_trace W cmd.argv cmd.rd none tr
        refine ⟨_, h1, ?_, ?_⟩
        · intro e he
          rcases List.mem_cons.mp he with h3 | h3
          · subst h3; rfl
          · exact (h2 e h3).2
        · intro argv rd d he hc
          rcases List.mem_cons.mp he with h3 | h3
          · cases h3; exact absurd hc hcat
          · have := (h2 _ h3).1
            simp [Event.is_call] at this

/-- A segment that continues the chain leaves `last_rc` at 0 or as it was. -/
theorem execute_segment_continue (W : OS) (seg all : CStr) (pos total last_rc : Nat)
    (tr : Trace) (h : (execute_segment W seg all pos total last_rc tr).1 = .SEG_CONTINUE) :
    (execute_segment W seg all pos total last_rc tr).2.1 = 0 ∨
    (execute_segment W seg all pos total last_rc tr).2.1 = last_rc := by
  unfold execute_segment at h ⊢
  by_cases hws : is_empty_or_ws seg = true
  · simp [hws]
  · simp only [hws, Bool.false_eq_true, if_false] at h ⊢
    cases hp : parse_command_ast seg with
    | fail synt => rw [hp] at h; simp at h
    | ok cmd =>
      rw [hp] at h
      simp only at h ⊢
      by_cases hcat : is_plain_cat_cmd cmd.argv cmd.rd = true
      · simp [hcat] at h
      · simp only [hcat, Bool.false_eq_true, if_false] at h ⊢
        by_cases hrc : (run_command W cmd.argv cmd.rd none tr).1 = 0
        · exact Or.inl hrc
        · simp [hrc] at h

/-- A segment that parses to a plain `cat` ends the script, whatever the
operating system does. -/
theorem execute_segment_plain_cat (W : OS) (seg all : CStr) (pos total last_rc : Nat)
    (tr : Trace) (h : parses_plain_cat seg = true) :
    (execute_segment W seg all pos total last_rc tr).1 = .SEG_EXIT := by
  unfold parses_plain_cat at h
  cases hp : parse_command_ast seg with
  | fail synt => rw [hp] at h; simp at h
  | ok cmd =>
    rw [hp] at h
    simp only at h
    have hargv := (argv_of_plain_cat _ _ h).1
    have hws := not_empty_or_ws_of_argv seg cmd hp (by rw [hargv]; simp)
    simp [execute_segment, hws, hp, h]

/-- Only a plain `cat` ends the script. -/
theorem parses_plain_cat_of_exit (W : OS) (seg all : CStr) (pos total last_rc : Nat)
    (tr : Trace) (h : (execute_segment W seg all pos total last_rc tr).1 = .SEG_EXIT) :
    parses_plain_cat seg = true := by
  unfold execute_segment at h
  by_cases hws : is_empty_or_ws seg = true
  · simp [hws] at h
  · simp only [hws, Bool.false_eq_true, if_false] at h
    cases hp : parse_command_ast seg with
    | fail synt => rw [hp] at h; simp at h
    | ok cmd =>
      rw [hp] at h
      simp only at h
      by_cases hcat : is_plain_cat_cmd cmd.argv cmd.rd = true
      · simp [parses_plain_cat, hp, hcat]
      · simp only [hcat, Bool.false_eq_true, if_false] at h
        split at h <;> simp at h

/-- A segment that is not a plain `cat` and leaves the return code 0
continues the chain. -/
theorem execute_segment_zero (W : OS) (seg all : CStr) (pos total : Nat)
    (tr : Trace) (hcat : parses_plain_cat seg = false)
    (h : (execute_segment W seg all pos total 0 tr).2.1 = 0) :
    (execute_segment W seg all pos total 0 tr).1 = .SEG_CONTINUE := by
  unfold execute_segment at h ⊢
  by_cases hws : is_empty_or_ws seg = true
  · simp [hws]
  · simp only [hws, Bool.false_eq_true, if_false] at h ⊢
    cases hp : parse_command_ast seg with
    | fail synt => rw [hp] at h; simp at h
    | ok cmd =>
      rw [hp] at h
      simp only at h ⊢
      have hc : is_plain_cat_cmd cmd.argv cmd.rd = false := by
        simpa [parses_plain_cat, hp] using hcat
      simp only [hc, Bool.false_eq_true, if_false] at h ⊢
      simp [h]

/-- C5. A command whose program name is `./shell` is a no-op whatever its
arguments, its redirection and the operating system: `run_command` returns 0
and does nothing but record the call (no file is opened, no process is
forked, nothing is printed), and the segment continues the chain with
return code 0. -/
theorem shell_noop (W : OS) (args : List CStr) (rd : Redirection) (stdin_data : Option CStr)
    (tr : Trace) (seg all : CStr) (pos total last_rc : Nat) (cmd : Command)
    (hp : parse_command_ast seg = .ok cmd) (hargv : cmd.argv = "./shell".toList :: args) :
    run_command W ("./shell".toList :: args) rd stdin_data tr
      = (0, tr ++ [.call ("./shell".toList :: args) rd stdin_data]) ∧
    execute_segment W seg all pos total last_rc tr
      = (.SEG_CONTINUE, 0, tr ++ [.call cmd.argv cmd.rd none]) := by
  have hrun : ∀ (r : Redirection) (d : Option CStr),
      run_command W ("./shell".toList :: args) r d tr
        = (0, tr ++ [.call ("./shell".toList :: args) r d]) := by
    intro r d
    simp only [run_command, ↓reduceIte]
  refine ⟨hrun rd stdin_data, ?_⟩
  have hws := not_empty_or_ws_of_argv seg cmd hp (by rw [hargv]; simp)
  have hcat : is_plain_cat_cmd cmd.argv cmd.rd = false := by
    cases hc : is_plain_cat_cmd cmd.argv cmd.rd with
    | false => rfl
    | true =>
      have := (argv_of_plain_cat _ _ hc).1
      rw [hargv] at this
      have h0 : "./shell".toList = "cat".toList := (List.cons.inj this).1
      exact absurd h0 (by decide)
  simp only [execute_segment, hws, hp, hcat, Bool.false_eq_true, ↓reduceIte]
  rw [hargv, hrun]
  simp

/-- C5, at the segment `./shell a b < nosuch`. -/
theorem shell_noop_witness :
    parse_command_ast "./shell a b < nosuch".toList
      = .ok ⟨["./shell".toList, "a".toList, "b".toList],
          ⟨some "nosuch".toList, none, true, false⟩⟩ ∧
    execute_segment (OS.always (.exited 1)) "./shell a b < nosuch".toList [] 0 0 0 []
      = (.SEG_CONTINUE, 0, [] ++ [.call ["./shell".toList, "a".toList, "b".toList]
          ⟨some "nosuch".toList, none, true, false⟩ none]) :=
  ⟨by decide,
   (shell_noop (OS.always (.exited 1)) ["a".toList, "b".toList]
     ⟨some "nosuch".toList, none, true, false⟩ none [] "./shell a b < nosuch".toList [] 0 0 0
     ⟨["./shell".toList, "a".toList, "b".toList], ⟨some "nosuch".toList, none, true, false⟩⟩
     (by decide) rfl).2⟩

theorem open_redirection_fds_ok (W : OS) (rd : Redirection) (tr : Trace)
    (hin : ∀ t p, W.open_in t p = true) (hout : ∀ t p, W.open_out t p = true) :
    (open_redirection_fds W rd tr).1 = true := by
  unfold open_redirection_fds
  by_cases h1 : rd.has_in = true <;> by_cases h2 : rd.has_out = true <;>
    simp [h1, h2, hin, hout]

theorem setup_pipes_ok (W : OS) (rd : Redirection) (stdin_data : Option CStr)
    (fds : ExecFds) (tr : Trace) (hpipe : ∀ t, W.pipe t = true) :
    (setup_pipes W rd stdin_data fds tr).1 = true := by
  unfold setup_pipes
  by_cases h1 : rd.has_out = true <;>
    by_cases hf : (stdin_data.isSome && decide ((stdin_data.getD []).length > 0) &&
      !rd.has_in) = true <;>
    simp [h1, hf, hpipe]

/-- The chain loop stops after a segment that does not continue the chain. -/
theorem chain_loop_stop (W : OS) (all : CStr) (pos total fuel : Nat) (cursor : CStr)
    (last_rc : Nat) (tr : Trace) (hc : cursor ≠ [])
    (hr : (execute_segment W (first_segment cursor) all pos total last_rc tr).1
      ≠ .SEG_CONTINUE) :
    chain_loop W all pos total (fuel + 1) cursor last_rc tr =
      (decide ((execute_segment W (first_segment cursor) all pos total last_rc tr).1
          = .SEG_EXIT),
        (execute_segment W (first_segment cursor) all pos total last_rc tr).2.1,
        (execute_segment W (first_segment cursor) all pos total last_rc tr).2.2 ++
          [.seg_done (first_segment cursor)
            (execute_segment W (first_segment cursor) all pos total last_rc tr).1
            (execute_segment W (first_segment cursor) all pos total last_rc tr).2.1]) := by
  rw [chain_loop]
  simp only [hc, ↓reduceIte]
  cases hres : (execute_segment W (first_segment cursor) all pos total last_rc tr).1 with
  | SEG_CONTINUE => exact absurd hres hr
  | SEG_BREAK => simp
  | SEG_EXIT => simp

theorem chain_loop_zero (W : OS) (all : CStr) (pos total : Nat) (cursor : CStr)
    (last_rc : Nat) (tr : Trace) :
    chain_loop W all pos total 0 cursor last_rc tr = (false, last_rc, tr) := by
  rw [chain_loop]

theorem chain_loop_nil (W : OS) (all : CStr) (pos total fuel : Nat)
    (last_rc : Nat) (tr : Trace) :
    chain_loop W all pos total fuel [] last_rc tr = (false, last_rc, tr) := by
  cases fuel with
  | zero => rw [chain_loop]
  | succ f => rw [chain_loop]; simp

/-- The chain loop continues with the text after the `&&` when the segment
continues the chain. -/
theorem chain_loop_continue (W : OS) (all : CStr) (pos total fuel : Nat) (cursor : CStr)
    (last_rc : Nat) (tr : Trace) (hc : cursor ≠ [])
    (hr : (execute_segment W (first_segment cursor) all pos total last_rc tr).1
      = .SEG_CONTINUE) :
    chain_loop W all pos total (fuel + 1) cursor last_rc tr =
      match strstr cursor "&&".toList with
      | none => (false,
          (execute_segment W (first_segment cursor) all pos total last_rc tr).2.1,
          (execute_segment W (first_segment cursor) all pos total last_rc tr).2.2 ++
            [.seg_done (first_segment cursor) .SEG_CONTINUE
              (execute_segment W (first_segment cursor) all pos total last_rc tr).2.1])
      | some k => chain_loop W all pos total fuel (cursor.drop (k + 2))
          (execute_segment W (first_segment cursor) all pos total last_rc tr).2.1
          ((execute_segment W (first_segment cursor) all pos total last_rc tr).2.2 ++
            [.seg_done (first_segment cursor) .SEG_CONTINUE
              (execute_segment W (first_segment cursor) all pos total last_rc tr).2.1]) := by
  rw [chain_loop]
  simp only [hc, ↓reduceIte, hr]
  cases strstr cursor "&&".toList <;> simp

/-- What the chain loop adds to the trace has the shape `ChainRun` over the
segments of the text at the cursor. -/
theorem chain_loop_run (W : OS) (all : CStr) (pos total : Nat) :
    ∀ (fuel : Nat) (cursor : CStr) (tr : Trace),
      ∃ evs fin rc, chain_loop W all pos total fuel cursor 0 tr = (fin, rc, tr ++ evs) ∧
        ChainRun W all pos total (segments fuel cursor) tr evs fin := by
  intro fuel
  induction fuel with
  | zero =>
    intro cursor tr
    exact ⟨[], false, 0, by rw [chain_loop_zero]; simp, by rw [segments]; exact .done tr⟩
  | succ f ih =>
    intro cursor tr
    by_cases hc : cursor = []
    · subst hc
      exact ⟨[], false, 0, by rw [chain_loop_nil]; simp, by
        rw [segments]; simp only [↓reduceIte]; exact .done tr⟩
    · obtain ⟨e1, he1, _⟩ := execute_segment_trace W (first_segment cursor) all pos total 0 tr
      have hex : execute_segment W (first_segment cursor) all pos total 0 tr
          = ((execute_segment W (first_segment cursor) all pos total 0 tr).1,
             (execute_segment W (first_segment cursor) all pos total 0 tr).2.1, tr ++ e1) := by
        rw [← he1]
      have hseg : ∃ rest, segments (f + 1) cursor = first_segment cursor :: rest := by
        rw [segments]
        simp only [hc, ↓reduceIte]
        cases strstr cursor "&&".toList with
        | none => exact ⟨[], rfl⟩
        | some k => exact ⟨_, rfl⟩
      by_cases hr : (execute_segment W (first_segment cursor) all pos total 0 tr).1
          = .SEG_CONTINUE
      · have hrc : (execute_segment W (first_segment cursor) all pos total 0 tr).2.1 = 0 := by
          rcases execute_segment_continue W _ all pos total 0 tr hr with h | h <;> exact h
        rw [hr, hrc] at hex
        rw [chain_loop_continue W all pos total f cursor 0 tr hc hr, hrc, he1, segments]
        simp only [hc, ↓reduceIte]
        cases hs : strstr cursor "&&".toList with
        | none =>
          refine ⟨e1 ++ [.seg_done (first_segment cursor) .SEG_CONTINUE 0], false, 0,
            by simp, ?_⟩
          exact .next _ _ tr e1 0 [] false hex (.done _)
        | some k =>
          obtain ⟨e2, fin, rc, h2, hrun⟩ := ih (cursor.drop (k + 2))
            (tr ++ e1 ++ [.seg_done (first_segment cursor) .SEG_CONTINUE 0])
          refine ⟨e1 ++ .seg_done (first_segment cursor) .SEG_CONTINUE 0 :: e2, fin, rc,
            by simp only [h2]; simp, ?_⟩
          exact .next _ _ tr e1 0 e2 fin hex hrun
      · obtain ⟨rest, hrest⟩ := hseg
        rw [chain_loop_stop W all pos total f cursor 0 tr hc hr, hrest, he1]
        refine ⟨e1 ++ [.seg_done (first_segment cursor)
            (execute_segment W (first_segment cursor) all pos total 0 tr).1
            (execute_segment W (first_segment cursor) all pos total 0 tr).2.1],
          decide ((execute_segment W (first_segment cursor) all pos total 0 tr).1 = .SEG_EXIT),
          (execute_segment W (first_segment cursor) all pos total 0 tr).2.1,
          by simp, ?_⟩
        exact .stop _ rest tr e1 _ _ hex hr

theorem execute_segment_events (W : OS) (seg all : CStr) (pos total last_rc : Nat)
    (tr evs : Trace) (res : SegResult) (rc : Nat)
    (h : execute_segment W seg all pos total last_rc tr = (res, rc, tr ++ evs)) :
    (∀ e ∈ evs, e.is_seg_done = false) ∧
    (∀ argv rd d, Event.call argv rd d ∈ evs → is_plain_cat_cmd argv rd = true →
      d = some (rest_of all pos total)) := by
  obtain ⟨e1, he1, h1, h2⟩ := execute_segment_trace W seg all pos total last_rc tr
  rw [h] at he1
  have : evs = e1 := List.append_cancel_left he1
  subst this
  exact ⟨h1, h2⟩

/-- The `seg_done` records of one chain. A record with a nonzero return code,
or with a result other than `SEG_CONTINUE`, is the last event of the chain;
the record of a plain `cat` has the result `SEG_EXIT`; and a record with that
result ends the script. -/
theorem chain_run_marker (W : OS) (all : CStr) (pos total : Nat) (segs : List CStr)
    (tr evs : Trace) (fin : Bool) (hrun : ChainRun W all pos total segs tr evs fin) :
    ∀ (pre : Trace) (seg : CStr) (res : SegResult) (rc : Nat) (post : Trace),
      evs = pre ++ .seg_done seg res rc :: post →
      (rc ≠ 0 → post = []) ∧ (parses_plain_cat seg = true → res = .SEG_EXIT) ∧
      (res = .SEG_EXIT → post = [] ∧ fin = true) ∧ (res ≠ .SEG_CONTINUE → post = []) := by
  induction hrun with
  | done tr =>
    intro pre seg res rc post h
    have := congrArg List.length h
    simp at this
    omega
  | stop seg1 rest tr e1 res1 rc1 h hne =>
    intro pre seg res rc post hsplit
    have hev := (execute_segment_events W seg1 all pos total 0 tr e1 res1 rc1 h).1
    obtain ⟨_, hm, hpost⟩ := split_unique Event.is_seg_done e1 [] pre post
      (.seg_done seg1 res1 rc1) (.seg_done seg res rc) hsplit hev (by simp) rfl
    cases hm
    refine ⟨fun _ => hpost.symm, ?_, fun hres => ⟨hpost.symm, by simp [hres]⟩,
      fun _ => hpost.symm⟩
    intro hcat
    have := execute_segment_plain_cat W seg1 all pos total 0 tr hcat
    rw [h] at this
    exact this
  | next seg1 rest tr e1 rc1 e2 fin h _ ih =>
    intro pre seg res rc post hsplit
    have hev := (execute_segment_events W seg1 all pos total 0 tr e1 _ rc1 h).1
    rcases split_first Event.is_seg_done e1 e2 pre post
      (.seg_done seg1 .SEG_CONTINUE rc1) (.seg_done seg res rc) hsplit hev rfl with
      ⟨_, hm, _⟩ | ⟨c1, _, h2⟩
    · cases hm
      have hrc : rc1 = 0 := by
        have := execute_segment_continue W seg1 all pos total 0 tr (by rw [h])
        rw [h] at this
        rcases this with h3 | h3 <;> exact h3
      refine ⟨fun h0 => absurd hrc h0, ?_, fun hres => (by cases hres),
        fun hres => absurd rfl hres⟩
      intro hcat
      have := execute_segment_plain_cat W seg1 all pos total 0 tr hcat
      rw [h] at this
      cases this
    · exact ih c1 seg res rc post h2

/-- Every `call` record of a chain for a plain `cat` carries the rest of the
script as payload. -/
theorem chain_run_call (W : OS) (all : CStr) (pos total : Nat) (segs : List CStr)
    (tr evs : Trace) (fin : Bool) (hrun : ChainRun W all pos total segs tr evs fin) :
    ∀ argv rd d, Event.call argv rd d ∈ evs → is_plain_cat_cmd argv rd = true →
      d = some (rest_of all pos total) := by
  induction hrun with
  | done tr => intro argv rd d h; simp at h
  | stop seg1 rest tr e1 res1 rc1 h hne =>
    intro argv rd d hmem hcat
    have hev := (execute_segment_events W seg1 all pos total 0 tr e1 res1 rc1 h).2
    rcases List.mem_append.mp hmem with h1 | h1
    · exact hev argv rd d h1 hcat
    · simp at h1
  | next seg1 rest tr e1 rc1 e2 fin h _ ih =>
    intro argv rd d hmem hcat
    have hev := (execute_segment_events W seg1 all pos total 0 tr e1 _ rc1 h).2
    rcases List.mem_append.mp hmem with h1 | h1
    · exact hev argv rd d h1 hcat
    · rcases List.mem_cons.mp h1 with h2 | h2
      · cases h2
      · exact ih argv rd d h2 hcat

/-- C1. Short-circuit AND. In what the chain loop does for a line, whatever
the operating system answers, a segment that leaves a nonzero return code
(a nonzero exit code of its command, a syntax error or an I/O error) or that
does not return `SEG_CONTINUE` is the last thing that happens: nothing of
the line is run after it. -/
theorem short_circuit_and (W : OS) (all : CStr) (pos total : Nat) (line : CStr)
    (tr evs pre post : Trace) (seg : CStr) (res : SegResult) (rc : Nat)
    (hline : (chain_loop W all pos total line.length line 0 tr).2.2 = tr ++ evs)
    (hseg : evs = pre ++ .seg_done seg res rc :: post)
    (hrc : rc ≠ 0 ∨ res ≠ .SEG_CONTINUE) :
    post = [] := by
  obtain ⟨e1, fin, rc1, h1, hrun⟩ := chain_loop_run W all pos total line.length line tr
  rw [h1] at hline
  have : e1 = evs := List.append_cancel_left hline
  subst this
  have h := chain_run_marker W all pos total _ tr e1 fin hrun pre seg res rc post hseg
  rcases hrc with h0 | h0
  · exact h.1 h0
  · exact h.2.2.2 h0

theorem seg_markers_append (a b : Trace) :
    seg_markers (a ++ b) = seg_markers a ++ seg_markers b := by
  simp [seg_markers, List.filterMap_append]

theorem seg_markers_none (evs : Trace) (h : ∀ e ∈ evs, e.is_seg_done = false) :
    seg_markers evs = [] := by
  induction evs with
  | nil => rfl
  | cons e l ih =>
    have he := h e (by simp)
    have hl := ih (fun x hx => h x (by simp [hx]))
    cases e <;> first
      | (simp only [seg_markers, List.filterMap_cons] at hl ⊢; exact hl)
      | (simp [Event.is_seg_done] at he)

theorem seg_markers_cons (seg : CStr) (res : SegResult) (rc : Nat) (l : Trace) :
    seg_markers (.seg_done seg res rc :: l) = (seg, res, rc) :: seg_markers l := by
  simp [seg_markers]

/-- The segments a chain runs, against the segments of the line: they are
the first segments of the line, in order; a segment that is not a plain
`cat` and leaves the return code 0 is followed by the next segment of the
line when there is one; and when every segment run is such, every segment of
the line is run. -/
theorem chain_run_markers (W : OS) (all : CStr) (pos total : Nat) (segs : List CStr)
    (tr evs : Trace) (fin : Bool) (hrun : ChainRun W all pos total segs tr evs fin) :
    (seg_markers evs).map (·.1) = segs.take (seg_markers evs).length ∧
    (segs ≠ [] → seg_markers evs ≠ []) ∧
    (∀ j m, (seg_markers evs)[j]? = some m → m.2.2 = 0 → parses_plain_cat m.1 = false →
      j + 1 < segs.length → j + 1 < (seg_markers evs).length) ∧
    ((∀ m ∈ seg_markers evs, m.2.2 = 0 ∧ parses_plain_cat m.1 = false) →
      (seg_markers evs).map (·.1) = segs) := by
  induction hrun with
  | done tr => simp [seg_markers]
  | stop seg1 rest tr e1 res1 rc1 h hne =>
    have hev := (execute_segment_events W seg1 all pos total 0 tr e1 res1 rc1 h).1
    have hm : seg_markers (e1 ++ [.seg_done seg1 res1 rc1]) = [(seg1, res1, rc1)] := by
      rw [seg_markers_append, seg_markers_none e1 hev, seg_markers_cons]; rfl
    have hcontra : rc1 = 0 → parses_plain_cat seg1 = false → False := by
      intro h0 hcat
      subst h0
      have := execute_segment_zero W seg1 all pos total tr hcat (by rw [h])
      rw [h] at this
      exact hne this
    rw [hm]
    refine ⟨by simp, by simp, ?_, ?_⟩
    · intro j m hj h0 hcat _
      cases j with
      | zero =>
        simp only [List.getElem?_cons_zero, Option.some.injEq] at hj
        subst hj
        exact absurd (hcontra h0 hcat) id
      | succ j => simp at hj
    · intro hall
      have := hall (seg1, res1, rc1) (by simp)
      exact absurd (hcontra this.1 this.2) id
  | next seg1 rest tr e1 rc1 e2 fin h _ ih =>
    have hev := (execute_segment_events W seg1 all pos total 0 tr e1 _ rc1 h).1
    have hm : seg_markers (e1 ++ .seg_done seg1 .SEG_CONTINUE rc1 :: e2)
        = (seg1, .SEG_CONTINUE, rc1) :: seg_markers e2 := by
      rw [seg_markers_append, seg_markers_none e1 hev, seg_markers_cons]; rfl
    obtain ⟨ih1, ih2, ih3, ih4⟩ := ih
    rw [hm]
    refine ⟨by simp [ih1], by simp, ?_, ?_⟩
    · intro j m hj h0 hcat hlen
      cases j with
      | zero =>
        have hrest : rest ≠ [] := by
          intro hr; subst hr; simp at hlen
        have := List.length_pos.mpr (ih2 hrest)
        simp only [List.length_cons]
        omega
      | succ j =>
        simp only [List.getElem?_cons_succ] at hj
        have := ih3 j m hj h0 hcat (by simp at hlen; omega)
        simp only [List.length_cons]
        omega
    · intro hall
      have := ih4 (fun m hm => hall m (by simp [hm]))
      simp [this]

/-- C2, as amended. Continue on success. On a line with no redirection
operators (and on any other line), the segments run are the first segments
of the line, in order; whenever a segment that is not a plain `cat` leaves
the return code 0, the chain loop goes on to the next segment of the line;
hence when every segment run leaves the return code 0 and none is a plain
`cat`, every segment of the line is run, in order. -/
theorem continue_on_success (W : OS) (all : CStr) (pos total : Nat) (line : CStr)
    (tr evs : Trace) (_hno : ∀ c ∈ line, c ≠ '<' ∧ c ≠ '>')
    (hline : (chain_loop W all pos total line.length line 0 tr).2.2 = tr ++ evs) :
    (seg_markers evs).map (·.1) = (segments line.length line).take (seg_markers evs).length ∧
    (∀ j m, (seg_markers evs)[j]? = some m → m.2.2 = 0 → parses_plain_cat m.1 = false →
      j + 1 < (segments line.length line).length → j + 1 < (seg_markers evs).length) ∧
    ((∀ m ∈ seg_markers evs, m.2.2 = 0 ∧ parses_plain_cat m.1 = false) →
      (seg_markers evs).map (·.1) = segments line.length line) := by
  obtain ⟨e1, fin, rc1, h1, hrun⟩ := chain_loop_run W all pos total line.length line tr
  rw [h1] at hline
  have : e1 = evs := List.append_cancel_left hline
  subst this
  obtain ⟨c1, _, c3, c4⟩ := chain_run_markers W all pos total _ tr e1 fin hrun
  exact ⟨c1, c3, c4⟩

/-- C2, as stated, fails at the line `cat && echo hi`: the line has no
redirection operator and `cat` exits with 0, yet the second segment of the
line is not run. -/
theorem continue_on_success_counterexample :
    (∀ c ∈ "cat && echo hi".toList, c ≠ '<' ∧ c ≠ '>') ∧
    segments 14 "cat && echo hi".toList = ["cat".toList, "echo hi".toList] ∧
    seg_markers (chain_loop (OS.always (.exited 0)) "cat && echo hi".toList 14 14 14
      "cat && echo hi".toList 0 []).2.2 = [("cat".toList, .SEG_EXIT, 0)] := by
  decide

/-- C2 as amended, at the line `true && echo hi` with commands that exit
with 0: both segments are run. -/
theorem continue_on_success_witness :
    (chain_loop (OS.always (.exited 0)) "true && echo hi".toList 15 15 15
      "true && echo hi".toList 0 []).2.2
      = [] ++ [.call ["true".toList] ⟨none, none, false, false⟩ none, .pipe true,
          .stderr "[DEBUG] parent process, pid=1\n".toList,
          .fork "./proc_clone".toList ["proc_clone".toList, "--".toList, "true".toList]
            .inherited .capture_pipe,
          .drain [], .wait (.exited 0), .seg_done "true".toList .SEG_CONTINUE 0,
          .call ["echo".toList, "hi".toList] ⟨none, none, false, false⟩ none, .pipe true,
          .stderr "[DEBUG] parent process, pid=1\n".toList,
          .fork "./proc_clone".toList
            ["proc_clone".toList, "--".toList, "echo".toList, "hi".toList]
            .inherited .capture_pipe,
          .drain [], .wait (.exited 0), .seg_done "echo hi".toList .SEG_CONTINUE 0] ∧
    [("true".toList, SegResult.SEG_CONTINUE, 0), ("echo hi".toList, .SEG_CONTINUE, 0)].map (·.1)
      = segments 15 "true && echo hi".toList :=
  ⟨by decide,
   (continue_on_success (OS.always (.exited 0)) "true && echo hi".toList 15 15
      "true && echo hi".toList []
      [.call ["true".toList] ⟨none, none, false, false⟩ none, .pipe true,
          .stderr "[DEBUG] parent process, pid=1\n".toList,
          .fork "./proc_clone".toList ["proc_clone".toList, "--".toList, "true".toList]
            .inherited .capture_pipe,
          .drain [], .wait (.exited 0), .seg_done "true".toList .SEG_CONTINUE 0,
          .call ["echo".toList, "hi".toList] ⟨none, none, false, false⟩ none, .pipe true,
          .stderr "[DEBUG] parent process, pid=1\n".toList,
          .fork "./proc_clone".toList
            ["proc_clone".toList, "--".toList, "echo".toList, "hi".toList]
            .inherited .capture_pipe,
          .drain [], .wait (.exited 0), .seg_done "echo hi".toList .SEG_CONTINUE 0]
      (by decide) (by decide)).2.2 (by decide)⟩

/-! ## The lines of the script -/

theorem getD_length_takeWhile (p : Char → Bool) (d : Char) :
    ∀ (l : CStr), (l.takeWhile p).length < l.length →
      p (l.getD (l.takeWhile p).length d) = false := by
  intro l
  induction l with
  | nil => intro h; simp at h
  | cons c l ih =>
    intro h
    by_cases hc : p c = true
    · rw [List.takeWhile_cons_of_pos hc] at h ⊢
      simp only [List.length_cons, Nat.add_lt_add_iff_right] at h
      simpa using ih h
    · rw [List.takeWhile_cons_of_neg hc]
      simpa using hc

/-- The line ends at the end of the script or at a newline. -/
theorem line_end_newline (all : CStr) (ls : Nat) (h : line_end all ls < all.length) :
    all.getD (line_end all ls) '\x00' = '\n' := by
  unfold line_end at h ⊢
  have hls : ls ≤ all.length := by omega
  have hlen : (all.drop ls).length = all.length - ls := by simp
  have h1 := getD_length_takeWhile (fun c => c != '\n') '\x00' (all.drop ls) (by omega)
  have h2 : (all.drop ls).getD ((all.drop ls).takeWhile (fun c => c != '\n')).length '\x00'
      = all.getD (ls + ((all.drop ls).takeWhile (fun c => c != '\n')).length) '\x00' := by
    simp [List.getD_eq_getElem?_getD, List.getElem?_drop]
  rw [h2] at h1
  simpa using h1

/-- At the end of a line the rest of the script is what follows the newline. -/
theorem rest_of_line_end (all : CStr) (ls : Nat) :
    rest_of all (line_end all ls) all.length = all.drop (line_end all ls + 1) := by
  unfold rest_of
  by_cases h : line_end all ls < all.length
  · rw [if_pos ⟨h, line_end_newline all ls h⟩]
  · have h1 : ¬ (line_end all ls < all.length ∧ all.getD (line_end all ls) '\x00' = '\n') :=
      fun hh => h hh.1
    rw [if_neg h1, List.drop_eq_nil_of_le (by omega), List.drop_eq_nil_of_le (by omega)]

/-- One line of the script: what `exec_line` adds to the trace is the run of
a chain over the line. -/
theorem exec_line_run (W : OS) (all : CStr) (ls : Nat) (tr : Trace) :
    ∃ evs fin segs, exec_line W all all.length ls tr = (fin, line_end all ls, tr ++ evs) ∧
      ChainRun W all (line_end all ls) all.length segs tr evs fin := by
  unfold exec_line
  by_cases hws : is_empty_or_ws (dup_range all ls (line_end all ls)) = true
  · exact ⟨[], false, [], by simp [hws], .done tr⟩
  · obtain ⟨e1, fin, rc, h1, hrun⟩ := chain_loop_run W all (line_end all ls) all.length
      (dup_range all ls (line_end all ls)).length (dup_range all ls (line_end all ls)) tr
    exact ⟨e1, fin, _, by simp [hws, h1], hrun⟩

theorem c_str_of_no_nul (stdin : List Char) (h : ∀ c ∈ stdin, c ≠ '\x00') :
    c_str stdin = stdin := by
  unfold c_str
  rw [List.takeWhile_eq_self_iff]
  intro c hc
  simpa using h c hc

/-- C3, as amended. The bulk stdin payload. While the line that starts at
`ls` is run, every call of `run_command` for a plain `cat` gets as payload
exactly the bytes of the script that follow the newline ending that line, up
to the first NUL byte of the script (the empty payload when the line is the
last one); for a script without NUL bytes these are all the bytes after that
newline. -/
theorem bulk_stdin_payload (W : OS) (stdin : List Char) (ls : Nat) (tr evs : Trace)
    (argv : List CStr) (rd : Redirection) (d : Option CStr)
    (hline : (exec_line W (c_str stdin) (c_str stdin).length ls tr).2.2 = tr ++ evs)
    (hcall : Event.call argv rd d ∈ evs) (hcat : is_plain_cat_cmd argv rd = true) :
    d = some ((c_str stdin).drop (line_end (c_str stdin) ls + 1)) ∧
    (line_end (c_str stdin) ls < (c_str stdin).length →
      (c_str stdin).getD (line_end (c_str stdin) ls) '\x00' = '\n') ∧
    ((∀ c ∈ stdin, c ≠ '\x00') → d = some (stdin.drop (line_end stdin ls + 1))) := by
  obtain ⟨e1, fin, segs, h1, hrun⟩ := exec_line_run W (c_str stdin) ls tr
  rw [h1] at hline
  have : e1 = evs := List.append_cancel_left hline
  subst this
  have hd := chain_run_call W (c_str stdin) _ _ segs tr e1 fin hrun argv rd d hcall hcat
  rw [rest_of_line_end] at hd
  refine ⟨hd, line_end_newline (c_str stdin) ls, ?_⟩
  intro hnul
  rw [c_str_of_no_nul stdin hnul] at hd
  exact hd

/-- C3, as stated, fails at the script `cat\na\x00b`: the bytes after the
newline are `a`, NUL, `b`, and the payload handed to `run_command` is `a`. -/
theorem bulk_stdin_payload_counterexample :
    (shell_main (OS.always (.exited 0)) (some ['c', 'a', 't', '\n', 'a', '\x00', 'b'])).2.head?
      = some (.call ["cat".toList] ⟨none, none, false, false⟩ (some ['a'])) ∧
    ['c', 'a', 't', '\n', 'a', '\x00', 'b'].drop 4 = ['a', '\x00', 'b'] ∧
    ['a'] ≠ ['a', '\x00', 'b'] := by
  decide

/-- C3 as amended, at the script `cat\nab\n`. -/
theorem bulk_stdin_payload_witness :
    some "ab\n".toList = some ((c_str "cat\nab\n".toList).drop
      (line_end (c_str "cat\nab\n".toList) 0 + 1)) :=
  (bulk_stdin_payload (OS.always (.exited 0)) "cat\nab\n".toList 0 []
    [.call ["cat".toList] ⟨none, none, false, false⟩ (some "ab\n".toList), .pipe true,
      .pipe true, .stderr "[DEBUG] parent process, pid=1\n".toList,
      .fork "./proc_clone".toList ["proc_clone".toList, "--".toList, "cat".toList]
        .feed_pipe .capture_pipe,
      .feed "ab\n".toList, .drain [], .wait (.exited 0),
      .seg_done "cat".toList .SEG_EXIT 0]
    ["cat".toList] ⟨none, none, false, false⟩ (some "ab\n".toList)
    (by decide) (by decide) (by decide)).1

/-- What the main loop adds to the trace: the record of a plain `cat` has
the result `SEG_EXIT`, and nothing follows a record with that result. -/
theorem main_loop_marker (W : OS) (all : CStr) :
    ∀ (fuel pos : Nat) (tr : Trace),
      ∃ evs, main_loop W all all.length fuel pos tr = tr ++ evs ∧
        ∀ (pre : Trace) (seg : CStr) (res : SegResult) (rc : Nat) (post : Trace),
          evs = pre ++ .seg_done seg res rc :: post →
          (parses_plain_cat seg = true → res = .SEG_EXIT) ∧ (res = .SEG_EXIT → post = []) := by
  intro fuel
  induction fuel with
  | zero =>
    intro pos tr
    refine ⟨[], by rw [main_loop]; simp, ?_⟩
    intro pre seg res rc post h
    have := congrArg List.length h
    simp at this
    omega
  | succ f ih =>
    intro pos tr
    rw [main_loop]
    by_cases hp : pos ≤ all.length
    · simp only [hp, ↓reduceIte]
      obtain ⟨e1, fin, segs, h1, hrun⟩ := exec_line_run W all pos tr
      have hm := chain_run_marker W all _ _ segs tr e1 fin hrun
      rw [h1]
      simp only
      have hstop : ∀ (pre : Trace) (seg : CStr) (res : SegResult) (rc : Nat) (post : Trace),
          e1 = pre ++ .seg_done seg res rc :: post →
          (parses_plain_cat seg = true → res = .SEG_EXIT) ∧ (res = .SEG_EXIT → post = []) :=
        fun pre seg res rc post h =>
          ⟨(hm pre seg res rc post h).2.1, fun hr => ((hm pre seg res rc post h).2.2.1 hr).1⟩
      by_cases hfin : fin = true
      · simp only [hfin, ↓reduceIte]
        exact ⟨e1, rfl, hstop⟩
      · simp only [hfin, Bool.false_eq_true, ↓reduceIte]
        by_cases hend : line_end all pos ≥ all.length
        · simp only [hend, ↓reduceIte]
          exact ⟨e1, rfl, hstop⟩
        · simp only [hend, ↓reduceIte]
          obtain ⟨e2, h2, hm2⟩ := ih (line_end all pos + 1) (tr ++ e1)
          refine ⟨e1 ++ e2, by rw [h2]; simp, ?_⟩
          intro pre seg res rc post h
          rcases List.append_eq_append_iff.mp h with ⟨a1, ha1, ha2⟩ | ⟨c1, hc1, hc2⟩
          · exact hm2 a1 seg res rc post ha2
          · cases c1 with
            | nil =>
              simp only [List.nil_append] at hc2
              exact hm2 [] seg res rc post (by simpa using hc2.symm)
            | cons z c2 =>
              simp only [List.cons_append, List.cons.injEq] at hc2
              obtain ⟨hz, hpost⟩ := hc2
              subst hz
              have h3 := hm pre seg res rc c2 hc1
              refine ⟨h3.2.1, ?_⟩
              intro hr
              have := (h3.2.2.1 hr).2
              exact absurd this hfin
    · simp only [hp, ↓reduceIte]
      refine ⟨[], by simp, ?_⟩
      intro pre seg res rc post h
      have := congrArg List.length h
      simp at this
      omega

/-- The record of a segment that parses to a plain `cat` has the result
`SEG_EXIT` and is the last of the trace of the interpreter: no later segment
of its line is run, even after `&&`, and no later line. -/
theorem plain_cat_record_last (W : OS) (stdin : Option (List Char)) (seg : CStr)
    (hcat : parses_plain_cat seg = true) :
    ∀ pre res rc post, (shell_main W stdin).2 = pre ++ .seg_done seg res rc :: post →
      res = .SEG_EXIT ∧ post = [] := by
  intro pre res rc post h
  cases stdin with
  | none =>
    simp only [shell_main, read_all_stdin, Option.map_none'] at h
    have := congrArg List.length h
    simp at this
    omega
  | some input =>
    simp only [shell_main, read_all_stdin, Option.map_some'] at h
    obtain ⟨evs, h1, hm⟩ := main_loop_marker W (c_str input) ((c_str input).length + 1) 0 []
    rw [h1] at h
    have h2 := hm pre seg res rc post (by simpa using h)
    exact ⟨h2.1 hcat, h2.2 (h2.1 hcat)⟩

/-! ## The fuel of the loops is enough -/

/-- The chain loop with any fuel that covers the length of the text at the
cursor gives the same result. -/
theorem chain_loop_fuel (W : OS) (all : CStr) (pos total : Nat) :
    ∀ (f1 f2 : Nat) (cursor : CStr) (last_rc : Nat) (tr : Trace),
      cursor.length ≤ f1 → cursor.length ≤ f2 →
      chain_loop W all pos total f1 cursor last_rc tr
        = chain_loop W all pos total f2 cursor last_rc tr := by
  intro f1
  induction f1 with
  | zero =>
    intro f2 cursor last_rc tr h1 _
    have hc : cursor = [] := List.eq_nil_of_length_eq_zero (by omega)
    subst hc
    rw [chain_loop_nil, chain_loop_nil]
  | succ f ih =>
    intro f2 cursor last_rc tr h1 h2
    by_cases hc : cursor = []
    · subst hc
      rw [chain_loop_nil, chain_loop_nil]
    · cases f2 with
      | zero =>
        have : cursor = [] := List.eq_nil_of_length_eq_zero (by omega)
        exact absurd this hc
      | succ g =>
        have hlen : 0 < cursor.length := List.length_pos.mpr hc
        rw [chain_loop, chain_loop]
        simp only [hc, ↓reduceIte]
        cases hs : strstr cursor "&&".toList with
        | none => rfl
        | some k =>
          have hd : (cursor.drop (k + 2)).length ≤ cursor.length - 2 := by
            simp only [List.length_drop]; omega
          simp only
          rw [ih g (cursor.drop (k + 2)) _ _ (by omega) (by omega)]

/-- The segments of a line do not depend on the fuel once it covers the
length of the line. -/
theorem segments_fuel : ∀ (f1 f2 : Nat) (cursor : CStr),
    cursor.length ≤ f1 → cursor.length ≤ f2 → segments f1 cursor = segments f2 cursor := by
  intro f1
  induction f1 with
  | zero =>
    intro f2 cursor h1 _
    have hc : cursor = [] := List.eq_nil_of_length_eq_zero (by omega)
    subst hc
    cases f2 <;> simp [segments]
  | succ f ih =>
    intro f2 cursor h1 h2
    by_cases hc : cursor = []
    · subst hc
      cases f2 <;> simp [segments]
    · cases f2 with
      | zero =>
        have : cursor = [] := List.eq_nil_of_length_eq_zero (by omega)
        exact absurd this hc
      | succ g =>
        have hlen : 0 < cursor.length := List.length_pos.mpr hc
        rw [segments, segments]
        simp only [hc, ↓reduceIte]
        cases hs : strstr cursor "&&".toList with
        | none => rfl
        | some k =>
          have hd : (cursor.drop (k + 2)).length ≤ cursor.length - 2 := by
            simp only [List.length_drop]; omega
          simp only
          rw [ih g (cursor.drop (k + 2)) (by omega) (by omega)]

theorem line_end_ge (all : CStr) (pos : Nat) : pos ≤ line_end all pos := by
  unfold line_end; omega

theorem exec_line_pos (W : OS) (all : CStr) (total ls : Nat) (tr : Trace) :
    (exec_line W all total ls tr).2.1 = line_end all ls := by
  unfold exec_line
  by_cases h : is_empty_or_ws (dup_range all ls (line_end all ls)) = true <;> simp [h]

/-- The main loop with any fuel that covers the lines left gives the same
trace. -/
theorem main_loop_fuel (W : OS) (all : CStr) (total : Nat) :
    ∀ (f1 f2 pos : Nat) (tr : Trace), total + 1 - pos ≤ f1 → total + 1 - pos ≤ f2 →
      main_loop W all total f1 pos tr = main_loop W all total f2 pos tr := by
  intro f1
  induction f1 with
  | zero =>
    intro f2 pos tr h1 _
    have hp : ¬ pos ≤ total := by omega
    cases f2 with
    | zero => rfl
    | succ g => rw [main_loop, main_loop]; simp only [hp, ↓reduceIte]
  | succ f ih =>
    intro f2 pos tr h1 h2
    by_cases hp : pos ≤ total
    · cases f2 with
      | zero => omega
      | succ g =>
        rw [main_loop, main_loop]
        simp only [hp, ↓reduceIte]
        have hpos := exec_line_pos W all total pos tr
        have hge := line_end_ge all pos
        split
        · rfl
        · split
          · rfl
          · rw [ih g _ _ (by rw [hpos]; omega) (by rw [hpos]; omega)]
    · cases f2 with
      | zero => rw [main_loop, main_loop]; simp only [hp, ↓reduceIte]
      | succ g => rw [main_loop, main_loop]; simp only [hp, ↓reduceIte]

/-- C1, at the line `false && echo hi` when the command exits with 1: the
chain ends with the record of `false`, and `echo hi` is not run. -/
theorem short_circuit_and_witness :
    (chain_loop (OS.always (.exited 1)) "false && echo hi".toList 16 16 16
      "false && echo hi".toList 0 []).2.2
      = [] ++ ([.call ["false".toList] ⟨none, none, false, false⟩ none, .pipe true,
          .stderr "[DEBUG] parent process, pid=1\n".toList,
          .fork "./proc_clone".toList ["proc_clone".toList, "--".toList, "false".toList]
            .inherited .capture_pipe,
          .drain [], .wait (.exited 1)] ++ .seg_done "false".toList .SEG_BREAK 1 :: []) ∧
    ([] : Trace) = [] :=
  ⟨by decide,
   short_circuit_and (OS.always (.exited 1)) "false && echo hi".toList 16 16
     "false && echo hi".toList [] _
     [.call ["false".toList] ⟨none, none, false, false⟩ none, .pipe true,
       .stderr "[DEBUG] parent process, pid=1\n".toList,
       .fork "./proc_clone".toList ["proc_clone".toList, "--".toList, "false".toList]
         .inherited .capture_pipe,
       .drain [], .wait (.exited 1)]
     [] "false".toList .SEG_BREAK 1 (by decide) rfl (Or.inl (by decide))⟩

/-! ## The launcher backend -/

theorem proc_clone_main_usage (argv : List CStr) (quiet_env : Option CStr) (B : BackendOS)
    (h : usage_error argv = true) :
    proc_clone_main argv quiet_env B =
      ⟨2, [.stderr ("Usage: ".toList ++ argv.getD 0 [] ++ " [--] [command [args...]]\n".toList)]⟩ := by
  simp only [usage_error, first_cmd_index, decide_eq_true_eq] at h
  simp only [proc_clone_main, h, and_self, ↓reduceIte]

/-- The backend's `main` in its named parts. -/
theorem proc_clone_main_eq (argv : List CStr) (quiet_env : Option CStr) (B : BackendOS) :
    proc_clone_main argv quiet_env B =
      if usage_error argv then
        ⟨2, [.stderr ("Usage: ".toList ++ argv.getD 0 [] ++ " [--] [command [args...]]\n".toList)]⟩
      else if !B.stack_ok then ⟨12, [.perror "malloc (stack)".toList]⟩
      else if !B.clone_ok then ⟨1, [.perror "clone".toList]⟩
      else clone_and_wait (make_context argv) quiet_env B := by
  by_cases h : usage_error argv = true
  · rw [proc_clone_main_usage argv quiet_env B h, if_pos h]
  · rw [if_neg h]
    simp only [usage_error, first_cmd_index, decide_eq_true_eq] at h
    simp only [proc_clone_main, h, ↓reduceIte]
    rfl

theorem scan_dashdash_not_mem : ∀ (l : List CStr) (i : Nat), "--".toList ∉ l →
    scan_dashdash l i = 1 := by
  intro l
  induction l with
  | nil => intro i _; rfl
  | cons a rest ih =>
    intro i h
    have ha : a ≠ "--".toList := fun e => h (by rw [e]; exact List.mem_cons_self _ _)
    rw [scan_dashdash, if_neg ha]
    exact ih (i + 1) (fun hm => h (List.mem_cons_of_mem _ hm))

theorem scan_dashdash_split : ∀ (pre post : List CStr) (i : Nat), "--".toList ∉ pre →
    scan_dashdash (pre ++ "--".toList :: post) i = i + pre.length + 1 := by
  intro pre
  induction pre with
  | nil => intro post i _; simp [scan_dashdash]
  | cons a rest ih =>
    intro post i h
    have ha : a ≠ "--".toList := fun e => h (by rw [e]; exact List.mem_cons_self _ _)
    rw [List.cons_append, scan_dashdash, if_neg ha,
      ih post (i + 1) (fun hm => h (List.mem_cons_of_mem _ hm))]
    simp only [List.length_cons]
    omega

theorem child_main_clones (context : ChildContext) (quiet_env : Option CStr) (pid ppid : Nat)
    (ex : Execvp) :
    clones (child_main context quiet_env pid ppid ex).2 = [] ∧
    stderr_lines (child_main context quiet_env pid ppid ex).2 =
      (if context.should_exec = true ∧ ex = .fails then [.perror "execvp".toList] else []) := by
  unfold child_main
  by_cases h : context.should_exec = true
  · cases ex <;> simp [h, clones, stderr_lines]
  · by_cases hq : quiet_of quiet_env = true <;> simp [h, hq, clones, stderr_lines]

theorem clone_and_wait_clones (context : ChildContext) (quiet_env : Option CStr)
    (B : BackendOS) : clones (clone_and_wait context quiet_env B).out = [context] := by
  have hch := (child_main_clones context quiet_env B.child_pid B.pid B.execvp).1
  unfold clone_and_wait
  by_cases hw : B.wait_ok = true
  · simp only [hw, Bool.not_true, Bool.false_eq_true, ↓reduceIte]
    cases hst : (child_main context quiet_env B.child_pid B.pid B.execvp).1 <;>
      by_cases hq : quiet_of quiet_env = true <;>
      simp only [hq, Bool.not_true, Bool.not_false, Bool.false_eq_true, ↓reduceIte, clones,
        List.filterMap_append, List.filterMap_cons, List.filterMap_nil] at hch ⊢ <;>
      rw [hch] <;> rfl
  · simp only [hw, Bool.not_false, ↓reduceIte, clones, List.filterMap_append,
      List.filterMap_cons, List.filterMap_nil] at hch ⊢
    rw [hch]; rfl

/-- C16. The exit code of the backend. For an invocation that is accepted
(no usage error) and whose stack and new process are created: the exit code
is the exit status of the new process when it exited normally, 128 + n when
it was killed by signal n, and 1 when `waitpid` fails; and when a command is
given and `execvp` replaces the image, the new process ends as the command
does. -/
theorem backend_exit_code (argv : List CStr) (quiet_env : Option CStr) (B : BackendOS)
    (hwf : usage_error argv = false) (hs : B.stack_ok = true) (hc : B.clone_ok = true) :
    (∀ s, B.wait_ok = true →
      (child_main (make_context argv) quiet_env B.child_pid B.pid B.execvp).1 = .exited s →
      (proc_clone_main argv quiet_env B).exit_code = s) ∧
    (∀ n, B.wait_ok = true →
      (child_main (make_context argv) quiet_env B.child_pid B.pid B.execvp).1 = .signaled n →
      (proc_clone_main argv quiet_env B).exit_code = 128 + n) ∧
    (B.wait_ok = false → (proc_clone_main argv quiet_env B).exit_code = 1) ∧
    (∀ st, (make_context argv).should_exec = true → B.execvp = .replaced st →
      (child_main (make_context argv) quiet_env B.child_pid B.pid B.execvp).1 = st) := by
  rw [proc_clone_main_eq, hwf, hs, hc]
  simp only [Bool.false_eq_true, ↓reduceIte, Bool.not_true]
  refine ⟨?_, ?_, ?_, ?_⟩
  · intro s hw hst
    simp only [clone_and_wait, hw, Bool.not_true, Bool.false_eq_true, ↓reduceIte, hst]
  · intro n hw hst
    simp only [clone_and_wait, hw, Bool.not_true, Bool.false_eq_true, ↓reduceIte, hst]
  · intro hw
    simp only [clone_and_wait, hw, Bool.not_false, ↓reduceIte]
  · intro st hx hex
    simp only [child_main, hx, ↓reduceIte, hex]

/-- C16, at `proc_clone -- sh` with the command killed by signal 9. -/
theorem backend_exit_code_witness :
    (proc_clone_main ["proc_clone".toList, "--".toList, "sh".toList] none
      ⟨true, true, .replaced (.signaled 9), true, ⟨0, 0⟩, ⟨0, 0⟩, 2, 3⟩).exit_code = 128 + 9 :=
  (backend_exit_code ["proc_clone".toList, "--".toList, "sh".toList] none
    ⟨true, true, .replaced (.signaled 9), true, ⟨0, 0⟩, ⟨0, 0⟩, 2, 3⟩
    (by decide) rfl rfl).2.1 9 rfl (by decide)

theorem time_name_make_context (argv : List CStr) :
    time_name (make_context argv) =
      if first_cmd_index argv < argv.length then argv.getD (first_cmd_index argv) []
      else "<none>".toList := by
  unfold make_context time_name
  by_cases h : first_cmd_index argv < argv.length
  · simp only [h, decide_True, ↓reduceIte]
    rw [List.drop_eq_getElem_cons h]
    simp [List.getD_eq_getElem?_getD, List.getElem?_eq_getElem h]
  · simp [h]

/-- C17, as amended. The timing line. For an invocation that is accepted and
whose wait succeeds, whatever `PROC_CLONE_QUIET` holds, the backend writes
one timing line to its error stream, the last line on that stream: when the
new process exited with status `s`, the line `[time] <name> <N> ms rc=<s>`,
and `s` is the exit code of the backend; when it was killed by signal `n`,
the line `[time] <name> <N> ms rc=<128+n> (signal <n>)`, and `128 + n` is
the exit code of the backend. `<name>` is the first word of the command, or
`<none>` when no command is given, and `<N>` the elapsed milliseconds.
Nothing else reaches the error stream, except that the new process, when it
cannot execute the command, writes the line of `perror("execvp")` before the
timing line. -/
theorem timing_line (argv : List CStr) (quiet_env : Option CStr) (B : BackendOS)
    (hwf : usage_error argv = false) (hs : B.stack_ok = true) (hc : B.clone_ok = true)
    (hw : B.wait_ok = true) :
    (∀ s, (child_main (make_context argv) quiet_env B.child_pid B.pid B.execvp).1 = .exited s →
      (proc_clone_main argv quiet_env B).exit_code = s ∧
      stderr_lines (proc_clone_main argv quiet_env B).out =
        (if (make_context argv).should_exec = true ∧ B.execvp = .fails
          then [.perror "execvp".toList] else []) ++
        [.stderr (time_line (time_name (make_context argv))
          (timespec_diff_ms B.t_end B.t_start) s ++ "\n".toList)]) ∧
    (∀ n, (child_main (make_context argv) quiet_env B.child_pid B.pid B.execvp).1
        = .signaled n →
      (proc_clone_main argv quiet_env B).exit_code = 128 + n ∧
      stderr_lines (proc_clone_main argv quiet_env B).out =
        [.stderr (time_line (time_name (make_context argv))
            (timespec_diff_ms B.t_end B.t_start) (128 + n)
          ++ " (signal ".toList ++ fmt_int n ++ ")\n".toList)]) ∧
    time_name (make_context argv) =
      (if first_cmd_index argv < argv.length then argv.getD (first_cmd_index argv) []
       else "<none>".toList) := by
  have hch := (child_main_clones (make_context argv) quiet_env B.child_pid B.pid B.execvp).2
  have hsig : ∀ n, (child_main (make_context argv) quiet_env B.child_pid B.pid B.execvp).1
      = .signaled n → ¬ ((make_context argv).should_exec = true ∧ B.execvp = .fails) := by
    intro n hst hf
    simp [child_main, hf.1, hf.2] at hst
  rw [proc_clone_main_eq, hwf, hs, hc]
  simp only [Bool.false_eq_true, ↓reduceIte, Bool.not_true]
  refine ⟨?_, ?_, time_name_make_context argv⟩
  · intro s hst
    simp only [clone_and_wait, hw, Bool.not_true, Bool.false_eq_true, ↓reduceIte, hst,
      true_and]
    by_cases hq : quiet_of quiet_env = true <;>
      simp only [hq, Bool.not_true, Bool.not_false, Bool.false_eq_true, ↓reduceIte,
        stderr_lines, List.filter_append, List.filter_cons, List.filter_nil,
        time_line] at hch ⊢ <;>
      rw [hch] <;> simp
  · intro n hst
    have hno := hsig n hst
    simp only [clone_and_wait, hw, Bool.not_true, Bool.false_eq_true, ↓reduceIte, hst,
      true_and]
    rw [if_neg hno] at hch
    by_cases hq : quiet_of quiet_env = true <;>
      simp only [hq, Bool.not_true, Bool.not_false, Bool.false_eq_true, ↓reduceIte,
        stderr_lines, List.filter_append, List.filter_cons, List.filter_nil,
        time_line] at hch ⊢ <;>
      rw [hch] <;> simp

/-- C17, as stated, fails when the command is killed by a signal: at
`proc_clone -- sleep 9` with `sleep` killed by signal 9 after 5 ms the
backend writes `[time] sleep 5 ms rc=137 (signal 9)`, which has ` (signal 9)`
after the code. -/
theorem timing_line_counterexample :
    stderr_lines (proc_clone_main
        ["proc_clone".toList, "--".toList, "sleep".toList, "9".toList] (some "1".toList)
        ⟨true, true, .replaced (.signaled 9), true, ⟨0, 0⟩, ⟨0, 5000000⟩, 2, 3⟩).out
      = [.stderr "[time] sleep 5 ms rc=137 (signal 9)\n".toList] ∧
    (proc_clone_main
        ["proc_clone".toList, "--".toList, "sleep".toList, "9".toList] (some "1".toList)
        ⟨true, true, .replaced (.signaled 9), true, ⟨0, 0⟩, ⟨0, 5000000⟩, 2, 3⟩).exit_code
      = 137 ∧
    time_line "sleep".toList 5 137 = "[time] sleep 5 ms rc=137".toList ∧
    "[time] sleep 5 ms rc=137 (signal 9)\n".toList
      ≠ time_line "sleep".toList 5 137 ++ "\n".toList := by
  decide

/-- C17 as amended, at `proc_clone -- nosuch` with a program `nosuch` that
cannot be executed, the wait returning after 2 ms: the error stream holds
the line of `perror` and then the timing line with the code 127. -/
theorem timing_line_witness :
    stderr_lines (proc_clone_main ["proc_clone".toList, "--".toList, "nosuch".toList] none
        ⟨true, true, .fails, true, ⟨1, 999000000⟩, ⟨2, 1000000⟩, 2, 3⟩).out
      = [.perror "execvp".toList, .stderr "[time] nosuch 2 ms rc=127\n".toList] ∧
    ((proc_clone_main ["proc_clone".toList, "--".toList, "nosuch".toList] none
        ⟨true, true, .fails, true, ⟨1, 999000000⟩, ⟨2, 1000000⟩, 2, 3⟩).exit_code
      = 127 ∧
    stderr_lines (proc_clone_main ["proc_clone".toList, "--".toList, "nosuch".toList] none
        ⟨true, true, .fails, true, ⟨1, 999000000⟩, ⟨2, 1000000⟩, 2, 3⟩).out
      = (if (make_context ["proc_clone".toList, "--".toList, "nosuch".toList]).should_exec = true
            ∧ Execvp.fails = .fails
          then [.perror "execvp".toList] else []) ++
        [.stderr (time_line (time_name (make_context
            ["proc_clone".toList, "--".toList, "nosuch".toList]))
          (timespec_diff_ms ⟨2, 1000000⟩ ⟨1, 999000000⟩) 127 ++ "\n".toList)]) :=
  ⟨by decide,
    (timing_line ["proc_clone".toList, "--".toList, "nosuch".toList] none
      ⟨true, true, .fails, true, ⟨1, 999000000⟩, ⟨2, 1000000⟩, 2, 3⟩
      (by decide) rfl rfl rfl).1 127 (by decide)⟩

/-- The usage error of the backend as the code reports it. When the first
argument begins with `-` and no argument is `--`, the backend writes the
usage line to its error stream and nothing else, exits with code 2, and
creates no process. -/
theorem backend_usage_error (prog a : CStr) (rest : List CStr) (quiet_env : Option CStr)
    (B : BackendOS) (ha : a.head? = some '-') (hno : "--".toList ∉ a :: rest) :
    proc_clone_main (prog :: a :: rest) quiet_env B =
      ⟨2, [.stderr ("Usage: ".toList ++ prog ++ " [--] [command [args...]]\n".toList)]⟩ ∧
    clones (proc_clone_main (prog :: a :: rest) quiet_env B).out = [] := by
  have hu : usage_error (prog :: a :: rest) = true := by
    simp only [usage_error, first_cmd_index, List.drop_succ_cons, List.drop_zero,
      scan_dashdash_not_mem _ 1 hno, decide_eq_true_eq]
    exact ⟨trivial, by simp, by simpa using ha⟩
  rw [proc_clone_main_usage _ _ _ hu]
  exact ⟨by simp, rfl⟩

/-- C18. The usage error of the backend, evaluated at `proc_clone -x true`
and at `proc_clone -x -- true`. In both the first argument begins with `-`
and is not `--`. At the first the backend writes the usage line, with the
grammar `[--] [command [args...]]`, exits with code 2 and creates no
process. At the second it reports no usage error: it creates a process for
`true` and exits with its status 0. -/
theorem backend_usage_error_missed :
    ("-x".toList).head? = some '-' ∧ "-x".toList ≠ "--".toList ∧
    proc_clone_main ["proc_clone".toList, "-x".toList, "true".toList] (some "1".toList)
        ⟨true, true, .replaced (.exited 0), true, ⟨0, 0⟩, ⟨0, 0⟩, 2, 3⟩
      = ⟨2, [.stderr "Usage: proc_clone [--] [command [args...]]\n".toList]⟩ ∧
    proc_clone_main ["proc_clone".toList, "-x".toList, "--".toList, "true".toList]
        (some "1".toList)
        ⟨true, true, .replaced (.exited 0), true, ⟨0, 0⟩, ⟨0, 0⟩, 2, 3⟩
      = ⟨0, [.clone ⟨some ["true".toList], true⟩,
          .stderr "[time] true 0 ms rc=0\n".toList]⟩ := by
  decide

/-- The usage error at `proc_clone -x true`. -/
theorem backend_usage_error_witness :
    (proc_clone_main ["proc_clone".toList, "-x".toList, "true".toList] none
        ⟨true, true, .replaced (.exited 0), true, ⟨0, 0⟩, ⟨0, 0⟩, 2, 3⟩).exit_code = 2 :=
  congrArg BackendResult.exit_code
    (backend_usage_error "proc_clone".toList "-x".toList ["true".toList] none
      ⟨true, true, .replaced (.exited 0), true, ⟨0, 0⟩, ⟨0, 0⟩, 2, 3⟩ (by decide) (by decide)).1

theorem make_context_no_dashdash (prog : CStr) (args : List CStr)
    (h : "--".toList ∉ args) :
    make_context (prog :: args) = ⟨if args = [] then none else some args, decide (args ≠ [])⟩ := by
  simp only [make_context, first_cmd_index, List.drop_succ_cons, List.drop_zero,
    scan_dashdash_not_mem args 1 h, List.length_cons]
  cases args with
  | nil => simp
  | cons a rest => simp

theorem make_context_split (prog : CStr) (pre post : List CStr)
    (h : "--".toList ∉ pre) :
    make_context (prog :: (pre ++ "--".toList :: post))
      = ⟨if post = [] then none else some post, decide (post ≠ [])⟩ := by
  simp only [make_context, first_cmd_index, List.drop_succ_cons, List.drop_zero,
    scan_dashdash_split pre post 1 h, List.length_cons, List.length_append]
  have hd : List.drop (1 + pre.length) (pre ++ "--".toList :: post) = post := by
    have : 1 + pre.length = pre.length + 1 := by omega
    rw [this, List.drop_append_eq_append_drop]
    simp
  rw [hd]
  cases post with
  | nil => simp; omega
  | cons a rest => simp; omega

/-- The command the backend executes, as the code finds it. For an argument
list the backend accepts, the one process it creates gets as command what
follows the first `--` of the list, at whatever place it stands, and the
whole list when no argument is `--` (no command when that is empty). So
when `--` is the first argument or no argument at all, the command is the
list with one optional leading `--` removed, and a `--` after a leading
`--` is an ordinary argument of the command. -/
theorem backend_argument_grammar (prog : CStr) (args : List CStr) (quiet_env : Option CStr)
    (B : BackendOS) (hacc : usage_error (prog :: args) = false)
    (hs : B.stack_ok = true) (hc : B.clone_ok = true) :
    clones (proc_clone_main (prog :: args) quiet_env B).out = [make_context (prog :: args)] ∧
    ("--".toList ∉ args →
      make_context (prog :: args) = ⟨if args = [] then none else some args, decide (args ≠ [])⟩) ∧
    (∀ pre post, args = pre ++ "--".toList :: post → "--".toList ∉ pre →
      make_context (prog :: args) = ⟨if post = [] then none else some post, decide (post ≠ [])⟩) ∧
    ("--".toList ∉ args ∨ args.head? = some "--".toList →
      make_context (prog :: args) =
        ⟨if grammar_command args = [] then none else some (grammar_command args),
          decide (grammar_command args ≠ [])⟩) := by
  refine ⟨?_, make_context_no_dashdash prog args, ?_, ?_⟩
  · rw [proc_clone_main_eq, hacc, hs, hc]
    simp only [Bool.false_eq_true, ↓reduceIte, Bool.not_true]
    exact clone_and_wait_clones _ _ _
  · intro pre post he hp
    rw [he]
    exact make_context_split prog pre post hp
  · intro h
    rcases h with h | h
    · rw [make_context_no_dashdash prog args h]
      cases args with
      | nil => rfl
      | cons a rest =>
        have ha : a ≠ "--".toList := fun e => h (by rw [e]; exact List.mem_cons_self _ _)
        have ha2 : ¬ a = ['-', '-'] := ha
        simp [grammar_command, ha2]
    · cases args with
      | nil => simp at h
      | cons a rest =>
        simp only [List.head?_cons, Option.some.injEq] at h
        subst h
        have := make_context_split prog [] rest (by simp)
        simp only [List.nil_append] at this
        rw [this]
        simp [grammar_command]

/-- C19. The argument grammar of the backend, evaluated at
`proc_clone echo -- hi` and at `proc_clone -- echo -- hi`. The first list is
accepted and its first argument is not `--`, so under the grammar
`[--] [command [args...]]` its command is `echo -- hi`; the command of the
process the backend creates is `hi`. At the second list the leading `--` is
removed and the later one stays an argument of `echo`. -/
theorem backend_argument_grammar_missed :
    usage_error ["proc_clone".toList, "echo".toList, "--".toList, "hi".toList] = false ∧
    grammar_command ["echo".toList, "--".toList, "hi".toList]
      = ["echo".toList, "--".toList, "hi".toList] ∧
    make_context ["proc_clone".toList, "echo".toList, "--".toList, "hi".toList]
      = ⟨some ["hi".toList], true⟩ ∧
    clones (proc_clone_main ["proc_clone".toList, "echo".toList, "--".toList, "hi".toList]
        (some "1".toList)
        ⟨true, true, .replaced (.exited 0), true, ⟨0, 0⟩, ⟨0, 0⟩, 2, 3⟩).out
      = [⟨some ["hi".toList], true⟩] ∧
    clones (proc_clone_main
        ["proc_clone".toList, "--".toList, "echo".toList, "--".toList, "hi".toList]
        (some "1".toList)
        ⟨true, true, .replaced (.exited 0), true, ⟨0, 0⟩, ⟨0, 0⟩, 2, 3⟩).out
      = [⟨some ["echo".toList, "--".toList, "hi".toList], true⟩] := by
  decide

/-- The command at `proc_clone -- echo -- hi`. -/
theorem backend_argument_grammar_witness :
    make_context ["proc_clone".toList, "--".toList, "echo".toList, "--".toList, "hi".toList]
      = ⟨if grammar_command ["--".toList, "echo".toList, "--".toList, "hi".toList] = []
          then none
          else some (grammar_command ["--".toList, "echo".toList, "--".toList, "hi".toList]),
        decide (grammar_command ["--".toList, "echo".toList, "--".toList, "hi".toList] ≠ [])⟩ :=
  (backend_argument_grammar "proc_clone".toList
    ["--".toList, "echo".toList, "--".toList, "hi".toList] none
    ⟨true, true, .replaced (.exited 0), true, ⟨0, 0⟩, ⟨0, 0⟩, 2, 3⟩
    (by decide) rfl rfl).2.2.2 (Or.inr rfl)

/-! ## The invocation of the backend -/

theorem forked_append (a b : Trace) : forked (a ++ b) = forked a ++ forked b := by
  simp [forked, List.filterMap_append]

theorem open_redirection_fds_forked (W : OS) (rd : Redirection) (tr : Trace) :
    forked (open_redirection_fds W rd tr).2.2 = forked tr := by
  unfold open_redirection_fds
  by_cases hin : rd.has_in = true <;> by_cases hout : rd.has_out = true <;>
    by_cases h1 : W.open_in tr (rd.in_path.getD []) = true <;>
    by_cases h2 : W.open_out tr (rd.out_path.getD []) = true <;>
    by_cases h3 : W.open_out (tr ++ [Event.open_in (rd.in_path.getD []) true])
      (rd.out_path.getD []) = true <;>
    simp [hin, hout, h1, h2, h3, print_io_error, forked, List.filterMap_append]

theorem setup_pipes_forked (W : OS) (rd : Redirection) (stdin_data : Option CStr)
    (fds : ExecFds) (tr : Trace) :
    forked (setup_pipes W rd stdin_data fds tr).2.2 = forked tr := by
  unfold setup_pipes
  by_cases hout : rd.has_out = true <;>
    by_cases h1 : W.pipe tr = true <;>
    by_cases h2 : W.pipe (tr ++ [Event.pipe true]) = true <;>
    by_cases hf : (stdin_data.isSome && decide ((stdin_data.getD []).length > 0) &&
      !rd.has_in) = true <;>
    simp [hout, h1, h2, hf, forked, List.filterMap_append]

theorem launch_supervisor_forked (W : OS) (argv : List CStr) (rd : Redirection)
    (stdin_data : Option CStr) (fds : ExecFds) (tr : Trace) :
    forked (launch_supervisor W argv rd stdin_data fds tr)
      = forked tr ++ ["proc_clone".toList :: "--".toList :: argv] := by
  obtain ⟨w, hw | hw | hw⟩ := feed_payload_cases W (stdin_data.getD []) <;>
    unfold launch_supervisor <;>
    by_cases h1 : fds.pout = true <;> by_cases h2 : fds.feed_stdin = true <;>
    simp [h1, h2, hw, forked, List.filterMap_append]

/-- The supervisors `run_command` forks: none when it returns early, and
one, for the backend invoked as `proc_clone -- argv...`, otherwise. -/
theorem run_command_forked (W : OS) (argv : List CStr) (rd : Redirection)
    (stdin_data : Option CStr) (tr : Trace) :
    forked (run_command W argv rd stdin_data tr).2 =
      forked tr ++
        (if argv = [] ∨ argv.head? = some "./shell".toList then []
         else if (open_redirection_fds W rd (tr ++ [.call argv rd stdin_data])).1 = false
           then []
         else if (setup_pipes W rd stdin_data
             (open_redirection_fds W rd (tr ++ [.call argv rd stdin_data])).2.1
             (open_redirection_fds W rd (tr ++ [.call argv rd stdin_data])).2.2).1 = false
           then []
         else ["proc_clone".toList :: "--".toList :: argv]) := by
  cases argv with
  | nil => simp [run_command, forked, List.filterMap_append]
  | cons a0 rest =>
    by_cases hs : a0 = "./shell".toList
    · simp [run_command, hs, forked, List.filterMap_append]
    · have hf0 : forked (tr ++ [Event.call (a0 :: rest) rd stdin_data]) = forked tr := by
        simp [forked, List.filterMap_append]
      have ho := open_redirection_fds_forked W rd (tr ++ [.call (a0 :: rest) rd stdin_data])
      rcases hop : open_redirection_fds W rd (tr ++ [.call (a0 :: rest) rd stdin_data])
        with ⟨ok1, fds1, tr1⟩
      rw [hop] at ho
      simp only at ho
      have hp := setup_pipes_forked W rd stdin_data fds1 tr1
      rcases hpp : setup_pipes W rd stdin_data fds1 tr1 with ⟨ok2, fds, tr2⟩
      rw [hpp] at hp
      simp only at hp
      have hl := launch_supervisor_forked W (a0 :: rest) rd stdin_data fds tr2
      simp only [run_command, hs, ↓reduceIte, hop, List.head?_cons, Option.some.injEq,
        false_or, reduceCtorEq]
      cases ok1 with
      | false => simp [ho, hf0]
      | true =>
        simp only [hpp]
        cases ok2 with
        | false => simp [hp, ho, hf0]
        | true =>
          simp only [Bool.true_eq_false, ↓reduceIte]
          generalize launch_supervisor W (a0 :: rest) rd stdin_data fds tr2 = L at hl ⊢
          cases supervisor_status ("proc_clone".toList :: "--".toList :: a0 :: rest)
              (W.supervisor L) with
          | exited rc =>
            by_cases h127 : rc = 127 <;>
              simp [h127, print_cmd_not_found, forked_append, hl, hp, ho, hf0] <;> rfl
          | signaled sig => simp [forked_append, hl, hp, ho, hf0]; rfl
          | other => simp [forked_append, hl, hp, ho, hf0]; rfl

/-- C20. The original argv passes through unchanged. For a non-empty argv,
`run_command` forks at most one supervisor, and the invocation it builds for
the backend is `proc_clone`, `--`, then argv as it is; it does fork one when
the command is not `./shell`, the files open and the pipes are created. The
backend accepts that invocation, whatever argv holds, and the command of the
process it creates is argv. -/
theorem argv_pass_through (W : OS) (argv : List CStr) (rd : Redirection)
    (stdin_data : Option CStr) (tr : Trace) (hne : argv ≠ []) :
    (forked (run_command W argv rd stdin_data tr).2 = forked tr ∨
      forked (run_command W argv rd stdin_data tr).2
        = forked tr ++ ["proc_clone".toList :: "--".toList :: argv]) ∧
    (argv.head? ≠ some "./shell".toList → (∀ t p, W.open_in t p = true) →
      (∀ t p, W.open_out t p = true) → (∀ t, W.pipe t = true) →
      forked (run_command W argv rd stdin_data tr).2
        = forked tr ++ ["proc_clone".toList :: "--".toList :: argv]) ∧
    usage_error ("proc_clone".toList :: "--".toList :: argv) = false ∧
    make_context ("proc_clone".toList :: "--".toList :: argv) = ⟨some argv, true⟩ ∧
    (∀ quiet_env B, B.stack_ok = true → B.clone_ok = true →
      clones (proc_clone_main ("proc_clone".toList :: "--".toList :: argv) quiet_env B).out
        = [⟨some argv, true⟩]) := by
  have hu : usage_error ("proc_clone".toList :: "--".toList :: argv) = false := by
    simp [usage_error, first_cmd_index, scan_dashdash]
  have hctx : make_context ("proc_clone".toList :: "--".toList :: argv) = ⟨some argv, true⟩ := by
    have := make_context_split "proc_clone".toList [] argv (by simp)
    simp only [List.nil_append] at this
    rw [this]
    simp [hne]
  refine ⟨?_, ?_, hu, hctx, ?_⟩
  · rw [run_command_forked]
    split
    · left; simp
    · split
      · left; simp
      · split
        · left; simp
        · right; rfl
  · intro hns hin hout hpipe
    rw [run_command_forked]
    have h1 : ¬ (argv = [] ∨ argv.head? = some "./shell".toList) := by
      rintro (h | h)
      · exact hne h
      · exact hns h
    rw [if_neg h1, open_redirection_fds_ok W rd _ hin hout,
      setup_pipes_ok W rd stdin_data _ _ hpipe]
    simp
  · intro quiet_env B hs hc
    rw [proc_clone_main_eq, hu, hs, hc, hctx]
    simp only [Bool.false_eq_true, ↓reduceIte, Bool.not_true]
    exact clone_and_wait_clones _ _ _

/-- C20, at the command `echo -- -n`. -/
theorem argv_pass_through_witness :
    make_context ["proc_clone".toList, "--".toList, "echo".toList, "--".toList, "-n".toList]
      = ⟨some ["echo".toList, "--".toList, "-n".toList], true⟩ ∧
    forked (run_command (OS.always (.exited 0))
        ["echo".toList, "--".toList, "-n".toList] ⟨none, none, false, false⟩ none []).2
      = forked [] ++ ["proc_clone".toList :: "--".toList ::
          ["echo".toList, "--".toList, "-n".toList]] :=
  ⟨(argv_pass_through (OS.always (.exited 0)) ["echo".toList, "--".toList, "-n".toList]
      ⟨none, none, false, false⟩ none [] (by decide)).2.2.2.1,
   (argv_pass_through (OS.always (.exited 0)) ["echo".toList, "--".toList, "-n".toList]
      ⟨none, none, false, false⟩ none [] (by decide)).2.1 (by decide)
      (fun _ _ => rfl) (fun _ _ => rfl) (fun _ => rfl)⟩

/-! ## Words, redirections and the command built from them -/

/-- A run of characters that are not whitespace, closed by a whitespace
character, is the first word. -/
theorem words_run_cons (d : Char) (t : CStr) (e : Char) (r : CStr)
    (hd : isspace d = false) (ht : ∀ x ∈ t, isspace x = false) (he : isspace e = true) :
    words (d :: (t ++ e :: r)) = (d :: t) :: words r := by
  rw [words_cons_run d _ hd]
  have h1 : (t ++ e :: r).takeWhile (fun c => !isspace c) = t := by
    rw [List.takeWhile_append_of_pos (by intro a ha; simp [ht a ha])]
    simp [he]
  have h2 : (t ++ e :: r).dropWhile (fun c => !isspace c) = e :: r := by
    rw [List.dropWhile_append_of_pos (by intro a ha; simp [ht a ha])]
    simp [he]
  rw [h1, h2, words_cons_space e r he]

/-- A string without whitespace is one word. -/
theorem words_run (w : CStr) (hne : w ≠ []) (hw : ∀ x ∈ w, isspace x = false) :
    words w = [w] := by
  cases w with
  | nil => exact absurd rfl hne
  | cons d t =>
    have hd : isspace d = false := hw d (List.mem_cons_self _ _)
    have ht : ∀ x ∈ t, isspace x = false := fun x hx => hw x (List.mem_cons_of_mem _ hx)
    rw [words_cons_run d t hd]
    have h1 : t.takeWhile (fun c => !isspace c) = t := by
      rw [List.takeWhile_eq_self_iff]
      intro a ha; simp [ht a ha]
    have h2 : t.dropWhile (fun c => !isspace c) = [] := by
      rw [List.dropWhile_eq_nil_iff]
      intro a ha; simp [ht a ha]
    rw [h1, h2, words_nil]

/-- The words of two strings joined by a whitespace character. -/
theorem words_append_space (c : Char) (b : CStr) (hc : isspace c = true) :
    ∀ (n : Nat) (a : CStr), a.length < n → words (a ++ c :: b) = words a ++ words b := by
  intro n
  induction n with
  | zero => intro a h; omega
  | succ n ih =>
    intro a hlen
    cases a with
    | nil => simp [words_cons_space c b hc, words_nil]
    | cons d a1 =>
      by_cases hd : isspace d = true
      · rw [List.cons_append, words_cons_space d _ hd, words_cons_space d _ hd]
        exact ih a1 (by simpa using hlen)
      · have hd' : isspace d = false := by simpa using hd
        have hsplit := List.takeWhile_append_dropWhile (fun c => !isspace c) a1
        have ht : ∀ x ∈ a1.takeWhile (fun c => !isspace c), isspace x = false := by
          intro x hx
          have := List.mem_takeWhile_imp hx
          simpa using this
        cases hdw : a1.dropWhile (fun c => !isspace c) with
        | nil =>
          rw [hdw, List.append_nil] at hsplit
          rw [hsplit] at ht
          rw [List.cons_append, words_run_cons d a1 c b hd' ht hc,
            words_run (d :: a1) (by simp) (by
              intro x hx
              rcases List.mem_cons.mp hx with h | h
              · rw [h]; exact hd'
              · exact ht x h)]
          rfl
        | cons e r =>
          have he : isspace e = true := by
            have := List.head_dropWhile_not (fun c => !isspace c) a1 (by simp [hdw])
            simpa [hdw] using this
          rw [hdw] at hsplit
          have hr : r.length < n := by
            have := congrArg List.length hsplit
            simp only [List.length_append, List.length_cons] at this hlen
            omega
          rw [← hsplit, List.cons_append, List.append_assoc, List.cons_append,
            words_run_cons d _ e (r ++ c :: b) hd' ht he,
            words_run_cons d _ e r hd' ht he, ih r hr]
          rfl

/-- The words of a concatenation, when the first string is empty or ends
with a whitespace character. -/
theorem words_append_of_getLast (pre s : CStr)
    (hpre : ∀ c, pre.getLast? = some c → isspace c = true) :
    words (pre ++ s) = words pre ++ words s := by
  rcases List.eq_nil_or_concat pre with h | ⟨p1, c, h⟩
  · subst h; simp [words_nil]
  · subst h
    have hc : isspace c = true := hpre c (by simp)
    have h1 := words_append_space c s hc (p1.length + 1) p1 (by omega)
    have h2 := words_append_space c [] hc (p1.length + 1) p1 (by omega)
    simp only [List.concat_eq_append, List.append_assoc, List.singleton_append]
    rw [h1, h2, words_nil, List.append_nil]

/-- A word followed by nothing or by a whitespace character is the first of
the words. -/
theorem words_run_append (w post : CStr) (hne : w ≠ [])
    (hw : ∀ x ∈ w, isspace x = false)
    (hpost : ∀ c, post.head? = some c → isspace c = true) :
    words (w ++ post) = w :: words post := by
  cases post with
  | nil => rw [List.append_nil, words_run w hne hw, words_nil]
  | cons c b =>
    have hc : isspace c = true := hpost c rfl
    rw [words_append_space c b hc (w.length + 1) w (by omega), words_run w hne hw,
      words_cons_space c b hc]
    rfl

/-- Leading whitespace holds no word. -/
theorem words_space_append (sp s : CStr) (hsp : ∀ c ∈ sp, isspace c = true) :
    words (sp ++ s) = words s := by
  induction sp with
  | nil => rfl
  | cons c sp ih =>
    rw [List.cons_append, words_cons_space c _ (hsp c (List.mem_cons_self _ _))]
    exact ih (fun x hx => hsp x (List.mem_cons_of_mem _ hx))

/-- The token of a word that does not begin with an operator. -/
theorem classify_plain (w : CStr) (hne : w ≠ []) (h1 : w.head? ≠ some '<')
    (h2 : w.head? ≠ some '>') : classify w = make_token .T_WORD (some w) := by
  cases w with
  | nil => exact absurd rfl hne
  | cons c p =>
    have hc1 : c ≠ '<' := fun e => h1 (by rw [e]; rfl)
    have hc2 : c ≠ '>' := fun e => h2 (by rw [e]; rfl)
    simp [classify, hc1, hc2]

/-- The token of `<` fused with a path. -/
theorem classify_fused_in (p : CStr) (hne : p ≠ []) :
    classify ('<' :: p) = make_token .T_LT_PATH (some p) := by
  simp [classify, hne]

/-- The token of `>` fused with a path that does not begin with `>`. -/
theorem classify_fused_out (p : CStr) (hne : p ≠ []) (h2 : p.head? ≠ some '>') :
    classify ('>' :: p) = make_token .T_GT_PATH (some p) := by
  simp [classify, hne, h2]

theorem parse_words_nil (cmd : Command) : parse_tokens (tok_stream []) cmd = .ok cmd := by
  rw [tok_stream, parse_tokens_eof _ _ _ rfl]

theorem parse_words_err (w : CStr) (ws : List CStr) (cmd : Command)
    (h : (classify w).type = .T_ERR) :
    parse_tokens (tok_stream (w :: ws)) cmd = .fail true := by
  rw [tok_stream_cons_err w ws h, parse_tokens_err _ _ _ h]

theorem parse_words_word (w : CStr) (ws : List CStr) (cmd : Command)
    (h : (classify w).type = .T_WORD) :
    parse_tokens (tok_stream (w :: ws)) cmd
      = parse_tokens (tok_stream ws) (command_push_arg cmd (classify w).chars) := by
  rw [tok_stream_cons_ok w ws (by rw [h]; simp), parse_tokens_word _ _ _ h]

theorem parse_words_lt_path (w : CStr) (ws : List CStr) (cmd : Command)
    (h : (classify w).type = .T_LT_PATH) :
    parse_tokens (tok_stream (w :: ws)) cmd
      = if cmd.rd.has_in then .fail true
        else parse_tokens (tok_stream ws)
          { cmd with rd := { cmd.rd with has_in := true, in_path := (classify w).text } } := by
  rw [tok_stream_cons_ok w ws (by rw [h]; simp), parse_tokens_lt_path _ _ _ h]

theorem parse_words_gt_path (w : CStr) (ws : List CStr) (cmd : Command)
    (h : (classify w).type = .T_GT_PATH) :
    parse_tokens (tok_stream (w :: ws)) cmd
      = if cmd.rd.has_out then .fail true
        else parse_tokens (tok_stream ws)
          { cmd with rd := { cmd.rd with has_out := true, out_path := (classify w).text } } := by
  rw [tok_stream_cons_ok w ws (by rw [h]; simp), parse_tokens_gt_path _ _ _ h]

/-- A bare operator at the end of the words is a syntax error. -/
theorem parse_words_bare_end (w : CStr) (cmd : Command)
    (h : (classify w).type = .T_LT ∨ (classify w).type = .T_GT) :
    parse_tokens (tok_stream [w]) cmd = .fail true := by
  rw [tok_stream_cons_ok w [] (by rcases h with h | h <;> rw [h] <;> simp), tok_stream,
    parse_tokens_bare _ _ _ _ h]
  simp [make_token]

/-- A bare operator followed by a word that is not a plain word is a syntax
error. -/
theorem parse_words_bare_bad (w p : CStr) (ws : List CStr) (cmd : Command)
    (h : (classify w).type = .T_LT ∨ (classify w).type = .T_GT)
    (hp : (classify p).type ≠ .T_WORD) :
    parse_tokens (tok_stream (w :: p :: ws)) cmd = .fail true := by
  rw [tok_stream_cons_ok w _ (by rcases h with h | h <;> rw [h] <;> simp)]
  obtain ⟨ts, hts, _⟩ := tok_stream_cons_head p ws
  rw [hts, parse_tokens_bare _ _ _ _ h]
  simp [hp]

/-- A bare `<` followed by a plain word: the word is the input path. -/
theorem parse_words_bare_in (w p : CStr) (ws : List CStr) (cmd : Command)
    (h : (classify w).type = .T_LT) (hp : (classify p).type = .T_WORD) :
    parse_tokens (tok_stream (w :: p :: ws)) cmd
      = if cmd.rd.has_in then .fail true
        else parse_tokens (tok_stream ws)
          { cmd with rd := { cmd.rd with has_in := true, in_path := (classify p).text } } := by
  rw [tok_stream_cons_ok w _ (by rw [h]; simp), tok_stream_cons_ok p _ (by rw [hp]; simp),
    parse_tokens_bare _ _ _ _ (Or.inl h)]
  have hh := classify_word_head p hp
  have htx : (classify p).chars.head? = p.head? := by
    cases p with
    | nil => simp [classify, make_token] at hp
    | cons c q =>
      by_cases h1 : c = '<'
      · subst h1; simp at hh
      · by_cases h2 : c = '>'
        · subst h2; simp at hh
        · simp [classify, make_token, Token.chars, h1, h2]
  have hn1 : ¬ (classify p).chars.head? = some '<' := by
    rw [htx]; intro e; rw [e] at hh; simp at hh
  have hn2 : ¬ (classify p).chars.head? = some '>' := by
    rw [htx]; intro e; rw [e] at hh; simp at hh
  simp [hp, h, hn1, hn2]

/-- A bare `>` followed by a plain word: the word is the output path. -/
theorem parse_words_bare_out (w p : CStr) (ws : List CStr) (cmd : Command)
    (h : (classify w).type = .T_GT) (hp : (classify p).type = .T_WORD) :
    parse_tokens (tok_stream (w :: p :: ws)) cmd
      = if cmd.rd.has_out then .fail true
        else parse_tokens (tok_stream ws)
          { cmd with rd := { cmd.rd with has_out := true, out_path := (classify p).text } } := by
  rw [tok_stream_cons_ok w _ (by rw [h]; simp), tok_stream_cons_ok p _ (by rw [hp]; simp),
    parse_tokens_bare _ _ _ _ (Or.inr h)]
  have hh := classify_word_head p hp
  have htx : (classify p).chars.head? = p.head? := by
    cases p with
    | nil => simp [classify, make_token] at hp
    | cons c q =>
      by_cases h1 : c = '<'
      · subst h1; simp at hh
      · by_cases h2 : c = '>'
        · subst h2; simp at hh
        · simp [classify, make_token, Token.chars, h1, h2]
  have hn1 : ¬ (classify p).chars.head? = some '<' := by
    rw [htx]; intro e; rw [e] at hh; simp at hh
  have hn2 : ¬ (classify p).chars.head? = some '>' := by
    rw [htx]; intro e; rw [e] at hh; simp at hh
  simp [hp, h, hn1, hn2]

/-- Words that do not begin with an operator are pushed to argv in order. -/
theorem parse_words_plain : ∀ (ws : List CStr) (cmd : Command),
    (∀ w ∈ ws, w ≠ [] ∧ w.head? ≠ some '<' ∧ w.head? ≠ some '>') →
    parse_tokens (tok_stream ws) cmd = .ok { cmd with argv := cmd.argv ++ ws } := by
  intro ws
  induction ws with
  | nil => intro cmd _; rw [parse_words_nil]; simp
  | cons w ws ih =>
    intro cmd h
    obtain ⟨hne, h1, h2⟩ := h w (List.mem_cons_self _ _)
    have hc := classify_plain w hne h1 h2
    rw [parse_words_word w ws cmd (by rw [hc]; rfl),
      ih _ (fun x hx => h x (List.mem_cons_of_mem _ hx)), hc]
    simp [command_push_arg, Token.chars, make_token]

/-- The runs of a segment are the value of `words`. -/
theorem IsWords.eq_words {seg : CStr} {ws : List CStr} (h : IsWords seg ws) :
    ws = words seg := by
  induction h with
  | nil sp hsp => exact (words_of_all_space sp hsp).symm
  | cons sp w rest ws hsp hne hw hrest _ ih =>
    rw [List.append_assoc, words_space_append sp _ hsp, words_run_append w rest hne hw hrest, ih]

/-- The value of `words` lists the runs of the segment. -/
theorem words_spec : ∀ (n : Nat) (seg : CStr), seg.length < n → IsWords seg (words seg) := by
  intro n
  induction n with
  | zero => intro seg h; omega
  | succ n ih =>
    intro seg hlen
    have hsplit := List.takeWhile_append_dropWhile isspace seg
    have hsp : ∀ c ∈ seg.takeWhile isspace, isspace c = true :=
      fun c hc => List.mem_takeWhile_imp hc
    cases hdw : seg.dropWhile isspace with
    | nil =>
      rw [hdw, List.append_nil] at hsplit
      rw [hsplit] at hsp
      rw [words_of_all_space seg hsp]
      exact .nil seg hsp
    | cons d s =>
      have hd : isspace d = false := by
        have := List.head_dropWhile_not isspace seg (by simp [hdw])
        simpa [hdw] using this
      have hw : words seg = (d :: s.takeWhile (fun c => !isspace c)) ::
          words (s.dropWhile (fun c => !isspace c)) := by
        rw [← words_dropWhile seg, hdw, words_cons_run d s hd]
      have hs2 := List.takeWhile_append_dropWhile (fun c => !isspace c) s
      have hseg : seg = seg.takeWhile isspace ++ (d :: s.takeWhile (fun c => !isspace c))
          ++ s.dropWhile (fun c => !isspace c) := by
        rw [List.append_assoc, List.cons_append, hs2, ← hdw, hsplit]
      have hlen2 : (s.dropWhile (fun c => !isspace c)).length < n := by
        have h1 := congrArg List.length hsplit
        have h2 := congrArg List.length hs2
        rw [hdw] at h1
        simp only [List.length_append, List.length_cons] at h1 h2
        omega
      rw [hw]
      have hgoal := IsWords.cons (seg.takeWhile isspace) (d :: s.takeWhile (fun c => !isspace c))
        (s.dropWhile (fun c => !isspace c)) _ hsp (by simp)
        (by
          intro c hc
          rcases List.mem_cons.mp hc with h | h
          · rw [h]; exact hd
          · have := List.mem_takeWhile_imp h
            simpa using this)
        (by
          intro c hc
          cases hdw2 : s.dropWhile (fun c => !isspace c) with
          | nil => rw [hdw2] at hc; simp at hc
          | cons e r =>
            have := List.head_dropWhile_not (fun c => !isspace c) s (by simp [hdw2])
            rw [hdw2] at hc
            simp only [List.head?_cons, Option.some.injEq] at hc
            subst hc
            simpa [hdw2] using this)
        (ih _ hlen2)
      rw [← hseg] at hgoal
      exact hgoal

/-- C13. Words become argv verbatim. When no word of the segment (no maximal
run of characters that are not whitespace) begins with `<` or `>`, parsing
succeeds, the command has no input and no output redirection, and its
argument vector is the list of the words of the segment, in order and as
they stand. -/
theorem words_become_argv (seg : CStr) (ws : List CStr) (hws : IsWords seg ws)
    (h : ∀ w ∈ ws, w.head? ≠ some '<' ∧ w.head? ≠ some '>') :
    parse_command_ast seg = .ok ⟨ws, ⟨none, none, false, false⟩⟩ := by
  have he := hws.eq_words
  subst he
  rw [parse_command_ast_eq, parse_words_plain (words seg) command_init
    (fun w hw => ⟨words_ne_nil seg w hw, h w hw⟩)]
  simp [command_init]

/-- C13, at the segment `echo  a>b x<y`: the operators inside the words stay
part of the words. -/
theorem words_become_argv_witness :
    parse_command_ast "echo  a>b x<y".toList
      = .ok ⟨["echo".toList, "a>b".toList, "x<y".toList], ⟨none, none, false, false⟩⟩ :=
  words_become_argv "echo  a>b x<y".toList ["echo".toList, "a>b".toList, "x<y".toList]
    (.cons [] "echo".toList "  a>b x<y".toList _ (by decide) (by decide) (by decide) (by decide)
      (.cons "  ".toList "a>b".toList " x<y".toList _ (by decide) (by decide) (by decide)
        (by decide)
        (.cons " ".toList "x<y".toList [] _ (by decide) (by decide) (by decide) (by decide)
          (.nil [] (by decide)))))
    (by decide)

/-- The same result on both sides is reached through any words put in front
of two lists of words, when neither list begins with a plain word and the
relation holds for the two lists themselves. -/
theorem parse_words_context (R : ParseResult → ParseResult → Prop) (a b : CStr)
    (A B : List CStr) (hR : R (.fail true) (.fail true))
    (ha : (classify a).type ≠ .T_WORD) (hb : (classify b).type ≠ .T_WORD)
    (hbase : ∀ cmd, R (parse_tokens (tok_stream (a :: A)) cmd)
      (parse_tokens (tok_stream (b :: B)) cmd)) :
    ∀ (n : Nat) (ws1 : List CStr), ws1.length < n → (∀ w ∈ ws1, w ≠ []) → ∀ cmd,
      R (parse_tokens (tok_stream (ws1 ++ a :: A)) cmd)
        (parse_tokens (tok_stream (ws1 ++ b :: B)) cmd) := by
  intro n
  induction n with
  | zero => intro ws1 h; omega
  | succ n ih =>
    intro ws1 hlen hne cmd
    cases ws1 with
    | nil => exact hbase cmd
    | cons w ws =>
      have hlen1 : ws.length < n := by simpa using hlen
      have hne1 : ∀ x ∈ ws, x ≠ [] := fun x hx => hne x (List.mem_cons_of_mem _ hx)
      have hw : w ≠ [] := hne w (List.mem_cons_self _ _)
      simp only [List.cons_append]
      cases hty : (classify w).type with
      | T_EOF => exact absurd hty (classify_ne_eof w hw)
      | T_ERR => rw [parse_words_err _ _ _ hty, parse_words_err _ _ _ hty]; exact hR
      | T_WORD =>
        rw [parse_words_word _ _ _ hty, parse_words_word _ _ _ hty]
        exact ih ws hlen1 hne1 _
      | T_LT_PATH =>
        rw [parse_words_lt_path _ _ _ hty, parse_words_lt_path _ _ _ hty]
        by_cases hin : cmd.rd.has_in = true
        · simp only [hin, ↓reduceIte]; exact hR
        · simp only [hin, Bool.false_eq_true, ↓reduceIte]; exact ih ws hlen1 hne1 _
      | T_GT_PATH =>
        rw [parse_words_gt_path _ _ _ hty, parse_words_gt_path _ _ _ hty]
        by_cases hout : cmd.rd.has_out = true
        · simp only [hout, ↓reduceIte]; exact hR
        · simp only [hout, Bool.false_eq_true, ↓reduceIte]; exact ih ws hlen1 hne1 _
      | T_LT =>
        cases ws with
        | nil =>
          simp only [List.nil_append]
          rw [parse_words_bare_bad _ _ _ _ (Or.inl hty) ha,
            parse_words_bare_bad _ _ _ _ (Or.inl hty) hb]
          exact hR
        | cons q ws2 =>
          simp only [List.cons_append]
          by_cases hq : (classify q).type = .T_WORD
          · rw [parse_words_bare_in _ _ _ _ hty hq, parse_words_bare_in _ _ _ _ hty hq]
            by_cases hin : cmd.rd.has_in = true
            · simp only [hin, ↓reduceIte]; exact hR
            · simp only [hin, Bool.false_eq_true, ↓reduceIte]
              exact ih ws2 (by simp only [List.length_cons] at hlen1; omega)
                (fun x hx => hne1 x (List.mem_cons_of_mem _ hx)) _
          · rw [parse_words_bare_bad _ _ _ _ (Or.inl hty) hq,
              parse_words_bare_bad _ _ _ _ (Or.inl hty) hq]
            exact hR
      | T_GT =>
        cases ws with
        | nil =>
          simp only [List.nil_append]
          rw [parse_words_bare_bad _ _ _ _ (Or.inr hty) ha,
            parse_words_bare_bad _ _ _ _ (Or.inr hty) hb]
          exact hR
        | cons q ws2 =>
          simp only [List.cons_append]
          by_cases hq : (classify q).type = .T_WORD
          · rw [parse_words_bare_out _ _ _ _ hty hq, parse_words_bare_out _ _ _ _ hty hq]
            by_cases hout : cmd.rd.has_out = true
            · simp only [hout, ↓reduceIte]; exact hR
            · simp only [hout, Bool.false_eq_true, ↓reduceIte]
              exact ih ws2 (by simp only [List.length_cons] at hlen1; omega)
                (fun x hx => hne1 x (List.mem_cons_of_mem _ hx)) _
          · rw [parse_words_bare_bad _ _ _ _ (Or.inr hty) hq,
              parse_words_bare_bad _ _ _ _ (Or.inr hty) hq]
            exact hR

/-- A redirection that is set stays as it is to the end of a successful
parse. -/
theorem parse_words_keeps : ∀ (n : Nat) (ws : List CStr), ws.length < n →
    (∀ w ∈ ws, w ≠ []) → ∀ cmd c, parse_tokens (tok_stream ws) cmd = .ok c →
      (cmd.rd.has_in = true → c.rd.in_path = cmd.rd.in_path ∧ c.rd.has_in = true) ∧
      (cmd.rd.has_out = true → c.rd.out_path = cmd.rd.out_path ∧ c.rd.has_out = true) := by
  intro n
  induction n with
  | zero => intro ws h; omega
  | succ n ih =>
    intro ws hlen hne cmd c hok
    cases ws with
    | nil =>
      rw [parse_words_nil] at hok
      cases hok
      exact ⟨fun h => ⟨rfl, h⟩, fun h => ⟨rfl, h⟩⟩
    | cons w ws =>
      have hlen1 : ws.length < n := by simpa using hlen
      have hne1 : ∀ x ∈ ws, x ≠ [] := fun x hx => hne x (List.mem_cons_of_mem _ hx)
      have hw : w ≠ [] := hne w (List.mem_cons_self _ _)
      cases hty : (classify w).type with
      | T_EOF => exact absurd hty (classify_ne_eof w hw)
      | T_ERR => rw [parse_words_err _ _ _ hty] at hok; cases hok
      | T_WORD =>
        rw [parse_words_word _ _ _ hty] at hok
        exact ih ws hlen1 hne1 (command_push_arg cmd (classify w).chars) c hok
      | T_LT_PATH =>
        rw [parse_words_lt_path _ _ _ hty] at hok
        by_cases hin : cmd.rd.has_in = true
        · simp only [hin, ↓reduceIte] at hok; cases hok
        · simp only [hin, Bool.false_eq_true, ↓reduceIte] at hok
          have := ih ws hlen1 hne1 _ c hok
          exact ⟨fun h => absurd h hin, fun h => this.2 h⟩
      | T_GT_PATH =>
        rw [parse_words_gt_path _ _ _ hty] at hok
        by_cases hout : cmd.rd.has_out = true
        · simp only [hout, ↓reduceIte] at hok; cases hok
        · simp only [hout, Bool.false_eq_true, ↓reduceIte] at hok
          have := ih ws hlen1 hne1 _ c hok
          exact ⟨fun h => this.1 h, fun h => absurd h hout⟩
      | T_LT =>
        cases ws with
        | nil => rw [parse_words_bare_end _ _ (Or.inl hty)] at hok; cases hok
        | cons q ws2 =>
          by_cases hq : (classify q).type = .T_WORD
          · rw [parse_words_bare_in _ _ _ _ hty hq] at hok
            by_cases hin : cmd.rd.has_in = true
            · simp only [hin, ↓reduceIte] at hok; cases hok
            · simp only [hin, Bool.false_eq_true, ↓reduceIte] at hok
              have := ih ws2 (by simp only [List.length_cons] at hlen1; omega)
                (fun x hx => hne1 x (List.mem_cons_of_mem _ hx)) _ c hok
              exact ⟨fun h => absurd h hin, fun h => this.2 h⟩
          · rw [parse_words_bare_bad _ _ _ _ (Or.inl hty) hq] at hok; cases hok
      | T_GT =>
        cases ws with
        | nil => rw [parse_words_bare_end _ _ (Or.inr hty)] at hok; cases hok
        | cons q ws2 =>
          by_cases hq : (classify q).type = .T_WORD
          · rw [parse_words_bare_out _ _ _ _ hty hq] at hok
            by_cases hout : cmd.rd.has_out = true
            · simp only [hout, ↓reduceIte] at hok; cases hok
            · simp only [hout, Bool.false_eq_true, ↓reduceIte] at hok
              have := ih ws2 (by simp only [List.length_cons] at hlen1; omega)
                (fun x hx => hne1 x (List.mem_cons_of_mem _ hx)) _ c hok
              exact ⟨fun h => this.1 h, fun h => absurd h hout⟩
          · rw [parse_words_bare_bad _ _ _ _ (Or.inr hty) hq] at hok; cases hok

theorem parse_words_fused_in (p : CStr) (ws2 : List CStr) (cmd : Command) (hne : p ≠ []) :
    parse_tokens (tok_stream (('<' :: p) :: ws2)) cmd
      = if cmd.rd.has_in then .fail true
        else parse_tokens (tok_stream ws2)
          { cmd with rd := { cmd.rd with has_in := true, in_path := some p } } := by
  have hc := classify_fused_in p hne
  rw [parse_words_lt_path _ _ _ (by rw [hc]; rfl), hc]
  rfl

theorem parse_words_fused_out (p : CStr) (ws2 : List CStr) (cmd : Command) (hne : p ≠ [])
    (h2 : p.head? ≠ some '>') :
    parse_tokens (tok_stream (('>' :: p) :: ws2)) cmd
      = if cmd.rd.has_out then .fail true
        else parse_tokens (tok_stream ws2)
          { cmd with rd := { cmd.rd with has_out := true, out_path := some p } } := by
  have hc := classify_fused_out p hne h2
  rw [parse_words_gt_path _ _ _ (by rw [hc]; rfl), hc]
  rfl

theorem parse_words_spaced_in (p : CStr) (ws2 : List CStr) (cmd : Command) (hne : p ≠ [])
    (h1 : p.head? ≠ some '<') (h2 : p.head? ≠ some '>') :
    parse_tokens (tok_stream (['<'] :: p :: ws2)) cmd
      = if cmd.rd.has_in then .fail true
        else parse_tokens (tok_stream ws2)
          { cmd with rd := { cmd.rd with has_in := true, in_path := some p } } := by
  have hc := classify_plain p hne h1 h2
  rw [parse_words_bare_in _ _ _ _ (by rfl) (by rw [hc]; rfl), hc]
  rfl

theorem parse_words_spaced_out (p : CStr) (ws2 : List CStr) (cmd : Command) (hne : p ≠ [])
    (h1 : p.head? ≠ some '<') (h2 : p.head? ≠ some '>') :
    parse_tokens (tok_stream (['>'] :: p :: ws2)) cmd
      = if cmd.rd.has_out then .fail true
        else parse_tokens (tok_stream ws2)
          { cmd with rd := { cmd.rd with has_out := true, out_path := some p } } := by
  have hc := classify_plain p hne h1 h2
  rw [parse_words_bare_out _ _ _ _ (by rfl) (by rw [hc]; rfl), hc]
  rfl

/-- The words of a segment in which the word `w` stands between `pre` and
`post`. -/
theorem words_context (pre w post : CStr) (hne : w ≠ []) (hw : ∀ c ∈ w, isspace c = false)
    (hpre : ∀ c, pre.getLast? = some c → isspace c = true)
    (hpost : ∀ c, post.head? = some c → isspace c = true) :
    words (pre ++ w ++ post) = words pre ++ w :: words post := by
  rw [List.append_assoc, words_append_of_getLast pre _ hpre, words_run_append w post hne hw hpost]

/-- The words of a segment in which an operator, whitespace and the word `w`
stand between `pre` and `post`. -/
theorem words_context_spaced (pre sp w post : CStr) (op : Char) (hop : isspace op = false)
    (hne : w ≠ []) (hw : ∀ c ∈ w, isspace c = false)
    (hsp : sp ≠ []) (hspw : ∀ c ∈ sp, isspace c = true)
    (hpre : ∀ c, pre.getLast? = some c → isspace c = true)
    (hpost : ∀ c, post.head? = some c → isspace c = true) :
    words (pre ++ [op] ++ sp ++ w ++ post) = words pre ++ [op] :: w :: words post := by
  have h1 : pre ++ [op] ++ sp ++ w ++ post = pre ++ ([op] ++ (sp ++ (w ++ post))) := by simp
  rw [h1, words_append_of_getLast pre _ hpre,
    words_run_append [op] _ (by simp) (by simpa using hop) (by
      intro c hc
      cases sp with
      | nil => exact absurd rfl hsp
      | cons d r =>
        simp only [List.cons_append, List.head?_cons, Option.some.injEq] at hc
        subst hc
        exact hspw _ (List.mem_cons_self _ _)),
    words_space_append sp _ hspw, words_run_append w post hne hw hpost]

/-- C14. Fused and spaced redirection are equivalent. Let `p` be a non-empty
path without whitespace that does not begin with `<` or `>`, standing as a
word of its own in a segment (what precedes is empty or ends with
whitespace, what follows is empty or begins with whitespace). The segment
with `<p` and the segment with `<`, some whitespace and `p` in its place
parse to the same result, the same command or the same failure, and
likewise with `>`; and when the segment with `<p` (with `>p`) parses, the
input (output) path of the command is `p`, without the operator. -/
theorem fused_spaced_equivalent (pre p post sp : CStr)
    (hne : p ≠ []) (hw : ∀ c ∈ p, isspace c = false)
    (h1 : p.head? ≠ some '<') (h2 : p.head? ≠ some '>')
    (hsp : sp ≠ []) (hspw : ∀ c ∈ sp, isspace c = true)
    (hpre : ∀ c, pre.getLast? = some c → isspace c = true)
    (hpost : ∀ c, post.head? = some c → isspace c = true) :
    parse_command_ast (pre ++ ('<' :: p) ++ post)
      = parse_command_ast (pre ++ ['<'] ++ sp ++ p ++ post) ∧
    parse_command_ast (pre ++ ('>' :: p) ++ post)
      = parse_command_ast (pre ++ ['>'] ++ sp ++ p ++ post) ∧
    (∀ cmd, parse_command_ast (pre ++ ('<' :: p) ++ post) = .ok cmd →
      cmd.rd.in_path = some p ∧ cmd.rd.has_in = true) ∧
    (∀ cmd, parse_command_ast (pre ++ ('>' :: p) ++ post) = .ok cmd →
      cmd.rd.out_path = some p ∧ cmd.rd.has_out = true) := by
  have hpre_ne : ∀ w ∈ words pre, w ≠ [] := fun w hw => words_ne_nil pre w hw
  have hpost_ne : ∀ w ∈ words post, w ≠ [] := fun w hw => words_ne_nil post w hw
  have hwin : ∀ c ∈ '<' :: p, isspace c = false := by
    intro c hc
    rcases List.mem_cons.mp hc with h | h
    · rw [h]; rfl
    · exact hw c h
  have hwout : ∀ c ∈ '>' :: p, isspace c = false := by
    intro c hc
    rcases List.mem_cons.mp hc with h | h
    · rw [h]; rfl
    · exact hw c h
  have hfi : (classify ('<' :: p)).type ≠ .T_WORD := by rw [classify_fused_in p hne]; simp [make_token]
  have hfo : (classify ('>' :: p)).type ≠ .T_WORD := by
    rw [classify_fused_out p hne h2]; simp [make_token]
  rw [parse_command_ast_eq, parse_command_ast_eq, parse_command_ast_eq, parse_command_ast_eq,
    words_context pre ('<' :: p) post (by simp) hwin hpre hpost,
    words_context pre ('>' :: p) post (by simp) hwout hpre hpost,
    words_context_spaced pre sp p post '<' rfl hne hw hsp hspw hpre hpost,
    words_context_spaced pre sp p post '>' rfl hne hw hsp hspw hpre hpost]
  refine ⟨?_, ?_, ?_, ?_⟩
  · exact parse_words_context Eq ('<' :: p) ['<'] (words post) (p :: words post) rfl hfi
      (by decide)
      (fun cmd => by rw [parse_words_fused_in p _ cmd hne, parse_words_spaced_in p _ cmd hne h1 h2])
      _ (words pre) (Nat.lt_succ_self _) hpre_ne command_init
  · exact parse_words_context Eq ('>' :: p) ['>'] (words post) (p :: words post) rfl hfo
      (by decide)
      (fun cmd => by
        rw [parse_words_fused_out p _ cmd hne h2, parse_words_spaced_out p _ cmd hne h1 h2])
      _ (words pre) (Nat.lt_succ_self _) hpre_ne command_init
  · exact parse_words_context
      (fun r _ => ∀ c, r = .ok c → c.rd.in_path = some p ∧ c.rd.has_in = true)
      ('<' :: p) ('<' :: p) (words post) (words post) (fun c hc => by cases hc) hfi hfi
      (fun cmd c hc => by
        rw [parse_words_fused_in p _ cmd hne] at hc
        by_cases hin : cmd.rd.has_in = true
        · simp only [hin, ↓reduceIte] at hc; cases hc
        · simp only [hin, Bool.false_eq_true, ↓reduceIte] at hc
          exact (parse_words_keeps _ (words post) (Nat.lt_succ_self _) hpost_ne _ c hc).1 rfl)
      _ (words pre) (Nat.lt_succ_self _) hpre_ne command_init
  · exact parse_words_context
      (fun r _ => ∀ c, r = .ok c → c.rd.out_path = some p ∧ c.rd.has_out = true)
      ('>' :: p) ('>' :: p) (words post) (words post) (fun c hc => by cases hc) hfo hfo
      (fun cmd c hc => by
        rw [parse_words_fused_out p _ cmd hne h2] at hc
        by_cases hout : cmd.rd.has_out = true
        · simp only [hout, ↓reduceIte] at hc; cases hc
        · simp only [hout, Bool.false_eq_true, ↓reduceIte] at hc
          exact (parse_words_keeps _ (words post) (Nat.lt_succ_self _) hpost_ne _ c hc).2 rfl)
      _ (words pre) (Nat.lt_succ_self _) hpre_ne command_init

/-- C14, at `echo hi >out.txt` and `echo hi > out.txt`, and at the two
segments the claim names. -/
theorem fused_spaced_equivalent_witness :
    parse_command_ast "echo hi >out.txt".toList = parse_command_ast "echo hi > out.txt".toList ∧
    parse_command_ast "echo hi > out.txt".toList
      = .ok ⟨["echo".toList, "hi".toList], ⟨none, some "out.txt".toList, false, true⟩⟩ ∧
    parse_command_ast "cat < out.txt".toList
      = .ok ⟨["cat".toList], ⟨some "out.txt".toList, none, true, false⟩⟩ :=
  ⟨(fused_spaced_equivalent "echo hi ".toList "out.txt".toList [] " ".toList
      (by decide) (by decide) (by decide) (by decide) (by decide) (by decide) (by decide)
      (by decide)).2.1,
    by decide, by decide⟩

/-- The command built from a list of valid items with at most one
redirection of each kind, none of a kind the command already has. -/
theorem parse_items : ∀ (items : List Item) (cmd : Command),
    (∀ it ∈ items, it.text ≠ [] ∧ it.text.head? ≠ some '<' ∧ it.text.head? ≠ some '>') →
    (cmd.rd.has_in = true → in_paths items = []) → (in_paths items).length ≤ 1 →
    (cmd.rd.has_out = true → out_paths items = []) → (out_paths items).length ≤ 1 →
    parse_tokens (tok_stream (render items)) cmd =
      .ok ⟨cmd.argv ++ plain_words items,
        ⟨if in_paths items = [] then cmd.rd.in_path else (in_paths items).head?,
          if out_paths items = [] then cmd.rd.out_path else (out_paths items).head?,
          cmd.rd.has_in || !(in_paths items).isEmpty,
          cmd.rd.has_out || !(out_paths items).isEmpty⟩⟩ := by
  intro items
  induction items with
  | nil =>
    intro cmd _ _ _ _ _
    simp [render, plain_words, in_paths, out_paths, parse_words_nil]
  | cons it rest ih =>
    intro cmd hv hin hin1 hout hout1
    obtain ⟨hne, h1, h2⟩ := hv it (List.mem_cons_self _ _)
    have hv' : ∀ x ∈ rest, x.text ≠ [] ∧ x.text.head? ≠ some '<' ∧ x.text.head? ≠ some '>' :=
      fun x hx => hv x (List.mem_cons_of_mem _ hx)
    cases it with
    | word w =>
      simp only [Item.text] at hne h1 h2
      have hc := classify_plain w hne h1 h2
      simp only [render, Item.render, List.singleton_append, plain_words, in_paths, out_paths]
        at hin hin1 hout hout1 ⊢
      rw [parse_words_word w _ cmd (by rw [hc]; rfl), hc,
        ih (command_push_arg cmd (make_token .T_WORD (some w)).chars) hv' hin hin1 hout hout1]
      simp [command_push_arg, Token.chars, make_token]
    | rin fused p =>
      simp only [Item.text] at hne h1 h2
      simp only [in_paths, out_paths, List.length_cons] at hin hin1 hout hout1
      have hcin : cmd.rd.has_in = false := by
        cases h : cmd.rd.has_in with
        | false => rfl
        | true => exact absurd (hin h) (by simp)
      have hrest : in_paths rest = [] := by
        cases hr : in_paths rest with
        | nil => rfl
        | cons a b => rw [hr] at hin1; simp at hin1
      have hstep : parse_tokens (tok_stream (render (Item.rin fused p :: rest))) cmd
          = parse_tokens (tok_stream (render rest))
              { cmd with rd := { cmd.rd with has_in := true, in_path := some p } } := by
        cases fused with
        | true =>
          simp only [render, Item.render, List.singleton_append]
          rw [parse_words_fused_in p _ cmd hne, hcin]
          simp
        | false =>
          simp only [render, Item.render, List.cons_append, List.nil_append]
          rw [parse_words_spaced_in p _ cmd hne h1 h2, hcin]
          simp
      rw [hstep, ih { cmd with rd := { cmd.rd with has_in := true, in_path := some p } } hv'
        (fun _ => hrest) (by rw [hrest]; simp) hout hout1]
      simp [plain_words, in_paths, out_paths, hrest]
    | rout fused p =>
      simp only [Item.text] at hne h1 h2
      simp only [in_paths, out_paths, List.length_cons] at hin hin1 hout hout1
      have hcout : cmd.rd.has_out = false := by
        cases h : cmd.rd.has_out with
        | false => rfl
        | true => exact absurd (hout h) (by simp)
      have hrest : out_paths rest = [] := by
        cases hr : out_paths rest with
        | nil => rfl
        | cons a b => rw [hr] at hout1; simp at hout1
      have hstep : parse_tokens (tok_stream (render (Item.rout fused p :: rest))) cmd
          = parse_tokens (tok_stream (render rest))
              { cmd with rd := { cmd.rd with has_out := true, out_path := some p } } := by
        cases fused with
        | true =>
          simp only [render, Item.render, List.singleton_append]
          rw [parse_words_fused_out p _ cmd hne h2, hcout]
          simp
        | false =>
          simp only [render, Item.render, List.cons_append, List.nil_append]
          rw [parse_words_spaced_out p _ cmd hne h1 h2, hcout]
          simp
      rw [hstep, ih { cmd with rd := { cmd.rd with has_out := true, out_path := some p } } hv'
        hin hin1 (fun _ => hrest) (by rw [hrest]; simp)]
      simp [plain_words, in_paths, out_paths, hrest]

/-- C15. Redirection is order-independent. Two segments written from the
same plain words in the same order and the same input and output
redirections (at most one of each, each fused or spaced, with paths that are
plain words) parse to the same command wherever the redirections stand among
the words: the argument vector is the plain words, the input and output
paths are those of the redirections. -/
theorem redirection_order_independent (items1 items2 : List Item) (seg1 seg2 : CStr)
    (hv1 : ∀ it ∈ items1, it.text ≠ [] ∧ it.text.head? ≠ some '<' ∧ it.text.head? ≠ some '>')
    (hv2 : ∀ it ∈ items2, it.text ≠ [] ∧ it.text.head? ≠ some '<' ∧ it.text.head? ≠ some '>')
    (hs1 : IsWords seg1 (render items1)) (hs2 : IsWords seg2 (render items2))
    (hwords : plain_words items1 = plain_words items2)
    (hin : in_paths items1 = in_paths items2) (hout : out_paths items1 = out_paths items2)
    (hin1 : (in_paths items1).length ≤ 1) (hout1 : (out_paths items1).length ≤ 1) :
    parse_command_ast seg1 = parse_command_ast seg2 ∧
    parse_command_ast seg1 =
      .ok ⟨plain_words items1,
        ⟨(in_paths items1).head?, (out_paths items1).head?,
          !(in_paths items1).isEmpty, !(out_paths items1).isEmpty⟩⟩ := by
  have key : ∀ (items : List Item) (seg : CStr),
      (∀ it ∈ items, it.text ≠ [] ∧ it.text.head? ≠ some '<' ∧ it.text.head? ≠ some '>') →
      IsWords seg (render items) → (in_paths items).length ≤ 1 →
      (out_paths items).length ≤ 1 →
      parse_command_ast seg =
        .ok ⟨plain_words items,
          ⟨(in_paths items).head?, (out_paths items).head?,
            !(in_paths items).isEmpty, !(out_paths items).isEmpty⟩⟩ := by
    intro items seg hv hs hi ho
    rw [parse_command_ast_eq, ← hs.eq_words,
      parse_items items command_init hv (by simp [command_init]) hi
        (by simp [command_init]) ho]
    cases hip : in_paths items <;> cases hop : out_paths items <;> simp [command_init]
  have k1 := key items1 seg1 hv1 hs1 hin1 hout1
  have k2 := key items2 seg2 hv2 hs2 (by rw [← hin]; exact hin1) (by rw [← hout]; exact hout1)
  refine ⟨?_, k1⟩
  rw [k1, k2, hwords, hin, hout]

/-- C15, at `cat <a >b x` and `> b cat x < a`. -/
theorem redirection_order_independent_witness :
    parse_command_ast "cat <a >b x".toList = parse_command_ast "> b cat x < a".toList ∧
    parse_command_ast "cat <a >b x".toList =
      .ok ⟨plain_words [.word "cat".toList, .rin true "a".toList, .rout true "b".toList,
          .word "x".toList],
        ⟨(in_paths [.word "cat".toList, .rin true "a".toList, .rout true "b".toList,
            .word "x".toList]).head?,
          (out_paths [.word "cat".toList, .rin true "a".toList, .rout true "b".toList,
            .word "x".toList]).head?,
          !(in_paths [.word "cat".toList, .rin true "a".toList, .rout true "b".toList,
            .word "x".toList]).isEmpty,
          !(out_paths [.word "cat".toList, .rin true "a".toList, .rout true "b".toList,
            .word "x".toList]).isEmpty⟩⟩ :=
  redirection_order_independent
    [.word "cat".toList, .rin true "a".toList, .rout true "b".toList, .word "x".toList]
    [.rout false "b".toList, .word "cat".toList, .word "x".toList, .rin false "a".toList]
    "cat <a >b x".toList "> b cat x < a".toList (by decide) (by decide)
    (.cons [] "cat".toList " <a >b x".toList _ (by decide) (by decide) (by decide) (by decide)
      (.cons " ".toList "<a".toList " >b x".toList _ (by decide) (by decide) (by decide)
        (by decide)
        (.cons " ".toList ">b".toList " x".toList _ (by decide) (by decide) (by decide)
          (by decide)
          (.cons " ".toList "x".toList [] _ (by decide) (by decide) (by decide) (by decide)
            (.nil [] (by decide))))))
    (.cons [] ">".toList " b cat x < a".toList _ (by decide) (by decide) (by decide)
      (by decide)
      (.cons " ".toList "b".toList " cat x < a".toList _ (by decide) (by decide) (by decide)
        (by decide)
        (.cons " ".toList "cat".toList " x < a".toList _ (by decide) (by decide) (by decide)
          (by decide)
          (.cons " ".toList "x".toList " < a".toList _ (by decide) (by decide) (by decide)
            (by decide)
            (.cons " ".toList "<".toList " a".toList _ (by decide) (by decide) (by decide)
              (by decide)
              (.cons " ".toList "a".toList [] _ (by decide) (by decide) (by decide)
                (by decide) (.nil [] (by decide))))))))
    rfl rfl rfl (by decide) (by decide)

/-! ## Errors of one command and the lines after it -/

/-- What `run_command` does when a file of the redirection does not open:
it tries the input file, then (only when that one opened or there is none)
the output file, prints `I/O error\n` after the open that failed, and
returns 1. -/
theorem run_command_io_error (W : OS) (a0 : CStr) (rest : List CStr) (rd : Redirection)
    (stdin_data : Option CStr) (tr : Trace) (hns : a0 ≠ "./shell".toList)
    (hfail : (rd.has_in = true ∧ ∀ t, W.open_in t (rd.in_path.getD []) = false) ∨
      (rd.has_out = true ∧ ∀ t, W.open_out t (rd.out_path.getD []) = false)) :
    ∃ opens, run_command W (a0 :: rest) rd stdin_data tr
        = (1, tr ++ .call (a0 :: rest) rd stdin_data ::
            (opens ++ [.stdout "I/O error\n".toList])) ∧
      (opens = [.open_in (rd.in_path.getD []) false] ∨
        opens = [.open_out (rd.out_path.getD []) false] ∨
        opens = [.open_in (rd.in_path.getD []) true, .open_out (rd.out_path.getD []) false]) ∧
      ((rd.has_in = true ∧ ∀ t, W.open_in t (rd.in_path.getD []) = false) →
        opens = [.open_in (rd.in_path.getD []) false]) := by
  by_cases hin : rd.has_in = true
  · by_cases h1 : W.open_in (tr ++ [.call (a0 :: rest) rd stdin_data]) (rd.in_path.getD [])
        = true
    · have hout : rd.has_out = true ∧ ∀ t, W.open_out t (rd.out_path.getD []) = false := by
        rcases hfail with h | h
        · rw [h.2] at h1; cases h1
        · exact h
      refine ⟨[.open_in (rd.in_path.getD []) true, .open_out (rd.out_path.getD []) false],
        ?_, Or.inr (Or.inr rfl), ?_⟩
      · simp only [run_command, hns, ↓reduceIte]
        simp [open_redirection_fds, hin, h1, hout.1, hout.2, print_io_error]
      · intro h; rw [h.2] at h1; cases h1
    · refine ⟨[.open_in (rd.in_path.getD []) false], ?_, Or.inl rfl, fun _ => rfl⟩
      simp only [run_command, hns, ↓reduceIte]
      simp [open_redirection_fds, hin, h1, print_io_error]
  · have hout : rd.has_out = true ∧ ∀ t, W.open_out t (rd.out_path.getD []) = false := by
      rcases hfail with h | h
      · exact absurd h.1 hin
      · exact h
    refine ⟨[.open_out (rd.out_path.getD []) false], ?_, Or.inr (Or.inl rfl),
      fun h => absurd h.1 hin⟩
    simp only [run_command, hns, ↓reduceIte]
    simp [open_redirection_fds, hin, hout.1, hout.2, print_io_error]

/-- C11, as amended. The I/O error. For a command whose program name is not
`./shell` and with a redirection whose file cannot be opened: `run_command`
prints `I/O error\n` once and nothing else, returns 1 and forks no
supervisor, and when it is the input file that cannot be opened it does not
try to open the output file. The segment of such a command leaves the return
code 1 and breaks the chain, or ends the script when the command is a plain
`cat`; in both cases the chain loop returns right after the segment. -/
theorem io_error (W : OS) (a0 : CStr) (rest : List CStr) (rd : Redirection) (tr : Trace)
    (hns : a0 ≠ "./shell".toList)
    (hfail : (rd.has_in = true ∧ ∀ t, W.open_in t (rd.in_path.getD []) = false) ∨
      (rd.has_out = true ∧ ∀ t, W.open_out t (rd.out_path.getD []) = false)) :
    (∀ stdin_data, ∃ evs, run_command W (a0 :: rest) rd stdin_data tr = (1, tr ++ evs) ∧
      messages evs = ["I/O error\n".toList] ∧ forked evs = [] ∧
      ((rd.has_in = true ∧ ∀ t, W.open_in t (rd.in_path.getD []) = false) →
        opened_out evs = [])) ∧
    (∀ seg all pos total last_rc, parse_command_ast seg = .ok ⟨a0 :: rest, rd⟩ →
      ∃ evs, execute_segment W seg all pos total last_rc tr
          = (if is_plain_cat_cmd (a0 :: rest) rd then .SEG_EXIT else .SEG_BREAK, 1, tr ++ evs) ∧
        messages evs = ["I/O error\n".toList] ∧ forked evs = [] ∧
        ∀ fuel cursor, cursor ≠ [] → first_segment cursor = seg →
          chain_loop W all pos total (fuel + 1) cursor last_rc tr
            = (is_plain_cat_cmd (a0 :: rest) rd, 1, tr ++ evs ++
                [.seg_done seg
                  (if is_plain_cat_cmd (a0 :: rest) rd then .SEG_EXIT else .SEG_BREAK) 1])) := by
  have hrun : ∀ stdin_data, ∃ evs, run_command W (a0 :: rest) rd stdin_data tr = (1, tr ++ evs) ∧
      messages evs = ["I/O error\n".toList] ∧ forked evs = [] ∧
      ((rd.has_in = true ∧ ∀ t, W.open_in t (rd.in_path.getD []) = false) →
        opened_out evs = []) := by
    intro stdin_data
    obtain ⟨opens, h, hshape, hinf⟩ := run_command_io_error W a0 rest rd stdin_data tr hns hfail
    refine ⟨_, h, ?_, ?_, ?_⟩
    · rcases hshape with h1 | h1 | h1 <;> rw [h1] <;> rfl
    · rcases hshape with h1 | h1 | h1 <;> rw [h1] <;> rfl
    · intro hi
      rw [hinf hi]
      rfl
  refine ⟨hrun, ?_⟩
  intro seg all pos total last_rc hp
  have hws := not_empty_or_ws_of_argv seg ⟨a0 :: rest, rd⟩ hp (by simp)
  have hex : ∃ evs, execute_segment W seg all pos total last_rc tr
      = (if is_plain_cat_cmd (a0 :: rest) rd then .SEG_EXIT else .SEG_BREAK, 1, tr ++ evs) ∧
      messages evs = ["I/O error\n".toList] ∧ forked evs = [] := by
    by_cases hcat : is_plain_cat_cmd (a0 :: rest) rd = true
    · obtain ⟨evs, he, hm, hf, _⟩ := hrun (some (rest_of all pos total))
      refine ⟨evs, ?_, hm, hf⟩
      simp only [execute_segment, hws, hp, hcat, Bool.false_eq_true, ↓reduceIte]
      have he' : run_command W (a0 :: rest) rd (some (List.drop
          (if pos < total ∧ all.getD pos '\x00' = '\n' then pos + 1 else pos) all)) tr
          = (1, tr ++ evs) := he
      rw [he']
    · obtain ⟨evs, he, hm, hf, _⟩ := hrun none
      refine ⟨evs, ?_, hm, hf⟩
      simp only [execute_segment, hws, hp, hcat, Bool.false_eq_true, ↓reduceIte, he]
      simp
  obtain ⟨evs, he, hm, hf⟩ := hex
  refine ⟨evs, he, hm, hf, ?_⟩
  intro fuel cursor hc hseg
  have hne : (execute_segment W (first_segment cursor) all pos total last_rc tr).1
      ≠ .SEG_CONTINUE := by
    rw [hseg, he]; split <;> simp
  rw [chain_loop_stop W all pos total fuel cursor last_rc tr hc hne, hseg, he]
  by_cases hcat : is_plain_cat_cmd (a0 :: rest) rd = true <;> simp [hcat]

/-- C11, as stated, fails in three places, with no file that opens:
`./shell <nosuch` and the segment `<nosuch` without a command return 0 and
print nothing, and the script `cat >nodir/f`, newline, `echo hi` ends after
the I/O error of its first line, the second line is not run. -/
theorem io_error_counterexample :
    run_command { OS.always (.exited 0) with open_in := fun _ _ => false }
        ["./shell".toList] ⟨some "nosuch".toList, none, true, false⟩ none []
      = (0, [.call ["./shell".toList] ⟨some "nosuch".toList, none, true, false⟩ none]) ∧
    parse_command_ast "<nosuch".toList = .ok ⟨[], ⟨some "nosuch".toList, none, true, false⟩⟩ ∧
    run_command { OS.always (.exited 0) with open_in := fun _ _ => false }
        [] ⟨some "nosuch".toList, none, true, false⟩ none []
      = (0, [.call [] ⟨some "nosuch".toList, none, true, false⟩ none]) ∧
    (shell_main { OS.always (.exited 0) with open_out := fun _ _ => false }
        (some "cat >nodir/f\necho hi".toList)).2
      = [.call ["cat".toList] ⟨none, some "nodir/f".toList, false, true⟩
            (some "echo hi".toList),
          .open_out "nodir/f".toList false, .stdout "I/O error\n".toList,
          .seg_done "cat >nodir/f".toList .SEG_EXIT 1] := by
  decide

/-- C11 as amended, at `sort <nosuch >out` with no file that opens. -/
theorem io_error_witness :
    ∃ evs, run_command
        { OS.always (.exited 0) with open_in := fun _ _ => false, open_out := fun _ _ => false }
        ("sort".toList :: []) ⟨some "nosuch".toList, some "out".toList, true, true⟩ none []
        = (1, [] ++ evs) ∧
      messages evs = ["I/O error\n".toList] ∧ forked evs = [] :=
  match (io_error
    { OS.always (.exited 0) with open_in := fun _ _ => false, open_out := fun _ _ => false }
    "sort".toList [] ⟨some "nosuch".toList, some "out".toList, true, true⟩ [] (by decide)
    (Or.inl ⟨rfl, fun _ => rfl⟩)).1 none with
  | ⟨evs, h1, h2, h3, _⟩ => ⟨evs, h1, h2, h3⟩

theorem line_starts_aux_step : ∀ (l : CStr) (i : Nat),
    line_starts_aux l i =
      match l.dropWhile (fun c => c != '\n') with
      | [] => []
      | _ :: t =>
        (i + (l.takeWhile (fun c => c != '\n')).length + 1) ::
          line_starts_aux t (i + (l.takeWhile (fun c => c != '\n')).length + 1) := by
  intro l
  induction l with
  | nil => intro i; rfl
  | cons c cs ih =>
    intro i
    by_cases hc : c = '\n'
    · subst hc
      simp [line_starts_aux]
    · have hc' : (c != '\n') = true := by simpa using hc
      have hd : (c :: cs).dropWhile (fun c => c != '\n') = cs.dropWhile (fun c => c != '\n') := by
        simp [List.dropWhile_cons, hc]
      have ht : (c :: cs).takeWhile (fun c => c != '\n')
          = c :: cs.takeWhile (fun c => c != '\n') := by
        simp [List.takeWhile_cons, hc]
      rw [line_starts_aux, if_neg hc, ih (i + 1), hd, ht]
      cases cs.dropWhile (fun c => c != '\n') with
      | nil => rfl
      | cons d t =>
        simp only [List.length_cons]
        have : i + 1 + (cs.takeWhile (fun c => c != '\n')).length + 1
            = i + ((cs.takeWhile (fun c => c != '\n')).length + 1) + 1 := by omega
        rw [this]

/-- The main loop runs the lines of the script one after the other: the line
at the cursor, then every line that starts after a later newline, up to the
first line that ends the script. -/
theorem main_loop_lines (W : OS) (all : CStr) :
    ∀ (fuel pos : Nat) (tr : Trace), pos ≤ all.length → all.length + 1 - pos ≤ fuel →
      main_loop W all all.length fuel pos tr
        = run_lines W all (pos :: line_starts_aux (all.drop pos) pos) tr := by
  intro fuel
  induction fuel with
  | zero => intro pos tr hp hf; omega
  | succ f ih =>
    intro pos tr hp hf
    have hsplit := List.takeWhile_append_dropWhile (fun c => c != '\n') (all.drop pos)
    have hlen := congrArg List.length hsplit
    simp only [List.length_append, List.length_drop] at hlen
    rw [main_loop, if_pos hp, run_lines, line_starts_aux_step (all.drop pos) pos]
    simp only [exec_line_pos]
    by_cases hfin : (exec_line W all all.length pos tr).1 = true
    · simp only [hfin, ↓reduceIte]
    · simp only [hfin, Bool.false_eq_true, ↓reduceIte]
      cases hdw : (all.drop pos).dropWhile (fun c => c != '\n') with
      | nil =>
        rw [hdw] at hlen
        have he : line_end all pos ≥ all.length := by
          unfold line_end
          simp only [List.length_nil] at hlen
          omega
        simp only [he, ↓reduceIte, run_lines]
      | cons d t =>
        rw [hdw] at hlen hsplit
        simp only [List.length_cons] at hlen
        have he : ¬ line_end all pos ≥ all.length := by
          unfold line_end
          omega
        have ht : all.drop (line_end all pos + 1) = t := by
          unfold line_end
          generalize (all.drop pos).takeWhile (fun c => c != '\n') = T at hsplit hlen
          have h1 : all.drop (pos + T.length + 1) = (all.drop pos).drop (T.length + 1) := by
            rw [List.drop_drop]
            congr 1
          rw [h1, ← hsplit, List.drop_append_eq_append_drop]
          simp
        simp only [he, ↓reduceIte]
        have hrec := ih (line_end all pos + 1) (exec_line W all all.length pos tr).2.2
          (by unfold line_end; omega) (by unfold line_end; omega)
        rw [hrec, ht]
        rfl

/-- A chain ends the script exactly when one of the segments it ran is a
plain `cat`. -/
theorem chain_run_fin (W : OS) (all : CStr) (pos total : Nat) (segs : List CStr)
    (tr evs : Trace) (fin : Bool) (hrun : ChainRun W all pos total segs tr evs fin) :
    fin = true ↔ ∃ m ∈ seg_markers evs, parses_plain_cat m.1 = true := by
  induction hrun with
  | done tr =>
    constructor
    · intro h; cases h
    · rintro ⟨m, hm, _⟩
      cases hm
  | stop seg1 rest tr e1 res1 rc1 h hne =>
    have hev := (execute_segment_events W seg1 all pos total 0 tr e1 res1 rc1 h).1
    have hm : seg_markers (e1 ++ [.seg_done seg1 res1 rc1]) = [(seg1, res1, rc1)] := by
      rw [seg_markers_append, seg_markers_none e1 hev, seg_markers_cons]; rfl
    have hres : (execute_segment W seg1 all pos total 0 tr).1 = res1 := by rw [h]
    rw [hm]
    simp only [decide_eq_true_eq, List.mem_singleton, exists_eq_left]
    constructor
    · intro he
      exact parses_plain_cat_of_exit W seg1 all pos total 0 tr (by rw [hres, he])
    · intro hc
      rw [← hres]
      exact execute_segment_plain_cat W seg1 all pos total 0 tr hc
  | next seg1 rest tr e1 rc1 evs1 fin h hrest ih =>
    have hev := (execute_segment_events W seg1 all pos total 0 tr e1 _ rc1 h).1
    have hm : seg_markers (e1 ++ .seg_done seg1 .SEG_CONTINUE rc1 :: evs1)
        = (seg1, .SEG_CONTINUE, rc1) :: seg_markers evs1 := by
      rw [seg_markers_append, seg_markers_none e1 hev, seg_markers_cons]; rfl
    have hnc : parses_plain_cat seg1 = false := by
      cases hc : parses_plain_cat seg1 with
      | false => rfl
      | true =>
        have := execute_segment_plain_cat W seg1 all pos total 0 tr hc
        rw [h] at this
        cases this
    rw [hm, ih]
    constructor
    · rintro ⟨m, hm1, hp⟩
      exact ⟨m, List.mem_cons_of_mem _ hm1, hp⟩
    · rintro ⟨m, hm1, hp⟩
      rcases List.mem_cons.mp hm1 with h2 | h2
      · subst h2
        rw [hnc] at hp
        cases hp
      · exact ⟨m, h2, hp⟩

/-- One line of the script: `exec_line` runs the chain of the segments of
the line, from the return code 0. -/
theorem exec_line_chain (W : OS) (all : CStr) (ls : Nat) (tr : Trace) :
    ∃ evs fin, exec_line W all all.length ls tr = (fin, line_end all ls, tr ++ evs) ∧
      ChainRun W all (line_end all ls) all.length (line_segments all ls) tr evs fin := by
  unfold exec_line line_segments
  by_cases hws : is_empty_or_ws (dup_range all ls (line_end all ls)) = true
  · exact ⟨[], false, by simp [hws], by simp only [hws, ↓reduceIte]; exact .done tr⟩
  · obtain ⟨e1, fin, rc, h1, hrun⟩ := chain_loop_run W all (line_end all ls) all.length
      (dup_range all ls (line_end all ls)).length (dup_range all ls (line_end all ls)) tr
    refine ⟨e1, fin, by simp [hws, h1], ?_⟩
    simp only [hws, Bool.false_eq_true, ↓reduceIte]
    exact hrun

/-- C12. Recovery at the next line. The interpreter runs the lines of the
script one after the other, in order: every line that starts at 0 or after
a newline, up to the first line that ends the script (the script is the
input as a C string, the whole input when it holds no NUL byte). Each line
is run by `exec_line` from the trace the earlier lines left and from nothing
else of them: its chain goes over the segments of the line from the return
code 0. After a line the next line is run unless the line ends the script,
and a line ends the script exactly when one of the segments it ran is a
plain `cat`; so a chain cut short by a syntax error, an I/O error or a
nonzero return code does not keep any later line from being run. -/
theorem recovery_at_next_line (W : OS) (stdin : List Char) :
    (shell_main W (some stdin)).2 = run_lines W (c_str stdin) (line_starts (c_str stdin)) [] ∧
    ((∀ c ∈ stdin, c ≠ '\x00') →
      (shell_main W (some stdin)).2 = run_lines W stdin (line_starts stdin) []) ∧
    (∀ ls tr, ∃ evs fin,
      exec_line W (c_str stdin) (c_str stdin).length ls tr
        = (fin, line_end (c_str stdin) ls, tr ++ evs) ∧
      ChainRun W (c_str stdin) (line_end (c_str stdin) ls) (c_str stdin).length
        (line_segments (c_str stdin) ls) tr evs fin ∧
      (fin = true ↔ ∃ m ∈ seg_markers evs, parses_plain_cat m.1 = true) ∧
      ∀ rest, run_lines W (c_str stdin) (ls :: rest) tr =
        if fin then tr ++ evs else run_lines W (c_str stdin) rest (tr ++ evs)) := by
  have h0 : (shell_main W (some stdin)).2
      = run_lines W (c_str stdin) (line_starts (c_str stdin)) [] := by
    simp only [shell_main, read_all_stdin, Option.map_some']
    rw [main_loop_lines W (c_str stdin) _ 0 [] (Nat.zero_le _) (by omega)]
    rfl
  refine ⟨h0, ?_, ?_⟩
  · intro hnul
    rw [h0, c_str_of_no_nul stdin hnul]
  · intro ls tr
    obtain ⟨evs, fin, h1, hrun⟩ := exec_line_chain W (c_str stdin) ls tr
    refine ⟨evs, fin, h1, hrun, chain_run_fin W _ _ _ _ tr evs fin hrun, ?_⟩
    intro rest
    rw [run_lines, h1]

/-- C12, at a script of three lines: a chain broken by a nonzero return
code, a syntax error, and a last line; all three lines are run. -/
theorem recovery_at_next_line_witness :
    line_starts "false && echo a\n<\necho b".toList = [0, 16, 18] ∧
    seg_markers (run_lines (OS.always (.exited 1)) "false && echo a\n<\necho b".toList
        (line_starts "false && echo a\n<\necho b".toList) [])
      = [("false".toList, .SEG_BREAK, 1), ("<".toList, .SEG_BREAK, 1),
          ("echo b".toList, .SEG_BREAK, 1)] ∧
    (shell_main (OS.always (.exited 1)) (some "false && echo a\n<\necho b".toList)).2
      = run_lines (OS.always (.exited 1)) "false && echo a\n<\necho b".toList
          (line_starts "false && echo a\n<\necho b".toList) [] :=
  ⟨by decide, by decide,
    (recovery_at_next_line (OS.always (.exited 1)) "false && echo a\n<\necho b".toList).2.1
      (by decide)⟩

/-! ## Elapsed time, launch failure and the remaining cases of the parser -/

theorem wrap_long_of_fits (x : Int) (h1 : -9223372036854775808 ≤ x)
    (h2 : x < 9223372036854775808) : wrap_long x = x := by
  unfold wrap_long
  omega

/-- The value of `timespec_diff_ms` when nothing overflows: the seconds
differ by less than 9223372036854775 in either direction and the nanosecond
fields by less than 10^9. -/
theorem timespec_diff_ms_exact (a b : Timespec)
    (hs : -9223372036854775 < a.tv_sec - b.tv_sec ∧ a.tv_sec - b.tv_sec < 9223372036854775)
    (hn : -1000000000 < a.tv_nsec - b.tv_nsec ∧ a.tv_nsec - b.tv_nsec < 1000000000) :
    timespec_diff_ms a b
      = (a.tv_sec - b.tv_sec) * 1000 + Int.tdiv (a.tv_nsec - b.tv_nsec) 1000000 := by
  unfold timespec_diff_ms
  simp only
  rw [wrap_long_of_fits (a.tv_sec - b.tv_sec) (by omega) (by omega),
    wrap_long_of_fits (a.tv_nsec - b.tv_nsec) (by omega) (by omega),
    wrap_long_of_fits ((a.tv_sec - b.tv_sec) * 1000) (by omega) (by omega)]
  have hq : -1000 < Int.tdiv (a.tv_nsec - b.tv_nsec) 1000000 ∧
      Int.tdiv (a.tv_nsec - b.tv_nsec) 1000000 < 1000 := by
    by_cases h : 0 ≤ a.tv_nsec - b.tv_nsec
    · rw [Int.tdiv_eq_ediv h (by norm_num)]
      omega
    · have hneg : a.tv_nsec - b.tv_nsec = -(b.tv_nsec - a.tv_nsec) := by omega
      rw [hneg, Int.neg_tdiv, Int.tdiv_eq_ediv (by omega) (by norm_num)]
      omega
  exact wrap_long_of_fits _ (by omega) (by omega)

/-- What `timespec_diff_ms` gives against the floor of the elapsed
milliseconds when nothing overflows: the floor when the nanosecond field did
not go down or went down by a whole number of milliseconds, and otherwise
the floor plus 1. -/
theorem timespec_diff_ms_floor (a b : Timespec)
    (hs : -9223372036854775 < a.tv_sec - b.tv_sec ∧ a.tv_sec - b.tv_sec < 9223372036854775)
    (hn : -1000000000 < a.tv_nsec - b.tv_nsec ∧ a.tv_nsec - b.tv_nsec < 1000000000) :
    timespec_diff_ms a b =
      if b.tv_nsec ≤ a.tv_nsec ∨ (a.tv_nsec - b.tv_nsec) % 1000000 = 0 then floor_ms a b
      else floor_ms a b + 1 := by
  rw [timespec_diff_ms_exact a b hs hn]
  unfold floor_ms elapsed_ns
  rw [Int.fdiv_eq_ediv _ (by norm_num)]
  by_cases h : b.tv_nsec ≤ a.tv_nsec
  · have ht : Int.tdiv (a.tv_nsec - b.tv_nsec) 1000000 = (a.tv_nsec - b.tv_nsec) / 1000000 :=
      Int.tdiv_eq_ediv (by omega) (by norm_num)
    rw [if_pos (Or.inl h), ht]
    omega
  · have hneg : a.tv_nsec - b.tv_nsec = -(b.tv_nsec - a.tv_nsec) := by omega
    have ht : Int.tdiv (a.tv_nsec - b.tv_nsec) 1000000 = -((b.tv_nsec - a.tv_nsec) / 1000000) := by
      rw [hneg, Int.neg_tdiv, Int.tdiv_eq_ediv (by omega) (by norm_num)]
    simp only [ht]
    by_cases hd : (a.tv_nsec - b.tv_nsec) % 1000000 = 0
    · rw [if_pos (Or.inr hd)]
      omega
    · rw [if_neg (by rintro (h1 | h1); exact h h1; exact hd h1)]
      omega

/-- C23, as amended. Elapsed milliseconds. For timestamps `stop` not before
`start`, with nanosecond fields in [0, 10^9) and seconds that differ by less
than 9223372036854775 (so that the milliseconds fit in a `long`),
`timespec_diff_ms stop start` is the floor of the elapsed milliseconds when
the nanosecond field of `stop` is not below that of `start`, or when the two
nanosecond fields differ by a whole number of milliseconds; otherwise it is
that floor plus 1. -/
theorem elapsed_milliseconds (stop start : Timespec)
    (hstop : 0 ≤ stop.tv_nsec ∧ stop.tv_nsec < 1000000000)
    (hstart : 0 ≤ start.tv_nsec ∧ start.tv_nsec < 1000000000)
    (hge : start.tv_sec < stop.tv_sec ∨
      (start.tv_sec = stop.tv_sec ∧ start.tv_nsec ≤ stop.tv_nsec))
    (hfit : stop.tv_sec - start.tv_sec < 9223372036854775) :
    (start.tv_nsec ≤ stop.tv_nsec ∨ (stop.tv_nsec - start.tv_nsec) % 1000000 = 0 →
      timespec_diff_ms stop start = floor_ms stop start) ∧
    (¬ (start.tv_nsec ≤ stop.tv_nsec ∨ (stop.tv_nsec - start.tv_nsec) % 1000000 = 0) →
      timespec_diff_ms stop start = floor_ms stop start + 1) := by
  have h := timespec_diff_ms_floor stop start (by omega) (by omega)
  constructor
  · intro hc; rw [h, if_pos hc]
  · intro hc; rw [h, if_neg hc]

/-- C23, as stated, fails from 1 s 999999999 ns to 2 s 0 ns: one nanosecond
has passed, the floor of the elapsed milliseconds is 0, and
`timespec_diff_ms` gives 1. It fails also from 0 s to 9223372036854776 s:
the floor is 9223372036854776000, which no `long` holds, and
`timespec_diff_ms` gives -9223372036854775616. -/
theorem elapsed_milliseconds_counterexample :
    (elapsed_ns ⟨2, 0⟩ ⟨1, 999999999⟩ = 1 ∧ floor_ms ⟨2, 0⟩ ⟨1, 999999999⟩ = 0 ∧
      timespec_diff_ms ⟨2, 0⟩ ⟨1, 999999999⟩ = 1) ∧
    (floor_ms ⟨9223372036854776, 0⟩ ⟨0, 0⟩ = 9223372036854776000 ∧
      timespec_diff_ms ⟨9223372036854776, 0⟩ ⟨0, 0⟩ = -9223372036854775616) := by
  decide

/-- C23 as amended, from 1 s 250000000 ns to 3 s 750000000 ns, and from
1 s 999999999 ns to 2 s 0 ns. -/
theorem elapsed_milliseconds_witness :
    timespec_diff_ms ⟨3, 750000000⟩ ⟨1, 250000000⟩ = floor_ms ⟨3, 750000000⟩ ⟨1, 250000000⟩ ∧
    timespec_diff_ms ⟨2, 0⟩ ⟨1, 999999999⟩ = floor_ms ⟨2, 0⟩ ⟨1, 999999999⟩ + 1 :=
  ⟨(elapsed_milliseconds ⟨3, 750000000⟩ ⟨1, 250000000⟩ (by decide) (by decide) (by decide)
      (by decide)).1 (Or.inl (by decide)),
    (elapsed_milliseconds ⟨2, 0⟩ ⟨1, 999999999⟩ (by decide) (by decide) (by decide)
      (by decide)).2 (by decide)⟩

/-- C28, as amended. The error bound of the elapsed time. For timestamps
`stop` not before `start`, with nanosecond fields in [0, 10^9) and seconds
that differ by less than 9223372036854775 (so that the milliseconds fit in a
`long`), `timespec_diff_ms` is not negative, not below the floor of the
elapsed milliseconds, and above it by at most 1. -/
theorem elapsed_error_bound (stop start : Timespec)
    (hstop : 0 ≤ stop.tv_nsec ∧ stop.tv_nsec < 1000000000)
    (hstart : 0 ≤ start.tv_nsec ∧ start.tv_nsec < 1000000000)
    (hge : start.tv_sec < stop.tv_sec ∨
      (start.tv_sec = stop.tv_sec ∧ start.tv_nsec ≤ stop.tv_nsec))
    (hfit : stop.tv_sec - start.tv_sec < 9223372036854775) :
    0 ≤ timespec_diff_ms stop start ∧
    (timespec_diff_ms stop start = floor_ms stop start ∨
      timespec_diff_ms stop start = floor_ms stop start + 1) := by
  have h := timespec_diff_ms_floor stop start (by omega) (by omega)
  have hfloor : 0 ≤ floor_ms stop start := by
    unfold floor_ms elapsed_ns
    rw [Int.fdiv_eq_ediv _ (by norm_num)]
    omega
  by_cases hc : start.tv_nsec ≤ stop.tv_nsec ∨ (stop.tv_nsec - start.tv_nsec) % 1000000 = 0
  · rw [if_pos hc] at h
    exact ⟨by omega, Or.inl h⟩
  · rw [if_neg hc] at h
    exact ⟨by omega, Or.inr h⟩

/-- C28, as stated, fails from 0 s to 9223372036854776 s, both nanosecond
fields 0: the milliseconds do not fit in a `long`, the multiplication wraps
around, and `timespec_diff_ms` gives -9223372036854775616, a negative
number, below the floor 9223372036854776000. -/
theorem elapsed_error_bound_counterexample :
    timespec_diff_ms ⟨9223372036854776, 0⟩ ⟨0, 0⟩ = -9223372036854775616 ∧
    timespec_diff_ms ⟨9223372036854776, 0⟩ ⟨0, 0⟩ < 0 ∧
    floor_ms ⟨9223372036854776, 0⟩ ⟨0, 0⟩ = 9223372036854776000 := by
  decide

/-- C28 as amended, from 1 s 999999999 ns to 2 s 0 ns. -/
theorem elapsed_error_bound_witness :
    0 ≤ timespec_diff_ms ⟨2, 0⟩ ⟨1, 999999999⟩ ∧
    (timespec_diff_ms ⟨2, 0⟩ ⟨1, 999999999⟩ = floor_ms ⟨2, 0⟩ ⟨1, 999999999⟩ ∨
      timespec_diff_ms ⟨2, 0⟩ ⟨1, 999999999⟩ = floor_ms ⟨2, 0⟩ ⟨1, 999999999⟩ + 1) :=
  elapsed_error_bound ⟨2, 0⟩ ⟨1, 999999999⟩ (by decide) (by decide) (by decide) (by decide)

/-- What the code does on a launch failure. When the command is launched
(its program name is not `./shell`, the files open, the pipes are created)
and the `execvp` of the backend fails in the supervisor, the supervisor ends
with `_exit(1)`: `run_command` waits for it, prints nothing and returns 1. -/
theorem launch_failure (W : OS) (a0 : CStr) (rest : List CStr) (rd : Redirection)
    (stdin_data : Option CStr) (tr : Trace)
    (hin : ∀ t p, W.open_in t p = true) (hout : ∀ t p, W.open_out t p = true)
    (hpipe : ∀ t, W.pipe t = true) (hsup : ∀ t, W.supervisor t = .exec_failed)
    (hns : a0 ≠ "./shell".toList) :
    supervisor_status ("proc_clone".toList :: "--".toList :: a0 :: rest) .exec_failed
      = .exited 1 ∧
    ∃ evs, run_command W (a0 :: rest) rd stdin_data tr = (1, tr ++ evs) ∧
      messages evs = [] ∧ Event.wait (.exited 1) ∈ evs ∧
      forked evs = ["proc_clone".toList :: "--".toList :: a0 :: rest] := by
  refine ⟨rfl, ?_⟩
  obtain ⟨evs0, _, h⟩ := run_command_spec W (a0 :: rest) rd stdin_data tr
  have hst : ∀ t, supervisor_status ("proc_clone".toList :: "--".toList :: a0 :: rest)
      (W.supervisor t) = .exited 1 := by
    intro t
    rw [hsup t]
    rfl
  have hfork : forked (run_command W (a0 :: rest) rd stdin_data tr).2
      = forked tr ++ ["proc_clone".toList :: "--".toList :: a0 :: rest] := by
    rw [run_command_forked]
    have h1 : ¬ (a0 :: rest = [] ∨ (a0 :: rest).head? = some "./shell".toList) := by
      rintro (h | h)
      · cases h
      · simp only [List.head?_cons, Option.some.injEq] at h
        exact hns h
    rw [if_neg h1, open_redirection_fds_ok W rd _ hin hout,
      setup_pipes_ok W rd stdin_data _ _ hpipe]
    simp
  rcases h with ⟨rc, _, hrc⟩ | ⟨hm, _, hrun⟩
  · rcases hrc with ⟨_, h5 | h5⟩ | ⟨_, h5 | ⟨fds1, t, h5⟩⟩
    · cases h5
    · simp only [List.head?_cons, Option.some.injEq] at h5
      exact absurd h5 hns
    · rw [open_redirection_fds_ok W rd _ hin hout] at h5
      cases h5
    · rw [setup_pipes_ok W rd stdin_data fds1 t hpipe] at h5
      cases h5
  · rw [hst] at hrun
    rw [hrun, forked_append] at hfork
    refine ⟨_, hrun, ?_, ?_, List.append_cancel_left hfork⟩
    · simp only [messages, List.filterMap_cons, List.filterMap_append] at hm ⊢
      rw [hm]
      simp [wait_result]
    · simp

/-- C22. Launch failure, evaluated at the command `ls`. When the `execvp` of
the backend fails in the supervisor, the supervisor ends with status 1, not
with the status 127 that the parent takes for command-not-found:
`run_command` returns 1 and prints no `Command not found`. When the backend
runs and the `execvp` of `ls` fails in the new process, that process ends
with 127, the backend exits with 127, and `run_command` prints
`Command not found` and returns 127. -/
theorem launch_failure_exit_status :
    supervisor_status ["proc_clone".toList, "--".toList, "ls".toList] .exec_failed
      = .exited 1 ∧
    run_command { OS.always (.exited 0) with supervisor := fun _ => .exec_failed }
        ["ls".toList] ⟨none, none, false, false⟩ none []
      = (1, [.call ["ls".toList] ⟨none, none, false, false⟩ none, .pipe true,
          .stderr "[DEBUG] parent process, pid=1\n".toList,
          .fork "./proc_clone".toList ["proc_clone".toList, "--".toList, "ls".toList]
            .inherited .capture_pipe,
          .drain [], .wait (.exited 1)]) ∧
    (child_main ⟨some ["ls".toList], true⟩ (some "1".toList) 3 2 .fails).1 = .exited 127 ∧
    run_command
        { OS.always (.exited 0) with
          supervisor := fun _ => .backend ⟨true, true, .fails, true, ⟨0, 0⟩, ⟨0, 0⟩, 2, 3⟩ }
        ["ls".toList] ⟨none, none, false, false⟩ none []
      = (127, [.call ["ls".toList] ⟨none, none, false, false⟩ none, .pipe true,
          .stderr "[DEBUG] parent process, pid=1\n".toList,
          .fork "./proc_clone".toList ["proc_clone".toList, "--".toList, "ls".toList]
            .inherited .capture_pipe,
          .drain [], .wait (.exited 127), .stdout "Command not found\n".toList]) := by
  decide

/-- The launch failure at the command `ls`. -/
theorem launch_failure_witness :
    ∃ evs, run_command { OS.always (.exited 0) with supervisor := fun _ => .exec_failed }
        ("ls".toList :: []) ⟨none, none, false, false⟩ none [] = (1, [] ++ evs) ∧
      messages evs = [] ∧ Event.wait (.exited 1) ∈ evs ∧
      forked evs = ["proc_clone".toList :: "--".toList :: "ls".toList :: []] :=
  (launch_failure { OS.always (.exited 0) with supervisor := fun _ => .exec_failed }
    "ls".toList [] ⟨none, none, false, false⟩ none []
    (fun _ _ => rfl) (fun _ _ => rfl) (fun _ => rfl) (fun _ => rfl) (by decide)).2

/-- After the record of its call, `run_command` records no other call. -/
theorem run_command_payloads (W : OS) (argv : List CStr) (rd : Redirection)
    (stdin_data : Option CStr) (tr : Trace) :
    payloads (run_command W argv rd stdin_data tr).2 = payloads tr ++ [stdin_data] := by
  obtain ⟨evs, h, hev⟩ := run_command_trace W argv rd stdin_data tr
  rw [h]
  have hnone : payloads evs = [] := by
    unfold payloads
    rw [List.filterMap_eq_nil_iff]
    intro e he
    have := (hev e he).1
    cases e <;> simp [Event.is_call] at this ⊢
  simp only [payloads, List.filterMap_append, List.filterMap_cons] at hnone ⊢
  rw [hnone]

/-- C25, as amended. The stdin-slurp case does not generalize to `cat` with
arguments or with an input redirection. For a segment whose command is `cat`
with at least one argument, or `cat` alone with an input redirection, the
command is run with no payload, and the segment breaks the chain when the
return code is not 0 and continues it otherwise; it never ends the script. -/
theorem slurp_does_not_generalize (W : OS) (seg all : CStr) (pos total last_rc : Nat)
    (tr : Trace) (cmd : Command) (hp : parse_command_ast seg = .ok cmd)
    (hcat : (∃ a rest, cmd.argv = "cat".toList :: a :: rest) ∨
      (cmd.argv = ["cat".toList] ∧ cmd.rd.has_in = true)) :
    execute_segment W seg all pos total last_rc tr
      = (if (run_command W cmd.argv cmd.rd none tr).1 ≠ 0 then .SEG_BREAK else .SEG_CONTINUE,
          (run_command W cmd.argv cmd.rd none tr).1,
          (run_command W cmd.argv cmd.rd none tr).2) ∧
    (execute_segment W seg all pos total last_rc tr).1 ≠ .SEG_EXIT ∧
    payloads (execute_segment W seg all pos total last_rc tr).2.2 = payloads tr ++ [none] := by
  have hne : cmd.argv ≠ [] := by
    rcases hcat with ⟨a, rest, h⟩ | ⟨h, _⟩ <;> rw [h] <;> simp
  have hws := not_empty_or_ws_of_argv seg cmd hp hne
  have hnc : is_plain_cat_cmd cmd.argv cmd.rd = false := by
    rcases hcat with ⟨a, rest, h⟩ | ⟨h, hi⟩
    · rw [h]; rfl
    · rw [h]; simp [is_plain_cat_cmd, hi]
  have hex : execute_segment W seg all pos total last_rc tr
      = (if (run_command W cmd.argv cmd.rd none tr).1 ≠ 0 then .SEG_BREAK else .SEG_CONTINUE,
          (run_command W cmd.argv cmd.rd none tr).1,
          (run_command W cmd.argv cmd.rd none tr).2) := by
    simp only [execute_segment, hws, hp, hnc, Bool.false_eq_true, ↓reduceIte]
  refine ⟨hex, ?_, ?_⟩
  · rw [hex]
    split <;> simp
  · rw [hex]
    exact run_command_payloads W cmd.argv cmd.rd none tr

/-- C25, as stated, fails at the segment `cat >out`, first line of a script
whose second line is `echo hi`: the command is `cat` with an output
redirection, it is run with the rest of the script as payload, and the
segment ends the script. -/
theorem slurp_does_not_generalize_counterexample :
    parse_command_ast "cat >out".toList
      = .ok ⟨["cat".toList], ⟨none, some "out".toList, false, true⟩⟩ ∧
    execute_segment (OS.always (.exited 0)) "cat >out".toList "cat >out\necho hi".toList 8 16
        0 []
      = (.SEG_EXIT, 0,
          [.call ["cat".toList] ⟨none, some "out".toList, false, true⟩ (some "echo hi".toList),
            .open_out "out".toList true, .pipe true,
            .stderr "[DEBUG] parent process, pid=1\n".toList,
            .fork "./proc_clone".toList ["proc_clone".toList, "--".toList, "cat".toList]
              .feed_pipe (.file "out".toList),
            .feed "echo hi".toList, .wait (.exited 0)]) := by
  decide

/-- C25 as amended, at the segment `cat -n <in`. -/
theorem slurp_does_not_generalize_witness :
    (execute_segment (OS.always (.exited 0)) "cat -n <in".toList "cat -n <in\nx".toList 10 12
        0 []).1 ≠ .SEG_EXIT ∧
    payloads (execute_segment (OS.always (.exited 0)) "cat -n <in".toList
        "cat -n <in\nx".toList 10 12 0 []).2.2 = payloads [] ++ [none] :=
  (slurp_does_not_generalize (OS.always (.exited 0)) "cat -n <in".toList
    "cat -n <in\nx".toList 10 12 0 []
    ⟨["cat".toList, "-n".toList], ⟨some "in".toList, none, true, false⟩⟩ (by decide)
    (Or.inl ⟨"-n".toList, [], rfl⟩)).2

theorem render_ne_nil (items : List Item) (h : items ≠ []) : render items ≠ [] := by
  cases items with
  | nil => exact absurd rfl h
  | cons it rest =>
    cases it with
    | word w => simp [render, Item.render]
    | rin fused p => cases fused <;> simp [render, Item.render]
    | rout fused p => cases fused <;> simp [render, Item.render]

/-- C27. The redirection-only segment. A segment written from valid
redirections only, at least one and at most one of each kind, and no word,
parses to a command with an empty argument vector and those redirections;
`run_command` returns 0 for an empty argument vector and does nothing but
record the call (no file is opened or created, no supervisor is forked);
the segment continues the chain with return code 0, and the chain loop goes
on with the text after the next `&&`. -/
theorem redirection_only_segment (W : OS) (items : List Item) (seg all : CStr)
    (pos total last_rc : Nat) (tr : Trace)
    (hv : ∀ it ∈ items, it.text ≠ [] ∧ it.text.head? ≠ some '<' ∧ it.text.head? ≠ some '>')
    (hs : IsWords seg (render items)) (hne : items ≠ []) (hnw : plain_words items = [])
    (hin1 : (in_paths items).length ≤ 1) (hout1 : (out_paths items).length ≤ 1) :
    parse_command_ast seg =
      .ok ⟨[], ⟨(in_paths items).head?, (out_paths items).head?,
        !(in_paths items).isEmpty, !(out_paths items).isEmpty⟩⟩ ∧
    (∀ rd stdin_data, run_command W [] rd stdin_data tr = (0, tr ++ [.call [] rd stdin_data])) ∧
    execute_segment W seg all pos total last_rc tr =
      (.SEG_CONTINUE, 0, tr ++ [.call [] ⟨(in_paths items).head?, (out_paths items).head?,
        !(in_paths items).isEmpty, !(out_paths items).isEmpty⟩ none]) ∧
    (∀ fuel cursor k, cursor ≠ [] → first_segment cursor = seg →
      strstr cursor "&&".toList = some k →
      chain_loop W all pos total (fuel + 1) cursor last_rc tr =
        chain_loop W all pos total fuel (cursor.drop (k + 2)) 0
          (tr ++ [.call [] ⟨(in_paths items).head?, (out_paths items).head?,
              !(in_paths items).isEmpty, !(out_paths items).isEmpty⟩ none,
            .seg_done seg .SEG_CONTINUE 0])) := by
  have hparse : parse_command_ast seg =
      .ok ⟨[], ⟨(in_paths items).head?, (out_paths items).head?,
        !(in_paths items).isEmpty, !(out_paths items).isEmpty⟩⟩ := by
    rw [parse_command_ast_eq, ← hs.eq_words,
      parse_items items command_init hv (by simp [command_init]) hin1
        (by simp [command_init]) hout1, hnw]
    cases hip : in_paths items <;> cases hop : out_paths items <;> simp [command_init]
  have hrun : ∀ rd stdin_data,
      run_command W [] rd stdin_data tr = (0, tr ++ [.call [] rd stdin_data]) := by
    intro rd stdin_data
    simp [run_command]
  have hws : is_empty_or_ws seg = false :=
    not_empty_or_ws_of_words seg (by rw [← hs.eq_words]; exact render_ne_nil items hne)
  have hex : execute_segment W seg all pos total last_rc tr =
      (.SEG_CONTINUE, 0, tr ++ [.call [] ⟨(in_paths items).head?, (out_paths items).head?,
        !(in_paths items).isEmpty, !(out_paths items).isEmpty⟩ none]) := by
    simp only [execute_segment, hws, hparse, Bool.false_eq_true, ↓reduceIte, is_plain_cat_cmd,
      hrun]
    simp
  refine ⟨hparse, hrun, hex, ?_⟩
  intro fuel cursor k hc hseg hk
  have hcont := chain_loop_continue W all pos total fuel cursor last_rc tr hc
    (by rw [hseg, hex])
  rw [hcont, hk, hseg, hex]
  simp

/-- C27, at the segment `> out.txt` followed by `&& echo hi`. -/
theorem redirection_only_segment_witness :
    parse_command_ast "> out.txt".toList
      = .ok ⟨[], ⟨none, some "out.txt".toList, false, true⟩⟩ ∧
    execute_segment (OS.always (.exited 0)) "> out.txt".toList [] 0 0 0 []
      = (.SEG_CONTINUE, 0, [] ++ [.call [] ⟨none, some "out.txt".toList, false, true⟩ none]) ∧
    seg_markers (shell_main (OS.always (.exited 0)) (some "> out.txt && echo hi".toList)).2
      = [("> out.txt".toList, .SEG_CONTINUE, 0), ("echo hi".toList, .SEG_CONTINUE, 0)] :=
  ⟨(redirection_only_segment (OS.always (.exited 0)) [.rout false "out.txt".toList]
      "> out.txt".toList [] 0 0 0 [] (by decide)
      (.cons [] ">".toList " out.txt".toList _ (by decide) (by decide) (by decide) (by decide)
        (.cons " ".toList "out.txt".toList [] _ (by decide) (by decide) (by decide)
          (by decide) (.nil [] (by decide))))
      (by decide) rfl (by decide) (by decide)).1,
   (redirection_only_segment (OS.always (.exited 0)) [.rout false "out.txt".toList]
      "> out.txt".toList [] 0 0 0 [] (by decide)
      (.cons [] ">".toList " out.txt".toList _ (by decide) (by decide) (by decide) (by decide)
        (.cons " ".toList "out.txt".toList [] _ (by decide) (by decide) (by decide)
          (by decide) (.nil [] (by decide))))
      (by decide) rfl (by decide) (by decide)).2.2.1,
   by decide⟩

/-- C21. Stacked redirection. `parse_command_ast` evaluated at segments in
which an operator is fused with a path that begins with an operator:
`cat <<x`, `cat <>x` and `echo ><x` parse, and the path stored is `<x`,
`>x` and `<x`; the spaced form `cat < <x` is a syntax error. -/
theorem stacked_redirection_accepted :
    parse_command_ast "cat <<x".toList
      = .ok ⟨["cat".toList], ⟨some "<x".toList, none, true, false⟩⟩ ∧
    parse_command_ast "cat <>x".toList
      = .ok ⟨["cat".toList], ⟨some ">x".toList, none, true, false⟩⟩ ∧
    parse_command_ast "echo ><x".toList
      = .ok ⟨["echo".toList], ⟨none, some "<x".toList, false, true⟩⟩ ∧
    parse_command_ast "cat < <x".toList = .fail true := by
  decide

/-- C29. The two parsers. `parse_redirs_and_args` and `parse_command_ast`
evaluated at `cat <<x`, `cat <>x` and `echo ><x`, segments whose only
whitespace is a space: the token-splitting parser reports a syntax error and
the lexer-based parser succeeds; at `sort -r <in > out` both succeed with
the same argument vector and paths. -/
theorem parsers_disagree_on_stacked :
    parse_redirs_and_args "cat <<x".toList = .fail true ∧
    parse_command_ast "cat <<x".toList
      = .ok ⟨["cat".toList], ⟨some "<x".toList, none, true, false⟩⟩ ∧
    parse_redirs_and_args "cat <>x".toList = .fail true ∧
    parse_command_ast "cat <>x".toList
      = .ok ⟨["cat".toList], ⟨some ">x".toList, none, true, false⟩⟩ ∧
    parse_redirs_and_args "echo ><x".toList = .fail true ∧
    parse_command_ast "echo ><x".toList
      = .ok ⟨["echo".toList], ⟨none, some "<x".toList, false, true⟩⟩ ∧
    parse_redirs_and_args "sort -r <in > out".toList
      = parse_command_ast "sort -r <in > out".toList ∧
    parse_redirs_and_args "sort -r <in > out".toList
      = .ok ⟨["sort".toList, "-r".toList], ⟨some "in".toList, some "out".toList, true, true⟩⟩ := by
  decide

/-- The cursor after one call of `lexer_next`: the lexer keeps its string,
the cursor stays within the string and does not go back, and it goes forward
unless the token is the end-of-input token. -/
theorem lexer_next_cursor (s : CStr) (i : Nat) (hi : i ≤ s.length) :
    (lexer_next ⟨s, s.length, i⟩).2.s = s ∧ (lexer_next ⟨s, s.length, i⟩).2.n = s.length ∧
    i ≤ (lexer_next ⟨s, s.length, i⟩).2.i ∧ (lexer_next ⟨s, s.length, i⟩).2.i ≤ s.length ∧
    ((lexer_next ⟨s, s.length, i⟩).1.type ≠ .T_EOF → i < (lexer_next ⟨s, s.length, i⟩).2.i) := by
  have hs : s.take i ++ s.drop i = s := List.take_append_drop i s
  have hl : (s.take i).length = i := by simp [hi]
  have h := lexer_next_run (s.take i) (s.drop i)
  rw [hs, hl] at h
  have hsplit := List.takeWhile_append_dropWhile isspace (s.drop i)
  have hlen := congrArg List.length hsplit
  simp only [List.length_append, List.length_drop] at hlen
  cases hdw : (s.drop i).dropWhile isspace with
  | nil =>
    rw [hdw] at h
    simp only at h
    rw [h]
    exact ⟨rfl, rfl, hi, le_refl _, fun hne => absurd rfl hne⟩
  | cons c cs =>
    rw [hdw] at h hlen
    simp only at h
    rw [h]
    have hc : isspace c = false := by
      have := List.head_dropWhile_not isspace (s.drop i) (by simp [hdw])
      simpa [hdw] using this
    have hrun : 1 ≤ ((c :: cs).takeWhile (fun c => !isspace c)).length := by
      rw [List.takeWhile_cons_of_pos (by simp [hc])]
      simp
    have hrun2 : ((c :: cs).takeWhile (fun c => !isspace c)).length ≤ (c :: cs).length :=
      (List.takeWhile_sublist _).length_le
    simp only [List.length_cons] at hrun2 hlen
    refine ⟨rfl, rfl, ?_, ?_, ?_⟩
    · simp only; omega
    · simp only
      split <;> omega
    · intro _
      simp only
      split <;> omega

theorem IsWords.length_le {seg : CStr} {ws : List CStr} (h : IsWords seg ws) :
    ws.length ≤ seg.length := by
  induction h with
  | nil sp hsp => simp
  | cons sp w rest ws hsp hne hw hrest _ ih =>
    have : 1 ≤ w.length := by
      cases w with
      | nil => exact absurd rfl hne
      | cons a b => simp
    simp only [List.length_cons, List.length_append]
    omega

theorem tok_stream_length (ws : List CStr) :
    (tok_stream ws).length ≤ ws.length + 1 ∧
    ∃ t, (tok_stream ws).getLast? = some t ∧ (t.type = .T_EOF ∨ t.type = .T_ERR) := by
  induction ws with
  | nil => exact ⟨by simp [tok_stream], make_token .T_EOF none, rfl, Or.inl rfl⟩
  | cons w ws ih =>
    by_cases herr : (classify w).type = .T_ERR
    · rw [tok_stream_cons_err w ws herr]
      exact ⟨by simp, classify w, rfl, Or.inr herr⟩
    · rw [tok_stream_cons_ok w ws herr]
      obtain ⟨h1, t, h2, h3⟩ := ih
      refine ⟨by simp only [List.length_cons]; omega, t, ?_, h3⟩
      rw [List.getLast?_cons, h2]
      rfl

/-- C24. Tokenizer progress and termination. A call of `lexer_next` with
the cursor at `i` in a segment of length `n` leaves the cursor in [i, n],
and after a token other than end-of-input and error the cursor is past `i`.
Hence the tokens of a segment are at most `n + 1`, the last being the
end-of-input or the error token, and parsing ends with a command or with a
syntax error within the `n + 1` rounds of fuel (more fuel gives the same). -/
theorem tokenizer_progress (s : CStr) (i : Nat) (hi : i ≤ s.length) :
    ((lexer_next ⟨s, s.length, i⟩).2.s = s ∧ (lexer_next ⟨s, s.length, i⟩).2.n = s.length ∧
      i ≤ (lexer_next ⟨s, s.length, i⟩).2.i ∧ (lexer_next ⟨s, s.length, i⟩).2.i ≤ s.length) ∧
    ((lexer_next ⟨s, s.length, i⟩).1.type ≠ .T_EOF →
      (lexer_next ⟨s, s.length, i⟩).1.type ≠ .T_ERR →
      i < (lexer_next ⟨s, s.length, i⟩).2.i) ∧
    ((tokenize s).length ≤ s.length + 1 ∧
      ∃ t, (tokenize s).getLast? = some t ∧ (t.type = .T_EOF ∨ t.type = .T_ERR)) ∧
    (parse_command_ast s = .fail true ∨ ∃ cmd, parse_command_ast s = .ok cmd) ∧
    (∀ fuel, s.length < fuel →
      parse_loop fuel (lexer_init s) command_init = parse_command_ast s) := by
  obtain ⟨h1, h2, h3, h4, h5⟩ := lexer_next_cursor s i hi
  refine ⟨⟨h1, h2, h3, h4⟩, fun hne _ => h5 hne, ?_, ?_, fun fuel hf => parse_loop_fuel s fuel hf⟩
  · rw [tokenize_eq]
    obtain ⟨hl, ht⟩ := tok_stream_length (words s)
    have := (words_spec (s.length + 1) s (Nat.lt_succ_self _)).length_le
    exact ⟨by omega, ht⟩
  · have hne : ∀ w ∈ words s, w ≠ [] := fun w hw => words_ne_nil s w hw
    have h := parse_tokens_count ((words s).length + 1) (words s) (by omega) hne command_init
    rw [← parse_command_ast_eq] at h
    rcases h with h | ⟨c1, h, _, _⟩
    · exact Or.inl h
    · exact Or.inr ⟨c1, h⟩

/-- C24, at the segment `a <b` with the cursor at 1. -/
theorem tokenizer_progress_witness :
    lexer_next ⟨"a <b".toList, 4, 1⟩ = (make_token .T_LT_PATH (some "b".toList),
      ⟨"a <b".toList, 4, 4⟩) ∧
    1 < (lexer_next ⟨"a <b".toList, "a <b".toList.length, 1⟩).2.i :=
  ⟨by decide,
   (tokenizer_progress "a <b".toList 1 (by decide)).2.1 (by decide) (by decide)⟩

theorem scan_while_ge (p : Char → Bool) (line : CStr) (n i : Nat) :
    i ≤ scan_while p line n i := by
  unfold scan_while; omega

theorem scan_while_le (p : Char → Bool) (line : CStr) (n i : Nat) (hi : i ≤ n) :
    scan_while p line n i ≤ n := by
  unfold scan_while
  have h1 := (List.takeWhile_sublist p (l := (line.drop i).take (n - i))).length_le
  have h2 : ((line.drop i).take (n - i)).length ≤ n - i := by
    rw [List.length_take]; omega
  omega

/-- A token that starts inside the line, at a character that is not a blank,
is not empty: the scan of the token goes forward. -/
theorem scan_while_token (line : CStr) (n i : Nat) (hn : n ≤ line.length)
    (hi : scan_while is_space line n i < n) :
    scan_while is_space line n i
      < scan_while (fun c => !is_space c) line n (scan_while is_space line n i) := by
  have hge := scan_while_ge is_space line n i
  have hlen : ((line.drop i).take (n - i)).length = n - i := by
    rw [List.length_take, List.length_drop]; omega
  have hlt : (((line.drop i).take (n - i)).takeWhile is_space).length
      < ((line.drop i).take (n - i)).length := by
    unfold scan_while at hi
    omega
  have hstop := getD_length_takeWhile is_space '\x00' ((line.drop i).take (n - i)) hlt
  generalize hk : scan_while is_space line n i = k at hi hge ⊢
  have hkdef : k = i + (((line.drop i).take (n - i)).takeWhile is_space).length := by
    rw [← hk]; rfl
  have hget : ((line.drop i).take (n - i)).getD
      (((line.drop i).take (n - i)).takeWhile is_space).length '\x00' = line.getD k '\x00' := by
    rw [hkdef]
    simp only [List.getD_eq_getElem?_getD]
    rw [List.getElem?_take_of_lt (by omega), List.getElem?_drop]
  rw [hget] at hstop
  have hkl : k < line.length := by omega
  have hdrop : (line.drop k).take (n - k) = line.getD k '\x00' ::
      ((line.drop (k + 1)).take (n - k - 1)) := by
    rw [List.drop_eq_getElem_cons hkl]
    have : n - k = (n - k - 1) + 1 := by omega
    rw [this, List.take_succ_cons]
    simp [List.getD_eq_getElem?_getD, List.getElem?_eq_getElem hkl]
  unfold scan_while
  rw [hdrop, List.takeWhile_cons_of_pos (by rw [hstop]; rfl)]
  simp only [List.length_cons]
  omega

theorem redir_path_cursor (line : CStr) (n : Nat) (tok : CStr) (i : Nat) (path : CStr)
    (j : Nat) (h : redir_path line n tok i = some (path, j)) : i ≤ j := by
  have h1 := scan_while_ge is_space line n i
  have h2 := scan_while_ge (fun c => !is_space c) line n (scan_while is_space line n i)
  unfold redir_path at h
  simp only at h
  split at h
  · split at h
    · cases h
    · simp only [Option.some.injEq, Prod.mk.injEq] at h
      omega
  · split at h
    · cases h
    · split at h
      · cases h
      · split at h
        · cases h
        · simp only [Option.some.injEq, Prod.mk.injEq] at h
          omega

/-- The fuel `parse_redirs_and_args` passes to its loop is enough: the loop
ends with a result of the parser, not for lack of fuel. -/
theorem parse_redirs_loop_fuel (line : CStr) :
    ∀ (fuel i : Nat) (argv : List CStr) (rd : Redirection), line.length - i < fuel →
      parse_redirs_loop line line.length fuel i argv rd = .fail true ∨
      ∃ cmd, parse_redirs_loop line line.length fuel i argv rd = .ok cmd := by
  intro fuel
  induction fuel with
  | zero => intro i argv rd h; omega
  | succ f ih =>
    intro i argv rd hf
    rw [parse_redirs_loop]
    by_cases hi : i < line.length
    · simp only [hi, ↓reduceIte]
      by_cases h1 : scan_while is_space line line.length i ≥ line.length
      · simp only [h1, ↓reduceIte]
        exact Or.inr ⟨_, rfl⟩
      · simp only [h1, ↓reduceIte]
        have hge := scan_while_ge is_space line line.length i
        have htok := scan_while_token line line.length i (le_refl _) (by omega)
        have hfuel : ∀ j, scan_while (fun c => !is_space c) line line.length
            (scan_while is_space line line.length i) ≤ j → line.length - j < f := by
          intro j hj; omega
        split
        · split
          · exact Or.inl rfl
          · split
            · exact Or.inl rfl
            · rename_i path_owned i3 hrp
              have hi3 := redir_path_cursor _ _ _ _ _ _ hrp
              split
              · split
                · exact Or.inl rfl
                · exact ih _ _ _ (hfuel _ hi3)
              · split
                · exact Or.inl rfl
                · exact ih _ _ _ (hfuel _ hi3)
        · exact ih _ _ _ (hfuel _ (le_refl _))
    · simp only [hi, ↓reduceIte]
      exact Or.inr ⟨_, rfl⟩

/-- The token-splitting parser ends with a syntax error or with a command. -/
theorem parse_redirs_and_args_total (line : CStr) :
    parse_redirs_and_args line = .fail true ∨ ∃ cmd, parse_redirs_and_args line = .ok cmd :=
  parse_redirs_loop_fuel line (line.length + 1) 0 [] _ (by omega)

/-! ## The segments of a line -/

theorem split_and_ne_nil : ∀ (n : Nat) (l : CStr), l.length < n → split_and l ≠ [] := by
  intro n
  induction n with
  | zero => intro l h; omega
  | succ n ih =>
    intro l hl
    match l with
    | [] => simp [split_and]
    | [c] => simp [split_and]
    | c :: d :: rest =>
      rw [split_and]
      split
      · simp
      · cases h : split_and (d :: rest) <;> simp [cons_head]

/-- The pieces against `strstr`: the text before the first occurrence of
`&&`, then the pieces of the text after it. -/
theorem split_and_strstr : ∀ (n : Nat) (cursor : CStr), cursor.length < n →
    split_and cursor =
      match strstr cursor "&&".toList with
      | none => [cursor]
      | some k => cursor.take k :: split_and (cursor.drop (k + 2)) := by
  intro n
  induction n with
  | zero => intro l h; omega
  | succ n ih =>
    intro l hl
    match l with
    | [] => simp [split_and, strstr]
    | [c] => simp [split_and, strstr, List.isPrefixOf]
    | c :: d :: rest =>
      rw [split_and]
      by_cases h : c = '&' ∧ d = '&'
      · obtain ⟨h1, h2⟩ := h
        subst h1; subst h2
        simp [strstr, List.isPrefixOf]
      · rw [if_neg h]
        have hp : List.isPrefixOf "&&".toList (c :: d :: rest) = false := by
          simp only [String.toList, List.isPrefixOf, Bool.and_true]
          by_cases h1 : c = '&'
          · have h2 : d ≠ '&' := fun e => h ⟨h1, e⟩
            simp [h1, Ne.symm h2]
          · simp [Ne.symm h1]
        have hs : strstr (c :: d :: rest) "&&".toList
            = (strstr (d :: rest) "&&".toList).map (· + 1) := by
          rw [strstr, hp]; simp
        rw [hs, ih (d :: rest) (by simp only [List.length_cons] at hl ⊢; omega)]
        cases strstr (d :: rest) "&&".toList with
        | none => simp [cons_head]
        | some k => simp [cons_head]

theorem intercalate_cons_head (sep : CStr) (c : Char) (ps : List CStr) :
    List.intercalate sep (cons_head c ps) = c :: List.intercalate sep ps := by
  cases ps with
  | nil => simp [cons_head, List.intercalate]
  | cons p ps =>
    cases ps with
    | nil => simp [cons_head, List.intercalate]
    | cons q qs => simp [cons_head, List.intercalate, List.intersperse]

/-- The pieces of a line joined by `&&` give the line back. -/
theorem split_and_join : ∀ (n : Nat) (l : CStr), l.length < n →
    List.intercalate "&&".toList (split_and l) = l := by
  intro n
  induction n with
  | zero => intro l h; omega
  | succ n ih =>
    intro l hl
    match l with
    | [] => simp [split_and, List.intercalate]
    | [c] => simp [split_and, List.intercalate]
    | c :: d :: rest =>
      rw [split_and]
      by_cases h : c = '&' ∧ d = '&'
      · obtain ⟨h1, h2⟩ := h
        subst h1; subst h2
        rw [if_pos ⟨rfl, rfl⟩]
        have hr := ih rest (by simp only [List.length_cons] at hl ⊢; omega)
        have hne := split_and_ne_nil (rest.length + 1) rest (by omega)
        cases hs : split_and rest with
        | nil => exact absurd hs hne
        | cons p ps =>
          rw [hs] at hr
          simp only [List.intercalate, List.intersperse] at hr ⊢
          simp only [List.flatten_cons, List.nil_append]
          rw [hr]; rfl
      · rw [if_neg h, intercalate_cons_head,
          ih (d :: rest) (by simp only [List.length_cons] at hl ⊢; omega)]

theorem drop_empty_last_cons (p : CStr) (ps : List CStr) (h : ps ≠ []) :
    drop_empty_last (p :: ps) = p :: drop_empty_last ps := by
  cases ps with
  | nil => exact absurd rfl h
  | cons q qs => rw [drop_empty_last]

theorem first_segment_eq (cursor : CStr) :
    first_segment cursor = match strstr cursor "&&".toList with
      | some k => trim_copy (cursor.take k)
      | none => trim_copy cursor := by
  unfold first_segment
  cases strstr cursor "&&".toList <;> simp [dup_range]

/-- The segments of the chain loop are the pieces of the text, without the
last one when it is empty, each trimmed. -/
theorem segments_split : ∀ (fuel : Nat) (cursor : CStr), cursor.length ≤ fuel →
    segments fuel cursor = (drop_empty_last (split_and cursor)).map trim_copy := by
  intro fuel
  induction fuel with
  | zero =>
    intro cursor h
    have hc : cursor = [] := List.eq_nil_of_length_eq_zero (by omega)
    subst hc
    simp [segments, split_and, drop_empty_last]
  | succ f ih =>
    intro cursor h
    by_cases hc : cursor = []
    · subst hc
      simp [segments, split_and, drop_empty_last]
    · rw [segments, if_neg hc, split_and_strstr (cursor.length + 1) cursor (by omega),
        first_segment_eq]
      cases hk : strstr cursor "&&".toList with
      | none => simp [drop_empty_last, hc]
      | some k =>
        have hpos : 0 < cursor.length := List.length_pos.mpr hc
        have hd : (cursor.drop (k + 2)).length ≤ f := by
          simp only [List.length_drop]
          omega
        simp only
        rw [drop_empty_last_cons _ _
          (split_and_ne_nil ((cursor.drop (k + 2)).length + 1) _ (by omega)),
          List.map_cons, ih _ hd]

theorem trim_copy_nil : trim_copy [] = [] := rfl

theorem trim_copy_cons_blank (c : Char) (p : CStr) (hc : is_space c = true) :
    trim_copy (c :: p) = trim_copy p := by
  unfold trim_copy dup_range
  simp only [List.takeWhile_cons, hc, ↓reduceIte, List.length_cons, List.drop_succ_cons]
  congr 1
  omega

theorem commands_of_pieces_append (l1 l2 : List CStr) :
    commands_of_pieces (l1 ++ l2) = commands_of_pieces l1 ++ commands_of_pieces l2 := by
  simp [commands_of_pieces]

theorem commands_of_pieces_drop_empty_last : ∀ (l : List CStr),
    commands_of_pieces (drop_empty_last l) = commands_of_pieces l
  | [] => rfl
  | [p] => by
    rw [drop_empty_last]
    split
    · next h => subst h; rfl
    · rfl
  | p :: q :: ps => by
    rw [drop_empty_last]
    have ih := commands_of_pieces_drop_empty_last (q :: ps)
    simp only [commands_of_pieces, List.map_cons, List.filter_cons] at ih ⊢
    rw [ih]

theorem commands_of_pieces_cons_head (c : Char) (hc : is_space c = true) (l : List CStr)
    (hl : l ≠ []) : commands_of_pieces (cons_head c l) = commands_of_pieces l := by
  cases l with
  | nil => exact absurd rfl hl
  | cons p ps =>
    simp only [cons_head, commands_of_pieces, List.map_cons, trim_copy_cons_blank c p hc]

/-- The segments of a line that are not blank are the trimmed pieces of the
line that are not blank. -/
theorem segments_commands (fuel : Nat) (line : CStr) (h : line.length ≤ fuel) :
    (segments fuel line).filter (fun s => !is_empty_or_ws s)
      = commands_of_pieces (split_and line) := by
  rw [segments_split fuel line h, ← commands_of_pieces_drop_empty_last]
  rfl

theorem split_and_cons (c : Char) (l : CStr) (hc : c ≠ '&') (hl : l ≠ []) :
    split_and (c :: l) = cons_head c (split_and l) := by
  cases l with
  | nil => exact absurd rfl hl
  | cons d rest =>
    rw [split_and, if_neg (fun h => hc h.1)]

theorem split_and_sep (X : CStr) : split_and ('&' :: '&' :: X) = [] :: split_and X := by
  rw [split_and, if_pos ⟨rfl, rfl⟩]

/-- An occurrence of `&&` after a text that does not end in `&` separates the
pieces of that text from the pieces of what follows. -/
theorem split_and_append_sep (X : CStr) : ∀ (n : Nat) (P : CStr), P.length < n →
    P.getLast? ≠ some '&' →
    split_and (P ++ '&' :: '&' :: X) = split_and P ++ split_and X := by
  intro n
  induction n with
  | zero => intro P h; omega
  | succ n ih =>
    intro P hP hlast
    match P with
    | [] => simp [split_and]
    | [c] =>
      have hc : c ≠ '&' := by
        intro e; subst e; exact hlast rfl
      simp only [List.cons_append, List.nil_append]
      rw [split_and_cons c _ hc (by simp), split_and_sep]
      simp [cons_head, split_and]
    | c :: d :: rest =>
      simp only [List.cons_append]
      rw [split_and, split_and]
      by_cases h : c = '&' ∧ d = '&'
      · rw [if_pos h, if_pos h]
        have hr : rest ≠ [] := by
          intro e; subst e
          obtain ⟨h1, h2⟩ := h
          subst h1; subst h2
          exact hlast rfl
        have hl2 : rest.getLast? ≠ some '&' := by
          cases rest with
          | nil => exact absurd rfl hr
          | cons e es =>
            rw [List.getLast?_cons_cons, List.getLast?_cons_cons] at hlast
            exact hlast
        rw [ih rest (by simp only [List.length_cons] at hP ⊢; omega) hl2]
        rfl
      · rw [if_neg h, if_neg h]
        have hl2 : (d :: rest).getLast? ≠ some '&' := by
          rw [List.getLast?_cons_cons] at hlast
          exact hlast
        have e := ih (d :: rest) (by simp only [List.length_cons] at hP ⊢; omega) hl2
        simp only [List.cons_append] at e
        rw [e]
        have hne := split_and_ne_nil ((d :: rest).length + 1) (d :: rest) (by omega)
        cases hs : split_and (d :: rest) with
        | nil => exact absurd hs hne
        | cons p ps => rfl

theorem getLast?_snoc_blank (A : CStr) : (A ++ [' ']).getLast? ≠ some '&' := by
  rw [List.getLast?_append]
  simp

theorem commands_chain (A B : CStr) :
    commands_of_pieces (split_and (A ++ " && ".toList ++ B))
      = commands_of_pieces (split_and (A ++ [' '])) ++
        commands_of_pieces (split_and (' ' :: B)) := by
  have e : A ++ " && ".toList ++ B = (A ++ [' ']) ++ '&' :: '&' :: (' ' :: B) := by
    simp
  rw [e, split_and_append_sep _ ((A ++ [' ']).length + 1) _ (by omega) (getLast?_snoc_blank A),
    commands_of_pieces_append]

theorem commands_blank_between (A B : CStr) :
    commands_of_pieces (split_and (A ++ " && && ".toList ++ B))
      = commands_of_pieces (split_and (A ++ " && ".toList ++ B)) := by
  have e : A ++ " && && ".toList ++ B
      = (A ++ [' ']) ++ '&' :: '&' :: ([' '] ++ '&' :: '&' :: (' ' :: B)) := by
    simp
  rw [commands_chain, e,
    split_and_append_sep _ ((A ++ [' ']).length + 1) _ (by omega) (getLast?_snoc_blank A),
    split_and_append_sep _ 2 [' '] (by decide) (by decide),
    commands_of_pieces_append, commands_of_pieces_append]
  rfl

theorem commands_blank_first (A B : CStr) :
    commands_of_pieces (split_and ("&& ".toList ++ A ++ " && ".toList ++ B))
      = commands_of_pieces (split_and (A ++ " && ".toList ++ B)) := by
  have e : "&& ".toList ++ A ++ " && ".toList ++ B
      = '&' :: '&' :: ((' ' :: (A ++ [' '])) ++ '&' :: '&' :: (' ' :: B)) := by
    simp
  have hl : (' ' :: (A ++ [' '])).getLast? ≠ some '&' := by
    have := getLast?_snoc_blank (' ' :: A)
    simpa using this
  rw [e, commands_chain A B, split_and_sep,
    split_and_append_sep _ ((' ' :: (A ++ [' '])).length + 1) _ (by omega) hl,
    split_and_cons ' ' (A ++ [' ']) (by decide) (by simp)]
  have hne := split_and_ne_nil ((A ++ [' ']).length + 1) (A ++ [' ']) (by omega)
  have e2 : ∀ l : List CStr, commands_of_pieces ([] :: l) = commands_of_pieces l := fun _ => rfl
  rw [e2, commands_of_pieces_append, commands_of_pieces_cons_head ' ' rfl _ hne]

theorem without_markers_append (a b : Trace) :
    without_markers (a ++ b) = without_markers a ++ without_markers b := by
  simp [without_markers]

theorem without_markers_snoc (t1 t2 l : Trace)
    (h : without_markers t1 = without_markers t2) :
    without_markers (t1 ++ l) = without_markers (t2 ++ l) := by
  rw [without_markers_append, without_markers_append, h]

theorem open_redirection_fds_markers (W : OS) (hW : W.ignores_markers) (rd : Redirection)
    (t1 t2 : Trace) (h : without_markers t1 = without_markers t2) :
    (open_redirection_fds W rd t1).1 = (open_redirection_fds W rd t2).1 ∧
    (open_redirection_fds W rd t1).2.1 = (open_redirection_fds W rd t2).2.1 ∧
    without_markers (open_redirection_fds W rd t1).2.2
      = without_markers (open_redirection_fds W rd t2).2.2 := by
  have a1 : W.open_in t1 = W.open_in t2 := (hW t1 t2 h).2.1
  have a2 : W.open_out t1 = W.open_out t2 := (hW t1 t2 h).2.2.1
  have a3 : W.open_out (t1 ++ [Event.open_in (rd.in_path.getD []) true])
      = W.open_out (t2 ++ [Event.open_in (rd.in_path.getD []) true]) :=
    (hW _ _ (without_markers_snoc t1 t2 _ h)).2.2.1
  unfold open_redirection_fds
  by_cases hin : rd.has_in = true <;> by_cases hout : rd.has_out = true <;>
    by_cases h1 : W.open_in t2 (rd.in_path.getD []) = true <;>
    by_cases h2 : W.open_out t2 (rd.out_path.getD []) = true <;>
    by_cases h3 : W.open_out (t2 ++ [Event.open_in (rd.in_path.getD []) true])
      (rd.out_path.getD []) = true <;>
    simp [hin, hout, a1, a2, a3, h1, h2, h3, print_io_error, without_markers_append, h]

theorem setup_pipes_markers (W : OS) (hW : W.ignores_markers) (rd : Redirection)
    (stdin_data : Option CStr) (fds : ExecFds)
    (t1 t2 : Trace) (h : without_markers t1 = without_markers t2) :
    (setup_pipes W rd stdin_data fds t1).1 = (setup_pipes W rd stdin_data fds t2).1 ∧
    (setup_pipes W rd stdin_data fds t1).2.1 = (setup_pipes W rd stdin_data fds t2).2.1 ∧
    without_markers (setup_pipes W rd stdin_data fds t1).2.2
      = without_markers (setup_pipes W rd stdin_data fds t2).2.2 := by
  have a1 : W.pipe t1 = W.pipe t2 := (hW t1 t2 h).2.2.2.1
  have a2 : W.pipe (t1 ++ [Event.pipe true]) = W.pipe (t2 ++ [Event.pipe true]) :=
    (hW _ _ (without_markers_snoc t1 t2 _ h)).2.2.2.1
  unfold setup_pipes
  by_cases hout : rd.has_out = true <;>
    by_cases h1 : W.pipe t2 = true <;>
    by_cases h2 : W.pipe (t2 ++ [Event.pipe true]) = true <;>
    by_cases hf : (stdin_data.isSome && decide ((stdin_data.getD []).length > 0) &&
      !rd.has_in) = true <;>
    simp [hout, a1, a2, h1, h2, hf, without_markers_append, h]

theorem feed_drain_markers (W : OS) (hW : W.ignores_markers) (u1 u2 : Trace)
    (hu : without_markers u1 = without_markers u2) (b c : Bool) (d : Trace) :
    without_markers
        (if c = true then
          (if b = true then u1 ++ d else u1) ++
            [Event.drain (W.captured (if b = true then u1 ++ d else u1))]
        else (if b = true then u1 ++ d else u1))
      = without_markers
        (if c = true then
          (if b = true then u2 ++ d else u2) ++
            [Event.drain (W.captured (if b = true then u2 ++ d else u2))]
        else (if b = true then u2 ++ d else u2)) := by
  have e1 : W.captured u1 = W.captured u2 := (hW _ _ hu).2.2.2.2.2
  have e2 : W.captured (u1 ++ d) = W.captured (u2 ++ d) :=
    (hW _ _ (without_markers_snoc _ _ _ hu)).2.2.2.2.2
  cases b <;> cases c <;> simp [e1, e2, without_markers_append, hu]

theorem launch_supervisor_markers (W : OS) (hW : W.ignores_markers) (argv : List CStr)
    (rd : Redirection) (stdin_data : Option CStr) (fds : ExecFds)
    (t1 t2 : Trace) (h : without_markers t1 = without_markers t2) :
    without_markers (launch_supervisor W argv rd stdin_data fds t1)
      = without_markers (launch_supervisor W argv rd stdin_data fds t2) := by
  have a1 := (hW _ _ (without_markers_snoc t1 t2 [.stderr ("[DEBUG] parent process, pid=".toList
    ++ fmt_int W.pid ++ "\n".toList)] h)).1
  unfold launch_supervisor
  simp only
  rw [a1]
  exact feed_drain_markers W hW _ _
    (without_markers_snoc _ _ _ (without_markers_snoc _ _ _ h)) _ _ _

theorem run_command_markers (W : OS) (hW : W.ignores_markers) (argv : List CStr)
    (rd : Redirection) (stdin_data : Option CStr)
    (t1 t2 : Trace) (h : without_markers t1 = without_markers t2) :
    (run_command W argv rd stdin_data t1).1 = (run_command W argv rd stdin_data t2).1 ∧
    without_markers (run_command W argv rd stdin_data t1).2
      = without_markers (run_command W argv rd stdin_data t2).2 := by
  have h0 := without_markers_snoc t1 t2 [.call argv rd stdin_data] h
  unfold run_command
  cases argv with
  | nil => exact ⟨rfl, h0⟩
  | cons a0 rest =>
    by_cases hs : a0 = "./shell".toList
    · simp only [hs, ↓reduceIte]
      rw [hs] at h0
      exact ⟨trivial, h0⟩
    · simp only [hs, ↓reduceIte]
      obtain ⟨o1, o2, o3⟩ := open_redirection_fds_markers W hW rd _ _ h0
      rcases ha : open_redirection_fds W rd (t1 ++ [.call (a0 :: rest) rd stdin_data])
        with ⟨b1, f1, u1⟩
      rcases hb : open_redirection_fds W rd (t2 ++ [.call (a0 :: rest) rd stdin_data])
        with ⟨b2, f2, u2⟩
      rw [ha, hb] at o1 o2 o3
      simp only at o1 o2 o3
      subst o1; subst o2
      rw [ha, hb]
      cases b1 with
      | false => exact ⟨rfl, o3⟩
      | true =>
        simp only
        obtain ⟨p1, p2, p3⟩ := setup_pipes_markers W hW rd stdin_data f1 _ _ o3
        rcases hc : setup_pipes W rd stdin_data f1 u1 with ⟨c1, g1, v1⟩
        rcases hd : setup_pipes W rd stdin_data f1 u2 with ⟨c2, g2, v2⟩
        rw [hc, hd] at p1 p2 p3
        simp only at p1 p2 p3
        subst p1; subst p2
        cases c1 with
        | false => exact ⟨rfl, p3⟩
        | true =>
          simp only
          have q := launch_supervisor_markers W hW (a0 :: rest) rd stdin_data g1 _ _ p3
          have es : W.supervisor (launch_supervisor W (a0 :: rest) rd stdin_data g1 v1)
              = W.supervisor (launch_supervisor W (a0 :: rest) rd stdin_data g1 v2) :=
            (hW _ _ q).2.2.2.2.1
          rw [es]
          cases supervisor_status ("proc_clone".toList :: "--".toList :: a0 :: rest)
              (W.supervisor (launch_supervisor W (a0 :: rest) rd stdin_data g1 v2)) with
          | exited rc =>
            simp only
            by_cases h127 : rc = 127
            · simp only [h127, ↓reduceIte, print_cmd_not_found, true_and]
              exact without_markers_snoc _ _ _ (without_markers_snoc _ _ _ q)
            · simp only [h127, ↓reduceIte, true_and]
              exact without_markers_snoc _ _ _ q
          | signaled sig => exact ⟨rfl, without_markers_snoc _ _ _ q⟩
          | other => exact ⟨rfl, without_markers_snoc _ _ _ q⟩

theorem execute_segment_markers (W : OS) (hW : W.ignores_markers) (seg all : CStr)
    (pos total last_rc : Nat) (t1 t2 : Trace) (h : without_markers t1 = without_markers t2) :
    (execute_segment W seg all pos total last_rc t1).1
      = (execute_segment W seg all pos total last_rc t2).1 ∧
    (execute_segment W seg all pos total last_rc t1).2.1
      = (execute_segment W seg all pos total last_rc t2).2.1 ∧
    without_markers (execute_segment W seg all pos total last_rc t1).2.2
      = without_markers (execute_segment W seg all pos total last_rc t2).2.2 := by
  unfold execute_segment
  by_cases hb : is_empty_or_ws seg = true
  · simp only [hb, ↓reduceIte]
    exact ⟨trivial, trivial, h⟩
  · simp only [hb, ↓reduceIte, Bool.false_eq_true]
    cases parse_command_ast seg with
    | fail synt =>
      cases synt
      · exact ⟨rfl, rfl, h⟩
      · exact ⟨rfl, rfl, without_markers_snoc _ _ _ h⟩
    | ok cmd =>
      simp only
      by_cases hc : is_plain_cat_cmd cmd.argv cmd.rd = true
      · simp only [hc, ↓reduceIte]
        obtain ⟨r1, r2⟩ := run_command_markers W hW cmd.argv cmd.rd
          (some (all.drop (if pos < total ∧ all.getD pos '\x00' = '\n' then pos + 1 else pos)))
          t1 t2 h
        exact ⟨trivial, r1, r2⟩
      · simp only [hc, ↓reduceIte, Bool.false_eq_true]
        obtain ⟨r1, r2⟩ := run_command_markers W hW cmd.argv cmd.rd none t1 t2 h
        rw [r1]
        exact ⟨rfl, rfl, r2⟩

theorem drop_length_takeWhile (p : Char → Bool) : ∀ (s : CStr),
    s.drop (s.takeWhile p).length = s.dropWhile p
  | [] => rfl
  | c :: s => by
    by_cases h : p c = true
    · simp only [List.takeWhile_cons, h, ↓reduceIte, List.length_cons, List.drop_succ_cons,
        List.dropWhile_cons]
      exact drop_length_takeWhile p s
    · simp [List.takeWhile_cons, List.dropWhile_cons, h]

/-- The copy `trim_copy` makes: the text without its leading blanks, and that
without its trailing blanks. -/
theorem trim_copy_eq (s : CStr) :
    trim_copy s = ((s.dropWhile is_space).reverse.dropWhile is_space).reverse := by
  unfold trim_copy dup_range
  simp only
  rw [drop_length_takeWhile]
  have hl : (s.dropWhile is_space).length = s.length - (s.takeWhile is_space).length := by
    rw [← drop_length_takeWhile, List.length_drop]
  rw [← drop_length_takeWhile is_space (s.dropWhile is_space).reverse, List.drop_reverse,
    List.reverse_reverse, hl]
  congr 1
  omega

theorem chain_loop_segments (W : OS) (all : CStr) (pos total : Nat) :
    ∀ (fuel : Nat) (cursor : CStr) (last_rc : Nat) (tr : Trace),
      chain_loop W all pos total fuel cursor last_rc tr
        = run_segments W all pos total (segments fuel cursor) last_rc tr := by
  intro fuel
  induction fuel with
  | zero =>
    intro cursor last_rc tr
    rw [chain_loop_zero, segments, run_segments]
  | succ f ih =>
    intro cursor last_rc tr
    by_cases hc : cursor = []
    · subst hc
      rw [chain_loop_nil, segments]
      simp [run_segments]
    · rw [chain_loop, segments]
      simp only [hc, ↓reduceIte]
      cases strstr cursor "&&".toList with
      | none =>
        simp only [run_segments]
      | some k =>
        simp only [run_segments]
        rw [ih]

theorem execute_segment_blank (W : OS) (seg all : CStr) (pos total last_rc : Nat) (tr : Trace)
    (h : is_empty_or_ws seg = true) :
    execute_segment W seg all pos total last_rc tr = (.SEG_CONTINUE, last_rc, tr) := by
  unfold execute_segment
  simp [h]

theorem without_markers_seg_done (tr : Trace) (seg : CStr) (res : SegResult) (rc : Nat) :
    without_markers (tr ++ [.seg_done seg res rc]) = without_markers tr := by
  simp [without_markers, Event.is_seg_done]

/-- The chain over a list of segments and the chain over its segments that
are not blank end the same way and add the same events, the `seg_done`
records apart. -/
theorem run_segments_commands (W : OS) (hW : W.ignores_markers) (all : CStr) (pos total : Nat) :
    ∀ (l : List CStr) (last_rc : Nat) (t1 t2 : Trace),
      without_markers t1 = without_markers t2 →
      (run_segments W all pos total l last_rc t1).1
        = (run_segments W all pos total (l.filter (fun s => !is_empty_or_ws s)) last_rc t2).1 ∧
      (run_segments W all pos total l last_rc t1).2.1
        = (run_segments W all pos total (l.filter (fun s => !is_empty_or_ws s)) last_rc t2).2.1 ∧
      without_markers (run_segments W all pos total l last_rc t1).2.2
        = without_markers
          (run_segments W all pos total (l.filter (fun s => !is_empty_or_ws s)) last_rc t2).2.2 := by
  intro l
  induction l with
  | nil =>
    intro last_rc t1 t2 h
    simp only [List.filter_nil, run_segments]
    exact ⟨trivial, trivial, h⟩
  | cons seg rest ih =>
    intro last_rc t1 t2 h
    by_cases hb : is_empty_or_ws seg = true
    · have hf : (seg :: rest).filter (fun s => !is_empty_or_ws s)
          = rest.filter (fun s => !is_empty_or_ws s) := by
        simp [List.filter_cons, hb]
      rw [hf, run_segments, execute_segment_blank W seg all pos total last_rc t1 hb]
      simp only [reduceCtorEq, ↓reduceIte]
      exact ih last_rc _ t2 (by rw [without_markers_seg_done]; exact h)
    · have hf : (seg :: rest).filter (fun s => !is_empty_or_ws s)
          = seg :: rest.filter (fun s => !is_empty_or_ws s) := by
        simp [List.filter_cons, hb]
      rw [hf, run_segments, run_segments]
      obtain ⟨e1, e2, e3⟩ := execute_segment_markers W hW seg all pos total last_rc t1 t2 h
      rcases hx : execute_segment W seg all pos total last_rc t1 with ⟨r1, c1, u1⟩
      rcases hy : execute_segment W seg all pos total last_rc t2 with ⟨r2, c2, u2⟩
      rw [hx, hy] at e1 e2 e3
      simp only at e1 e2 e3
      subst e1; subst e2
      simp only
      have h1 : without_markers (u1 ++ [Event.seg_done seg r1 c1])
          = without_markers (u2 ++ [Event.seg_done seg r1 c1]) :=
        without_markers_snoc _ _ _ e3
      cases r1 with
      | SEG_EXIT => exact ⟨rfl, rfl, h1⟩
      | SEG_BREAK => exact ⟨rfl, rfl, h1⟩
      | SEG_CONTINUE =>
        simp only [reduceCtorEq, ↓reduceIte]
        exact ih c1 _ _ h1

/-- Two texts with the same commands give chains that end the same way and
add the same events, the `seg_done` records apart. -/
theorem chain_loop_commands (W : OS) (hW : W.ignores_markers) (all : CStr) (pos total : Nat)
    (f1 f2 : Nat) (l1 l2 : CStr) (last_rc : Nat) (tr : Trace)
    (h : (segments f1 l1).filter (fun s => !is_empty_or_ws s)
      = (segments f2 l2).filter (fun s => !is_empty_or_ws s)) :
    (chain_loop W all pos total f1 l1 last_rc tr).1
      = (chain_loop W all pos total f2 l2 last_rc tr).1 ∧
    (chain_loop W all pos total f1 l1 last_rc tr).2.1
      = (chain_loop W all pos total f2 l2 last_rc tr).2.1 ∧
    without_markers (chain_loop W all pos total f1 l1 last_rc tr).2.2
      = without_markers (chain_loop W all pos total f2 l2 last_rc tr).2.2 := by
  rw [chain_loop_segments, chain_loop_segments]
  obtain ⟨a1, a2, a3⟩ := run_segments_commands W hW all pos total (segments f1 l1) last_rc tr tr rfl
  obtain ⟨b1, b2, b3⟩ := run_segments_commands W hW all pos total (segments f2 l2) last_rc tr tr rfl
  rw [h] at a1 a2 a3
  exact ⟨a1.trans b1.symm, a2.trans b2.symm, a3.trans b3.symm⟩

theorem OS.always_ignores_markers (st : WaitStatus) : (OS.always st).ignores_markers :=
  fun _ _ _ => ⟨rfl, rfl, rfl, rfl, rfl, rfl⟩

/-- C26. Segment splitting. The pieces of a line are cut at the occurrences
of `&&` that `strstr` finds from left to right, each search starting after
the occurrence before it (so `a &&& b` gives `a ` and `& b`), and the pieces
joined by `&&` give the line back. The segments the chain loop visits are
these pieces in order, the last one left out when it is empty, each without
its leading and trailing spaces and tabs. A blank segment is skipped: it
adds nothing to the trace, its result is `SEG_CONTINUE` and `last_rc` is
kept. Hence `A && && B` and `&& A && B` have the commands of `A && B`, and
for an operating system whose answers do not depend on the `seg_done`
records their chains end as the chain of `A && B` does, with the same return
code and the same events, the `seg_done` records apart. -/
theorem segment_splitting (W : OS) (all : CStr) (pos total : Nat) (line A B : CStr)
    (last_rc : Nat) (tr : Trace) (hW : W.ignores_markers) :
    (split_and line =
        match strstr line "&&".toList with
        | none => [line]
        | some k => line.take k :: split_and (line.drop (k + 2))) ∧
    List.intercalate "&&".toList (split_and line) = line ∧
    (split_and "a &&& b".toList = ["a ".toList, "& b".toList] ∧
      segments 7 "a &&& b".toList = ["a".toList, "& b".toList]) ∧
    (segments line.length line = (drop_empty_last (split_and line)).map trim_copy ∧
      (∀ s, trim_copy s = ((s.dropWhile is_space).reverse.dropWhile is_space).reverse) ∧
      ∀ c, is_space c = true ↔ c = ' ' ∨ c = '\t') ∧
    (chain_loop W all pos total line.length line last_rc tr
        = run_segments W all pos total (segments line.length line) last_rc tr ∧
      ∀ seg, is_empty_or_ws seg = true →
        execute_segment W seg all pos total last_rc tr = (.SEG_CONTINUE, last_rc, tr)) ∧
    ((segments (A ++ " && && ".toList ++ B).length (A ++ " && && ".toList ++ B)).filter
          (fun s => !is_empty_or_ws s)
        = (segments (A ++ " && ".toList ++ B).length (A ++ " && ".toList ++ B)).filter
          (fun s => !is_empty_or_ws s) ∧
      (segments ("&& ".toList ++ A ++ " && ".toList ++ B).length
          ("&& ".toList ++ A ++ " && ".toList ++ B)).filter (fun s => !is_empty_or_ws s)
        = (segments (A ++ " && ".toList ++ B).length (A ++ " && ".toList ++ B)).filter
          (fun s => !is_empty_or_ws s)) ∧
    ((chain_loop W all pos total (A ++ " && && ".toList ++ B).length
          (A ++ " && && ".toList ++ B) last_rc tr).1
        = (chain_loop W all pos total (A ++ " && ".toList ++ B).length
          (A ++ " && ".toList ++ B) last_rc tr).1 ∧
      (chain_loop W all pos total (A ++ " && && ".toList ++ B).length
          (A ++ " && && ".toList ++ B) last_rc tr).2.1
        = (chain_loop W all pos total (A ++ " && ".toList ++ B).length
          (A ++ " && ".toList ++ B) last_rc tr).2.1 ∧
      without_markers (chain_loop W all pos total (A ++ " && && ".toList ++ B).length
          (A ++ " && && ".toList ++ B) last_rc tr).2.2
        = without_markers (chain_loop W all pos total (A ++ " && ".toList ++ B).length
          (A ++ " && ".toList ++ B) last_rc tr).2.2) ∧
    ((chain_loop W all pos total ("&& ".toList ++ A ++ " && ".toList ++ B).length
          ("&& ".toList ++ A ++ " && ".toList ++ B) last_rc tr).1
        = (chain_loop W all pos total (A ++ " && ".toList ++ B).length
          (A ++ " && ".toList ++ B) last_rc tr).1 ∧
      (chain_loop W all pos total ("&& ".toList ++ A ++ " && ".toList ++ B).length
          ("&& ".toList ++ A ++ " && ".toList ++ B) last_rc tr).2.1
        = (chain_loop W all pos total (A ++ " && ".toList ++ B).length
          (A ++ " && ".toList ++ B) last_rc tr).2.1 ∧
      without_markers (chain_loop W all pos total ("&& ".toList ++ A ++ " && ".toList ++ B).length
          ("&& ".toList ++ A ++ " && ".toList ++ B) last_rc tr).2.2
        = without_markers (chain_loop W all pos total (A ++ " && ".toList ++ B).length
          (A ++ " && ".toList ++ B) last_rc tr).2.2) := by
  have c1 : (segments (A ++ " && && ".toList ++ B).length (A ++ " && && ".toList ++ B)).filter
        (fun s => !is_empty_or_ws s)
      = (segments (A ++ " && ".toList ++ B).length (A ++ " && ".toList ++ B)).filter
        (fun s => !is_empty_or_ws s) := by
    rw [segments_commands _ _ (Nat.le_refl _), segments_commands _ _ (Nat.le_refl _),
      commands_blank_between]
  have c2 : (segments ("&& ".toList ++ A ++ " && ".toList ++ B).length
        ("&& ".toList ++ A ++ " && ".toList ++ B)).filter (fun s => !is_empty_or_ws s)
      = (segments (A ++ " && ".toList ++ B).length (A ++ " && ".toList ++ B)).filter
        (fun s => !is_empty_or_ws s) := by
    rw [segments_commands _ _ (Nat.le_refl _), segments_commands _ _ (Nat.le_refl _),
      commands_blank_first]
  refine ⟨split_and_strstr (line.length + 1) line (Nat.lt_succ_self _),
    split_and_join (line.length + 1) line (Nat.lt_succ_self _),
    ⟨by decide, by decide⟩,
    ⟨segments_split _ _ (Nat.le_refl _), trim_copy_eq, ?_⟩,
    ⟨chain_loop_segments W all pos total _ _ _ _,
      fun seg h => execute_segment_blank W seg all pos total last_rc tr h⟩,
    ⟨c1, c2⟩,
    chain_loop_commands W hW all pos total _ _ _ _ last_rc tr c1,
    chain_loop_commands W hW all pos total _ _ _ _ last_rc tr c2⟩
  intro c
  simp [is_space]

/-- C26, at the lines `echo a && && echo b`, `&& echo a && echo b` and
`echo a && echo b`, every command ending with status 0. -/
theorem segment_splitting_witness :
    (OS.always (.exited 0)).ignores_markers ∧
    segments 19 "echo a && && echo b".toList
      = ["echo a".toList, [], "echo b".toList] ∧
    segments 19 "&& echo a && echo b".toList
      = [[], "echo a".toList, "echo b".toList] ∧
    forked (shell_main (OS.always (.exited 0)) (some "echo a && && echo b".toList)).2
      = [["proc_clone".toList, "--".toList, "echo".toList, "a".toList],
         ["proc_clone".toList, "--".toList, "echo".toList, "b".toList]] ∧
    forked (shell_main (OS.always (.exited 0)) (some "&& echo a && echo b".toList)).2
      = [["proc_clone".toList, "--".toList, "echo".toList, "a".toList],
         ["proc_clone".toList, "--".toList, "echo".toList, "b".toList]] ∧
    without_markers (chain_loop (OS.always (.exited 0)) [] 0 0
        ("echo a".toList ++ " && && ".toList ++ "echo b".toList).length
        ("echo a".toList ++ " && && ".toList ++ "echo b".toList) 0 []).2.2
      = without_markers (chain_loop (OS.always (.exited 0)) [] 0 0
        ("echo a".toList ++ " && ".toList ++ "echo b".toList).length
        ("echo a".toList ++ " && ".toList ++ "echo b".toList) 0 []).2.2 :=
  ⟨OS.always_ignores_markers _, by decide, by decide, by decide, by decide,
    (segment_splitting (OS.always (.exited 0)) [] 0 0 "a &&& b".toList "echo a".toList
      "echo b".toList 0 [] (OS.always_ignores_markers _)).2.2.2.2.2.2.1.2.2⟩

/-! ## The end of the interpreter process -/

theorem alive_nil : alive [] = true := rfl

theorem alive_cons (e : Event) (l : Trace) : alive (e :: l) = (!e.is_fatal && alive l) := by
  simp [alive]

theorem alive_append (a b : Trace) : alive (a ++ b) = (alive a && alive b) := by
  simp [alive]

/-- A trace without a record of the end of the process is the run of the
process. -/
theorem process_trace_of_alive : ∀ (tr : Trace), alive tr = true → process_trace tr = tr
  | [], _ => rfl
  | e :: rest, h => by
    rw [alive_cons, Bool.and_eq_true] at h
    have he : e.is_fatal = false := by simpa using h.1
    rw [process_trace, he, process_trace_of_alive rest h.2]
    simp

/-- The process whose trace has no record of its end ends when `main`
returns, with the status returned. -/
theorem process_end_of_alive (status : Nat) :
    ∀ (tr : Trace), alive tr = true → process_end status tr = .exited status
  | [], _ => rfl
  | e :: rest, h => by
    rw [alive_cons, Bool.and_eq_true] at h
    have he : e.is_fatal = false := by simpa using h.1
    have ih := process_end_of_alive status rest h.2
    cases e <;> first
      | (simp only [process_end]; exact ih)
      | (simp [Event.is_fatal] at he)

/-- The run of the process is the beginning of the trace. -/
theorem process_trace_prefix : ∀ (tr : Trace), ∃ rest, tr = process_trace tr ++ rest
  | [] => ⟨[], rfl⟩
  | e :: l => by
    rw [process_trace]
    by_cases he : e.is_fatal = true
    · exact ⟨l, by simp [he]⟩
    · obtain ⟨r, hr⟩ := process_trace_prefix l
      refine ⟨r, ?_⟩
      simp only [he, Bool.false_eq_true, ↓reduceIte, List.cons_append]
      rw [← hr]

theorem feed_payload_alive (W : OS) (hf : W.feed_returns) (data : CStr) :
    alive (feed_payload W data) = true := by
  obtain ⟨k, hk⟩ := hf data
  simp [feed_payload, hk, alive_cons, alive_nil, Event.is_fatal]

theorem open_redirection_fds_alive (W : OS) (rd : Redirection) (tr : Trace) :
    alive (open_redirection_fds W rd tr).2.2 = alive tr := by
  unfold open_redirection_fds
  by_cases hin : rd.has_in = true <;> by_cases hout : rd.has_out = true <;>
    by_cases h1 : W.open_in tr (rd.in_path.getD []) = true <;>
    by_cases h2 : W.open_out tr (rd.out_path.getD []) = true <;>
    by_cases h3 : W.open_out (tr ++ [Event.open_in (rd.in_path.getD []) true])
      (rd.out_path.getD []) = true <;>
    simp [hin, hout, h1, h2, h3, print_io_error, alive_append, alive_cons, alive_nil,
      Event.is_fatal]

theorem setup_pipes_alive (W : OS) (rd : Redirection) (stdin_data : Option CStr)
    (fds : ExecFds) (tr : Trace) :
    alive (setup_pipes W rd stdin_data fds tr).2.2 = alive tr := by
  unfold setup_pipes
  by_cases hout : rd.has_out = true <;>
    by_cases h1 : W.pipe tr = true <;>
    by_cases h2 : W.pipe (tr ++ [Event.pipe true]) = true <;>
    by_cases hf : (stdin_data.isSome && decide ((stdin_data.getD []).length > 0) &&
      !rd.has_in) = true <;>
    simp [hout, h1, h2, hf, alive_append, alive_cons, alive_nil, Event.is_fatal]

theorem launch_supervisor_alive (W : OS) (hf : W.feed_returns) (argv : List CStr)
    (rd : Redirection) (stdin_data : Option CStr) (fds : ExecFds) (tr : Trace) :
    alive (launch_supervisor W argv rd stdin_data fds tr) = alive tr := by
  have hfp := feed_payload_alive W hf (stdin_data.getD [])
  unfold launch_supervisor
  by_cases h1 : fds.pout = true <;> by_cases h2 : fds.feed_stdin = true <;>
    simp [h1, h2, hfp, alive_append, alive_cons, alive_nil, Event.is_fatal]

/-- When the write of a payload returns, `run_command` adds no record of the
end of the process: the interpreter gets to its `return`. -/
theorem run_command_alive (W : OS) (hf : W.feed_returns) (argv : List CStr)
    (rd : Redirection) (stdin_data : Option CStr) (tr : Trace) :
    alive (run_command W argv rd stdin_data tr).2 = alive tr := by
  have h0 : alive (tr ++ [.call argv rd stdin_data]) = alive tr := by
    simp [alive_append, alive_cons, alive_nil, Event.is_fatal]
  unfold run_command
  cases argv with
  | nil => exact h0
  | cons a0 rest =>
    by_cases hs : a0 = "./shell".toList
    · simp only [hs, ↓reduceIte]
      rw [hs] at h0
      exact h0
    · simp only [hs, ↓reduceIte]
      have o := open_redirection_fds_alive W rd (tr ++ [.call (a0 :: rest) rd stdin_data])
      rcases ha : open_redirection_fds W rd (tr ++ [.call (a0 :: rest) rd stdin_data])
        with ⟨b1, f1, u1⟩
      rw [ha] at o
      simp only at o
      rw [ha]
      cases b1 with
      | false => exact o.trans h0
      | true =>
        simp only
        have q := setup_pipes_alive W rd stdin_data f1 u1
        rcases hc : setup_pipes W rd stdin_data f1 u1 with ⟨c1, g1, v1⟩
        rw [hc] at q
        simp only at q
        cases c1 with
        | false => exact q.trans (o.trans h0)
        | true =>
          simp only
          have l := launch_supervisor_alive W hf (a0 :: rest) rd stdin_data g1 v1
          cases supervisor_status ("proc_clone".toList :: "--".toList :: a0 :: rest)
              (W.supervisor (launch_supervisor W (a0 :: rest) rd stdin_data g1 v1)) with
          | exited rc =>
            simp only
            by_cases h127 : rc = 127
            · simp [h127, print_cmd_not_found, alive_append, alive_cons, alive_nil,
                Event.is_fatal, l, q, o, h0]
            · simp [h127, alive_append, alive_cons, alive_nil, Event.is_fatal, l, q, o, h0]
          | signaled sig =>
            simp [alive_append, alive_cons, alive_nil, Event.is_fatal, l, q, o, h0]
          | other =>
            simp [alive_append, alive_cons, alive_nil, Event.is_fatal, l, q, o, h0]

theorem execute_segment_alive (W : OS) (hf : W.feed_returns) (seg all : CStr)
    (pos total last_rc : Nat) (tr : Trace) :
    alive (execute_segment W seg all pos total last_rc tr).2.2 = alive tr := by
  unfold execute_segment
  by_cases hb : is_empty_or_ws seg = true
  · simp only [hb, ↓reduceIte]
  · simp only [hb, ↓reduceIte, Bool.false_eq_true]
    cases parse_command_ast seg with
    | fail synt =>
      cases synt <;>
        simp [print_syntax_error, alive_append, alive_cons, alive_nil, Event.is_fatal]
    | ok cmd =>
      simp only
      by_cases hc : is_plain_cat_cmd cmd.argv cmd.rd = true
      · simp only [hc, ↓reduceIte]
        exact run_command_alive W hf _ _ _ _
      · simp only [hc, ↓reduceIte, Bool.false_eq_true]
        exact run_command_alive W hf _ _ _ _

theorem chain_loop_alive (W : OS) (hf : W.feed_returns) (all : CStr) (pos total : Nat) :
    ∀ (fuel : Nat) (cursor : CStr) (last_rc : Nat) (tr : Trace),
      alive (chain_loop W all pos total fuel cursor last_rc tr).2.2 = alive tr := by
  intro fuel
  induction fuel with
  | zero => intro cursor last_rc tr; rw [chain_loop_zero]
  | succ f ih =>
    intro cursor last_rc tr
    by_cases hc : cursor = []
    · subst hc; rw [chain_loop_nil]
    · rw [chain_loop]
      simp only [hc, ↓reduceIte]
      have he := execute_segment_alive W hf (first_segment cursor) all pos total last_rc tr
      have h1 : ∀ (res : SegResult) (rc : Nat),
          alive ((execute_segment W (first_segment cursor) all pos total last_rc tr).2.2
            ++ [.seg_done (first_segment cursor) res rc]) = alive tr := by
        intro res rc
        simp [alive_append, alive_cons, alive_nil, Event.is_fatal, he]
      split
      · exact h1 _ _
      · split
        · exact h1 _ _
        · cases strstr cursor "&&".toList with
          | none => exact h1 _ _
          | some k =>
            simp only
            rw [ih, h1]

theorem exec_line_alive (W : OS) (hf : W.feed_returns) (all : CStr) (total ls : Nat)
    (tr : Trace) : alive (exec_line W all total ls tr).2.2 = alive tr := by
  unfold exec_line
  simp only
  split
  · exact chain_loop_alive W hf all _ total _ _ _ tr
  · rfl

theorem main_loop_alive (W : OS) (hf : W.feed_returns) (all : CStr) (total : Nat) :
    ∀ (fuel pos : Nat) (tr : Trace),
      alive (main_loop W all total fuel pos tr) = alive tr := by
  intro fuel
  induction fuel with
  | zero => intro pos tr; rw [main_loop]
  | succ f ih =>
    intro pos tr
    rw [main_loop]
    have he := exec_line_alive W hf all total pos tr
    split
    · simp only
      split
      · exact he
      · split
        · exact he
        · rw [ih, he]
    · rfl

/-- When the write of a payload returns, the interpreter ends with the exit
status 0, whatever the script and whatever its commands do, and its trace is
its run. -/
theorem shell_main_exits (W : OS) (hf : W.feed_returns) (stdin : Option (List Char)) :
    (shell_main W stdin).1 = .exited 0 ∧
    process_trace (shell_main W stdin).2 = (shell_main W stdin).2 := by
  unfold shell_main
  cases read_all_stdin stdin with
  | none => exact ⟨rfl, rfl⟩
  | some all =>
    have ha : alive (main_loop W all all.length (all.length + 1) 0 []) = true := by
      rw [main_loop_alive W hf]; rfl
    exact ⟨process_end_of_alive 0 _ ha, process_trace_of_alive _ ha⟩

theorem OS.always_feed_returns (st : WaitStatus) : (OS.always st).feed_returns :=
  fun data => ⟨data.length, rfl⟩

/-- C4. EXIT semantics, evaluated at the script `cat && echo a`, newline,
`echo b`, whose first segment parses to a plain `cat`, with `cat` ending with
status 3. When the payload `echo b` is written in full, `execute_segment`
returns `SEG_EXIT` and nothing follows. When `cat` has closed its input
after 2 bytes, the next `write` of the payload raises SIGPIPE and ends the
interpreter inside `run_command`; when that `write` blocks, the interpreter
stays in it for ever. In both runs `execute_segment` does not return: the
run has no `seg_done` record, and it ends in the write of the payload. -/
theorem exit_semantics_payload_write :
    parses_plain_cat "cat".toList = true ∧
    seg_markers (process_trace
        (shell_main (OS.always (.exited 3)) (some "cat && echo a\necho b".toList)).2)
      = [("cat".toList, .SEG_EXIT, 3)] ∧
    (shell_main { OS.always (.exited 3) with feed := fun _ => .sigpipe 2 }
        (some "cat && echo a\necho b".toList)).1 = .signaled 13 ∧
    process_trace (shell_main { OS.always (.exited 3) with feed := fun _ => .sigpipe 2 }
        (some "cat && echo a\necho b".toList)).2
      = [.call ["cat".toList] ⟨none, none, false, false⟩ (some "echo b".toList), .pipe true,
          .pipe true, .stderr "[DEBUG] parent process, pid=1\n".toList,
          .fork "./proc_clone".toList ["proc_clone".toList, "--".toList, "cat".toList]
            .feed_pipe .capture_pipe,
          .feed "ec".toList, .sigpipe] ∧
    (shell_main { OS.always (.exited 3) with feed := fun _ => .blocked 2 }
        (some "cat && echo a\necho b".toList)).1 = .never ∧
    process_trace (shell_main { OS.always (.exited 3) with feed := fun _ => .blocked 2 }
        (some "cat && echo a\necho b".toList)).2
      = [.call ["cat".toList] ⟨none, none, false, false⟩ (some "echo b".toList), .pipe true,
          .pipe true, .stderr "[DEBUG] parent process, pid=1\n".toList,
          .fork "./proc_clone".toList ["proc_clone".toList, "--".toList, "cat".toList]
            .feed_pipe .capture_pipe,
          .feed "ec".toList, .blocked] := by
  decide

/-- C30. The exit status of the interpreter, evaluated at the script
`cat >/dev/full`, newline, `0123456789`, with `cat` ending with status 1.
When the payload is written in full the interpreter ends with the exit
status 0, the return code 1 of the line being recorded only. When `cat` has
ended after 4 bytes of the payload, the next `write` raises SIGPIPE: the
interpreter is ended by signal 13 and has no exit status 0. When that
`write` blocks, the interpreter never ends. -/
theorem interpreter_exit_status_payload_write :
    ((shell_main (OS.always (.exited 1)) (some "cat >/dev/full\n0123456789".toList)).1
        = .exited 0 ∧
      seg_markers (shell_main (OS.always (.exited 1))
          (some "cat >/dev/full\n0123456789".toList)).2
        = [("cat >/dev/full".toList, .SEG_EXIT, 1)]) ∧
    ((shell_main { OS.always (.exited 1) with feed := fun _ => .sigpipe 4 }
        (some "cat >/dev/full\n0123456789".toList)).1 = .signaled 13 ∧
      process_trace (shell_main { OS.always (.exited 1) with feed := fun _ => .sigpipe 4 }
          (some "cat >/dev/full\n0123456789".toList)).2
        = [.call ["cat".toList] ⟨none, some "/dev/full".toList, false, true⟩
            (some "0123456789".toList),
          .open_out "/dev/full".toList true, .pipe true,
          .stderr "[DEBUG] parent process, pid=1\n".toList,
          .fork "./proc_clone".toList ["proc_clone".toList, "--".toList, "cat".toList]
            .feed_pipe (.file "/dev/full".toList),
          .feed "0123".toList, .sigpipe]) ∧
    (shell_main { OS.always (.exited 1) with feed := fun _ => .blocked 4 }
        (some "cat >/dev/full\n0123456789".toList)).1 = .never := by
  decide

end Vtsh
